import Mathlib

/-!
Verification development for the OpenXMLEditor repository.

The definitions below are shallow embeddings of the repository's code:

* `XMLFmt` embeds `src/services/xmlFormatter.ts` (the `XMLFormatter` class):
  the token type, the tokenizer `parseTokens`, the reprinter `formatTokens`,
  the whitespace collapse `xml.replace(/>\s*</g, '><')`, the fallback
  formatter, and the top-level `formatXML`.  Strings are modelled as
  `List Char`; JavaScript's infinite loop on a `<` with no later `>` is
  modelled by `parseTokens` returning `none`.

* `OXE` embeds the archive session engine of `openXmlFileSystem.ts`
  (`OpenXMLFileSystemProvider`): the per-container session record, file
  extraction, temp-file sync-back, the source-file conflict handler, the
  atomic save with backup/rollback, and reload.  The filesystem is modelled
  by an explicit `Disk` record; I/O failures are injected through explicit
  parameters so that every code path of the source is a value of the model.
-/

namespace XMLFmt

theorem len_dropWhile_le {α : Type} (p : α → Bool) (l : List α) :
    (l.dropWhile p).length ≤ l.length := by
  induction l with
  | nil => simp [List.dropWhile]
  | cons a t ih =>
    simp only [List.dropWhile]
    split
    · exact Nat.le_succ_of_le ih
    · exact Nat.le_refl _

/-- Whitespace test modelling JavaScript's `\s` character class and
`String.prototype.trim` (restricted to the ASCII whitespace characters,
which are the ones relevant to XML text). -/
def isWS (c : Char) : Bool :=
  c = ' ' || c = '\t' || c = '\n' || c = '\r' || c = '\x0b' || c = '\x0c'

/-- `String.prototype.trim()` on a list of characters. -/
def trimL (l : List Char) : List Char :=
  ((l.dropWhile isWS).reverse.dropWhile isWS).reverse

/-- `String.prototype.trimEnd()` on a list of characters. -/
def trimEndL (l : List Char) : List Char :=
  (l.reverse.dropWhile isWS).reverse

/-- One pass of `formatted.replace(/>\s*</g, '><')` from `formatXML`,
written with a structural fuel so that it evaluates by reduction; the fuel
`l.length` used by `collapse` below is always sufficient because every
step consumes at least one character. -/
def collapseF : Nat → List Char → List Char
  | _, [] => []
  | 0, l => l
  | fuel + 1, c :: rest =>
    if c = '>' then
      if (rest.dropWhile isWS).head? = some '<' then
        '>' :: '<' :: collapseF fuel (rest.dropWhile isWS).tail
      else '>' :: collapseF fuel rest
    else c :: collapseF fuel rest

/-- `formatted.replace(/>\s*</g, '><')`: every `>` followed by a
whitespace run and then `<` loses the whitespace (the regex is global and
matches are scanned left to right, resuming after the matched `<`). -/
def collapse (l : List Char) : List Char := collapseF l.length l

/-- The token type of the formatter (`FormatToken` in the source). -/
inductive FormatToken where
  | tag (content : List Char)
  | text (content : List Char)
  | comment (content : List Char)
  | cdata (content : List Char)
deriving DecidableEq, Repr

/-- Index of the first occurrence of `pat` in `l` (JavaScript
`String.prototype.indexOf`), `none` when absent. -/
def findSub (pat : List Char) : List Char → Option Nat
  | [] => if pat = [] then some 0 else none
  | c :: rest =>
    if pat.isPrefixOf (c :: rest) then some 0
    else (findSub pat rest).map (· + 1)

def cdataOpen : List Char := '<' :: '!' :: '[' :: 'C' :: 'D' :: 'A' :: 'T' :: 'A' :: '[' :: []
def cdataClose : List Char := ']' :: ']' :: '>' :: []
def commentOpen : List Char := '<' :: '!' :: '-' :: '-' :: []
def commentClose : List Char := '-' :: '-' :: '>' :: []

/-- The tokenizer `parseTokens` of the source, as a function on the
remaining input.  The source scans with an index `i`:

* a `<![CDATA[` prefix whose `]]>` is found becomes one `cdata` token;
* a `<!--` prefix whose `-->` is found becomes one `comment` token;
* otherwise a `<` whose `>` is found becomes one `tag` token;
* a `<` with **no** later `>` makes the source's `while` loop spin forever
  (the text loop cannot advance past a `<`); this divergence is the `none`
  result here;
* any other character starts a text run up to the next `<`, pushed after
  `trim` when non-empty.
-/
def parseTokensF : Nat → List Char → Option (List FormatToken)
  | _, [] => some []
  | 0, _ => none
  | fuel + 1, c :: rest =>
    if cdataOpen.isPrefixOf (c :: rest) ∧ (findSub cdataClose (c :: rest)).isSome then
      (findSub cdataClose (c :: rest)).bind (fun j =>
        (parseTokensF fuel ((c :: rest).drop (j + 3))).map
          (fun ts => .cdata ((c :: rest).take (j + 3)) :: ts))
    else if commentOpen.isPrefixOf (c :: rest) ∧ (findSub commentClose (c :: rest)).isSome then
      (findSub commentClose (c :: rest)).bind (fun j =>
        (parseTokensF fuel ((c :: rest).drop (j + 3))).map
          (fun ts => .comment ((c :: rest).take (j + 3)) :: ts))
    else if c = '<' then
      (findSub ('>' :: []) (c :: rest)).bind (fun j =>
        (parseTokensF fuel ((c :: rest).drop (j + 1))).map
          (fun ts => .tag ((c :: rest).take (j + 1)) :: ts))
    else
      (parseTokensF fuel ((c :: rest).dropWhile (fun d => d ≠ '<'))).map
        (fun ts =>
          if trimL ((c :: rest).takeWhile (fun d => d ≠ '<')) = [] then ts
          else .text (trimL ((c :: rest).takeWhile (fun d => d ≠ '<'))) :: ts)

/-- The tokenizer at its canonical (always sufficient) fuel. -/
def parseTokens (l : List Char) : Option (List FormatToken) := parseTokensF l.length l

/-- `indent.repeat n` for a list-of-characters indent unit. -/
def repeatL (ind : List Char) : Nat → List Char
  | 0 => []
  | n + 1 => ind ++ repeatL ind n

def declOpen1 : List Char := '<' :: '?' :: []
def declOpen2 : List Char := '<' :: '!' :: []
def closeOpen : List Char := '<' :: '/' :: []
def selfCloseEnd : List Char := '/' :: '>' :: []

/-- The reprinting loop of `formatTokens`, producing the list of output
lines before the final join.  `depth` is the indent counter; `Nat`
subtraction models `Math.max(0, depth - 1)`. -/
def formatLinesF (ind : List Char) : Nat → Nat → List FormatToken → List (List Char)
  | _, _, [] => []
  | 0, _, _ => []
  | fuel + 1, depth, tok :: rest =>
    match tok with
    | .comment s => (repeatL ind depth ++ s) :: formatLinesF ind fuel depth rest
    | .cdata s => (repeatL ind depth ++ s) :: formatLinesF ind fuel depth rest
    | .text s => (repeatL ind depth ++ s) :: formatLinesF ind fuel depth rest
    | .tag s =>
      if declOpen1.isPrefixOf s || declOpen2.isPrefixOf s then
        s :: formatLinesF ind fuel depth rest
      else if closeOpen.isPrefixOf s then
        (repeatL ind (depth - 1) ++ s) :: formatLinesF ind fuel (depth - 1) rest
      else if selfCloseEnd.isSuffixOf s then
        (repeatL ind depth ++ s) :: formatLinesF ind fuel depth rest
      else
        match rest with
        | .text t :: .tag cl :: rest2 =>
          if closeOpen.isPrefixOf cl then
            (repeatL ind depth ++ s ++ t ++ cl) :: formatLinesF ind fuel depth rest2
          else
            (repeatL ind depth ++ s) ::
              formatLinesF ind fuel (depth + 1) (.text t :: .tag cl :: rest2)
        | _ => (repeatL ind depth ++ s) :: formatLinesF ind fuel (depth + 1) rest

def formatLines (ind : List Char) (depth : Nat) (toks : List FormatToken) :
    List (List Char) :=
  formatLinesF ind toks.length depth toks

/-- The final join of `formatTokens`: drop lines that are empty after
`trim`, strip trailing whitespace from each line, join with `\n`. -/
def joinLines (lines : List (List Char)) : List Char :=
  List.intercalate ('\n' :: [])
    ((lines.filter (fun l => trimL l ≠ [])).map trimEndL)

/-- `formatTokens` of the source. -/
def formatTokens (ind : List Char) (toks : List FormatToken) : List Char :=
  joinLines (formatLines ind 0 toks)

/-- `fallbackFormat` of the source: insert a line break between adjacent
tags, trim every line, drop empty lines. -/
def collapseNLF : Nat → List Char → List Char
  | _, [] => []
  | 0, l => l
  | fuel + 1, c :: rest =>
    if c = '>' then
      if (rest.dropWhile isWS).head? = some '<' then
        '>' :: '\n' :: '<' :: collapseNLF fuel (rest.dropWhile isWS).tail
      else '>' :: collapseNLF fuel rest
    else c :: collapseNLF fuel rest

def collapseNL (l : List Char) : List Char := collapseNLF l.length l

def fallbackFormat (xml : List Char) : List Char :=
  List.intercalate ('\n' :: [])
    ((((collapseNL xml).splitOn '\n').map trimL).filter (fun l => l ≠ []))

/-- `formatXML` on `List Char`: trim, collapse inter-tag whitespace,
tokenize, reprint.  `none` models the divergence of the source's tokenizer
(which in particular means the `catch`-based fallback is never reached on
such inputs). -/
def formatXMLL (ind : List Char) (xml : List Char) : Option (List Char) :=
  (parseTokens (collapse (trimL xml))).map (formatTokens ind)

/-- The two-space default indent (`UI_CONFIG.defaultIndent`). -/
def defaultIndent : List Char := ' ' :: ' ' :: []

/-- `formatXML` with the default indent, on `String`. -/
def formatXML (xml : String) : Option String :=
  (formatXMLL defaultIndent xml.data).map (fun l => String.mk l)

end XMLFmt

namespace OXE

/-- File contents (`Uint8Array` / `Buffer`) as byte lists. -/
abbrev Bytes := List Nat

/-- `Map.set` of JavaScript on an association list: replace in place when
the key is present (keeping insertion order), append otherwise. -/
def mapSet {β : Type} (l : List (String × β)) (k : String) (v : β) : List (String × β) :=
  if l.any (fun p => p.1 = k) then
    l.map (fun p => if p.1 = k then (k, v) else p)
  else l ++ [(k, v)]

/-- `Set.add` of JavaScript on a list-modelled set. -/
def addMod (l : List String) (k : String) : List String :=
  if k ∈ l then l else l ++ [k]

/-- `path.extname` (posix): the extension of the basename, empty for a
dotless or dotfile basename. -/
def extnameL (l : List Char) : List Char :=
  let base := (l.reverse.takeWhile (fun c => c ≠ '/')).reverse
  match base with
  | [] => []
  | _ :: bs =>
    let revbs := bs.reverse
    let after := revbs.takeWhile (fun c => c ≠ '.')
    if after.length = revbs.length then [] else '.' :: after.reverse

/-- `FileUtils.isXMLFile`: lower-cased extension is `.xml` or `.rels`. -/
def isXMLFile (name : String) : Bool :=
  let ext := (extnameL name.data).map Char.toLower
  ext = ('.' :: 'x' :: 'm' :: 'l' :: []) || ext = ('.' :: 'r' :: 'e' :: 'l' :: 's' :: [])

instance {ε α : Type} [DecidableEq ε] [DecidableEq α] : DecidableEq (Except ε α) :=
  fun a b =>
    match a, b with
    | .ok a, .ok b => if h : a = b then isTrue (by rw [h]) else isFalse (by simp [h])
    | .error a, .error b => if h : a = b then isTrue (by rw [h]) else isFalse (by simp [h])
    | .ok _, .error _ => isFalse (by simp)
    | .error _, .ok _ => isFalse (by simp)

/-- One ZIP entry as surfaced by the `yauzl` streaming reader: its name and
the outcome of reading its stream (`error` models an `openReadStream`
failure or a mid-read `'error'` event on the stream). -/
structure ZEntry where
  name : String
  stream : Except Unit Bytes
deriving DecidableEq, Repr

/-- The per-container session state (`OpenXMLTempData` in the source).
`files` is the authoritative in-memory entry map, `tempFiles` maps internal
paths to materialized temp-file paths, `modified` is the unsaved-change
set, `lastModified` is `lastKnownSourceModTime`. -/
structure Session where
  originalPath : String
  tempDir : String
  files : List (String × Bytes)
  tempFiles : List (String × String)
  modified : List String
  lastModified : Int
deriving DecidableEq, Repr

/-- The filesystem state the engine touches: the container file (bytes,
its archive structure as the ZIP reader would deliver it — `none` when the
container cannot be opened — and its mtime), the transient backup, and the
temp-file mirror (`temp path → content × mtime`). -/
structure Disk where
  orig : Option Bytes
  archive : Option (List ZEntry)
  origMtime : Int
  backup : Option Bytes
  temps : List (String × (Bytes × Int))
deriving DecidableEq, Repr

/-- Accumulator of `extractArchiveFiles`: the entry map and temp-file map
being built, plus the temp-mirror files written to disk. -/
structure ExtractAcc where
  files : List (String × Bytes)
  tempFiles : List (String × String)
  temps : List (String × (Bytes × Int))
deriving DecidableEq, Repr

/-- `name.endsWith "/"`: the directory-marker test of the extractor. -/
def endsSlash (name : String) : Bool := name.data.getLast? == some '/'

/-- Processing of one `'entry'` event in `extractArchiveFiles`: directory
markers (name ending `/`) are skipped; an entry whose stream errors is
logged and skipped (the loop decrements its pending counters and keeps
going); a read entry is stored in `files`, and XML-like entries are
additionally written to the temp mirror (`createTempFile`) and recorded in
`tempFiles`. -/
def extractStep (tempDir : String) (writeTime : Int) (acc : ExtractAcc) (e : ZEntry) :
    ExtractAcc :=
  if endsSlash e.name then acc
  else
    match e.stream with
    | .error _ => acc
    | .ok content =>
      if isXMLFile e.name then
        { files := mapSet acc.files e.name content
          tempFiles := mapSet acc.tempFiles e.name (tempDir ++ "/" ++ e.name)
          temps := mapSet acc.temps (tempDir ++ "/" ++ e.name) (content, writeTime) }
      else { acc with files := mapSet acc.files e.name content }

/-- `extractArchiveFiles`: fails only when the container cannot be opened
(`yauzl.open` yields an error); otherwise every entry is processed in
stream order. -/
def extractArchiveFiles (archive : Option (List ZEntry)) (tempDir : String)
    (writeTime : Int) : Except Unit ExtractAcc :=
  match archive with
  | none => .error ()
  | some es => .ok (es.foldl (extractStep tempDir writeTime) ⟨[], [], []⟩)

/-- Result of `loadOpenXMLFile` on the provider's `openXMLFiles` registry:
the registry afterwards, and whether the load succeeded. -/
structure LoadResult where
  sessions : List (String × Session)
  ok : Bool
deriving DecidableEq, Repr

def removeKey (l : List (String × Session)) (k : String) : List (String × Session) :=
  l.filter (fun p => p.1 ≠ k)

/-- `loadOpenXMLFile`: drop any existing session for the path (cleanup on
reload-through-open), stat the source (throws when missing), record the
mtime, extract, and only on full success install the new session. -/
def cleanupExisting (st : List (String × Session)) (originalPath : String) :
    List (String × Session) :=
  if (List.lookup originalPath st).isSome then removeKey st originalPath else st

def loadOpenXMLFile (st : List (String × Session)) (originalPath tempDir : String)
    (d : Disk) (writeTime : Int) : LoadResult :=
  match d.orig with
  | none => ⟨cleanupExisting st originalPath, false⟩
  | some _ =>
    match extractArchiveFiles d.archive tempDir writeTime with
    | .error _ => ⟨cleanupExisting st originalPath, false⟩
    | .ok acc =>
      ⟨mapSet (cleanupExisting st originalPath) originalPath
        ⟨originalPath, tempDir, acc.files, acc.tempFiles, [], d.origMtime⟩, true⟩

/-- `SYNC_CONFIG.fileAgeThresholdMs`. -/
def fileAgeThresholdMs : Int := 10000

/-- `syncTempFileBack`: the debounced watcher callback for one temp file.
A missing mapping or missing temp file is a spurious event; a stale temp
file (older than the freshness threshold) is skipped; identical content is
a no-op; otherwise the entry is replaced and marked modified. -/
def syncTempFileBack (s : Session) (temps : List (String × (Bytes × Int)))
    (internalPath : String) (now : Int) : Session :=
  match List.lookup internalPath s.tempFiles with
  | none => s
  | some tp =>
    match List.lookup tp temps with
    | none => s
    | some (content, mtime) =>
      if fileAgeThresholdMs < now - mtime then s
      else
        match List.lookup internalPath s.files with
        | some orig =>
          if orig = content then s
          else { s with files := mapSet s.files internalPath content
                        modified := addMod s.modified internalPath }
        | none => { s with files := mapSet s.files internalPath content
                           modified := addMod s.modified internalPath }

/-- `writeFile` of the `FileSystemProvider`: store the new content and mark
the internal path modified. -/
def writeFile (s : Session) (filePath : String) (content : Bytes) : Session :=
  { s with files := mapSet s.files filePath content
           modified := addMod s.modified filePath }

/-- One iteration of `syncAllTempFiles` (the force-flush before a save):
compare the on-disk temp content with the stored entry and fold any
divergence into `files`/`modified`; entries without a stored original are
left alone. -/
def syncAllStep (temps : List (String × (Bytes × Int))) (s : Session)
    (kv : String × String) : Session :=
  match List.lookup kv.2 temps with
  | none => s
  | some (content, _) =>
    match List.lookup kv.1 s.files with
    | none => s
    | some orig =>
      if orig = content then s
      else { s with files := mapSet s.files kv.1 content
                    modified := addMod s.modified kv.1 }

/-- `syncAllTempFiles`: force-flush every materialized temp file. -/
def syncAllTempFiles (s : Session) (temps : List (String × (Bytes × Int))) : Session :=
  s.tempFiles.foldl (syncAllStep temps) s

/-- The failure point injected into `saveChanges`: `ok` is the success
path; the others make the corresponding step of the `try` block throw
(ZIP construction, writing the `.tmp` file, `unlinkSync` of the original,
`renameSync`). -/
inductive SaveFail where
  | ok | zipBuild | writeTmp | deleteOrig | rename
deriving DecidableEq, Repr

structure SaveResult where
  session : Session
  disk : Disk
  ok : Bool
deriving DecidableEq, Repr

/-- The archive structure a fresh ZIP built from `files` would present to
a later extraction (`zipFile.addBuffer` for every entry of `files`). -/
def entriesOfFiles (files : List (String × Bytes)) : List ZEntry :=
  files.map (fun p => ⟨p.1, .ok p.2⟩)

/-- The bytes of the rebuilt ZIP, as a concrete injective-enough encoding
of the full entry image (the source's on-disk byte layout is delegated to
`yazl` and is irrelevant to every claim). -/
def buildZip (files : List (String × Bytes)) : Bytes :=
  files.foldl (fun acc p => acc ++ (p.1.data.map Char.toNat) ++ 0 :: p.2 ++ 0 :: []) []

/-- The `catch` block of `saveChanges`: restore the original from the
backup when the backup exists, then delete the backup. -/
def restoreBackup (d : Disk) : Disk :=
  match d.backup with
  | some b => { d with orig := some b, backup := none }
  | none => d

/-- `saveChanges`: force-flush, no-op when nothing is modified, copy the
original to `.backup`, then (inside `try`) build the ZIP, write it to
`.tmp`, delete the original, rename `.tmp` onto it, stat the new file into
`lastModified`, delete the backup and clear `modified`; on any failure in
the `try` block restore from the backup, delete it, and report the error
(`modified` is left as it was). -/
def saveChangesFlushed (s1 : Session) (d : Disk) (fail : SaveFail)
    (writeMtime : Int) : SaveResult :=
  if s1.modified.isEmpty then ⟨s1, d, true⟩
  else
    match d.orig with
    | none => ⟨s1, d, false⟩
    | some origContent =>
      match fail with
      | .zipBuild => ⟨s1, restoreBackup { d with backup := some origContent }, false⟩
      | .writeTmp => ⟨s1, restoreBackup { d with backup := some origContent }, false⟩
      | .deleteOrig => ⟨s1, restoreBackup { d with backup := some origContent }, false⟩
      | .rename =>
        ⟨s1, restoreBackup { d with backup := some origContent, orig := none }, false⟩
      | .ok =>
        ⟨{ s1 with modified := [], lastModified := writeMtime },
         { d with
           orig := some (buildZip s1.files)
           archive := some (entriesOfFiles s1.files)
           origMtime := writeMtime
           backup := none }, true⟩

def saveChanges (s : Session) (d : Disk) (fail : SaveFail) (writeMtime : Int) :
    SaveResult :=
  saveChangesFlushed (syncAllTempFiles s d.temps) d fail writeMtime

structure ReloadResult where
  session : Session
  temps : List (String × (Bytes × Int))
  ok : Bool
deriving DecidableEq, Repr

/-- `reloadFromSource`: stat the source into `lastModified`, clear
`files`/`modified`, delete the materialized temp files and clear
`tempFiles`, close the temp watchers, and re-extract.  A failing
re-extraction propagates after the clearing has happened. -/
def clearedSession (s : Session) (d : Disk) : Session :=
  { s with lastModified := d.origMtime, files := [], modified := [], tempFiles := [] }

def deleteTempMirror (s : Session) (d : Disk) : List (String × (Bytes × Int)) :=
  d.temps.filter (fun p => ¬ s.tempFiles.any (fun q => q.2 = p.1))

def reloadFromSource (s : Session) (d : Disk) (writeTime : Int) : ReloadResult :=
  match d.orig with
  | none => ⟨s, d.temps, false⟩
  | some _ =>
    match extractArchiveFiles d.archive s.tempDir writeTime with
    | .error _ => ⟨clearedSession s d, deleteTempMirror s d, false⟩
    | .ok acc =>
      ⟨{ clearedSession s d with files := acc.files, tempFiles := acc.tempFiles },
       acc.temps.foldl (fun t p => mapSet t p.1 p.2) (deleteTempMirror s d), true⟩

/-- The three buttons of the conflict dialog plus the `undefined` result of
dismissing it (`decline`). -/
inductive ConflictChoice where
  | reload | keep | saveThenReload | decline
deriving DecidableEq, Repr

/-- Result of `handleSourceFileChange`: the session and disk afterwards,
how many times the conflict dialog was shown, and how many reloads ran. -/
structure SrcChangeResult where
  session : Session
  disk : Disk
  prompts : Nat
  reloads : Nat
deriving DecidableEq, Repr

/-- `handleSourceFileChange` (the debounced source-watcher callback):
a deleted source is only reported; an mtime not strictly newer than
`lastModified` is ignored; with no unsaved changes the session reloads
silently; with unsaved changes the conflict dialog is shown exactly once
and the chosen resolution runs (`keep` only advances `lastModified`;
dismissal changes nothing; a failing save in `saveThenReload` stops before
the reload). -/
def handleSourceFileChange (s : Session) (d : Disk) (choice : ConflictChoice)
    (fail : SaveFail) (writeMtime reloadTime : Int) : SrcChangeResult :=
  match d.orig with
  | none => ⟨s, d, 0, 0⟩
  | some _ =>
    if d.origMtime ≤ s.lastModified then ⟨s, d, 0, 0⟩
    else if s.modified.isEmpty then
      ⟨(reloadFromSource s d reloadTime).session,
       { d with temps := (reloadFromSource s d reloadTime).temps }, 0, 1⟩
    else
      match choice with
      | .reload =>
        ⟨(reloadFromSource s d reloadTime).session,
         { d with temps := (reloadFromSource s d reloadTime).temps }, 1, 1⟩
      | .keep => ⟨{ s with lastModified := d.origMtime }, d, 1, 0⟩
      | .saveThenReload =>
        if (saveChanges s d fail writeMtime).ok then
          ⟨(reloadFromSource (saveChanges s d fail writeMtime).session
              (saveChanges s d fail writeMtime).disk reloadTime).session,
           { (saveChanges s d fail writeMtime).disk with
             temps := (reloadFromSource (saveChanges s d fail writeMtime).session
               (saveChanges s d fail writeMtime).disk reloadTime).temps }, 1, 1⟩
        else ⟨(saveChanges s d fail writeMtime).session,
              (saveChanges s d fail writeMtime).disk, 1, 0⟩
      | .decline => ⟨s, d, 1, 0⟩

/-- `findFileByPath`: first entry whose key matches the requested path
case-insensitively (`Map` iteration is insertion order). -/
def lowerStr (s : String) : String := String.mk (s.data.map Char.toLower)

def findFileByPath (s : Session) (filePath : String) : Option Bytes :=
  (s.files.find? (fun p => lowerStr p.1 == lowerStr filePath)).map (fun p => p.2)

/-- The entry-resolution core of `readFile`: exact lookup in `files`,
then the case-insensitive fallback, then `FileNotFound`. -/
def readFile (s : Session) (filePath : String) : Except Unit Bytes :=
  match List.lookup filePath s.files with
  | some content => .ok content
  | none =>
    match findFileByPath s filePath with
    | some content => .ok content
    | none => .error ()

/-- `hasUnsavedChanges` for an existing session. -/
def hasUnsavedChanges (s : Session) : Bool := ¬ s.modified.isEmpty

/-- Key membership in an association list. -/
def hasKey {β : Type} (l : List (String × β)) (k : String) : Bool :=
  l.any (fun p => p.1 = k)

/-- The session invariants of the spec's data model: every materialized
temp file's internal path is an entry key, and every modified path is an
entry key. -/
def sessionInv (s : Session) : Bool :=
  s.tempFiles.all (fun p => hasKey s.files p.1) &&
  s.modified.all (fun k => hasKey s.files k)

theorem hasKey_mapSet_self {β : Type} (l : List (String × β)) (k : String) (v : β) :
    hasKey (mapSet l k v) k = true := by
  unfold hasKey mapSet
  split
  · rename_i h
    rcases List.any_eq_true.mp h with ⟨p, hp, hpk⟩
    refine List.any_eq_true.mpr ⟨(k, v), ?_, by simp⟩
    refine List.mem_map.mpr ⟨p, hp, ?_⟩
    rw [if_pos (of_decide_eq_true hpk)]
  · refine List.any_eq_true.mpr ⟨(k, v), by simp, by simp⟩

theorem hasKey_mapSet_of {β : Type} (l : List (String × β)) (k k' : String) (v : β)
    (h : hasKey l k' = true) : hasKey (mapSet l k v) k' = true := by
  unfold hasKey mapSet
  rcases List.any_eq_true.mp h with ⟨p, hp, hpk⟩
  split
  · refine List.any_eq_true.mpr ⟨if p.1 = k then (k, v) else p, ?_, ?_⟩
    · exact List.mem_map.mpr ⟨p, hp, rfl⟩
    · by_cases hpk2 : p.1 = k
      · simp only [if_pos hpk2]
        have : p.1 = k' := of_decide_eq_true hpk
        simp [← hpk2, this]
      · simpa [if_neg hpk2] using hpk
  · exact List.any_eq_true.mpr ⟨p, List.mem_append_left _ hp, hpk⟩

theorem all_imp {α : Type} (l : List α) (f g : α → Bool)
    (himp : ∀ x, f x = true → g x = true) (h : l.all f = true) : l.all g = true := by
  rw [List.all_eq_true] at h ⊢
  exact fun x hx => himp x (h x hx)

theorem all_mapSet {β : Type} (l : List (String × β)) (k : String) (v : β)
    (f : String × β → Bool) (h : l.all f = true) (hkv : f (k, v) = true) :
    (mapSet l k v).all f = true := by
  unfold mapSet
  split
  · rw [List.all_eq_true] at h ⊢
    intro x hx
    rcases List.mem_map.mp hx with ⟨p, hp, hpx⟩
    by_cases hpk : p.1 = k
    · rw [← hpx, if_pos hpk]; exact hkv
    · rw [← hpx, if_neg hpk]; exact h p hp
  · rw [List.all_eq_true] at h ⊢
    intro x hx
    rcases List.mem_append.mp hx with hx | hx
    · exact h x hx
    · rcases List.mem_singleton.mp hx with rfl; exact hkv

theorem all_addMod (m : List String) (k : String) (f : String → Bool)
    (h : m.all f = true) (hk : f k = true) : (addMod m k).all f = true := by
  unfold addMod
  split
  · exact h
  · rw [List.all_eq_true] at h ⊢
    intro x hx
    rcases List.mem_append.mp hx with hx | hx
    · exact h x hx
    · rcases List.mem_singleton.mp hx with rfl; exact hk

theorem lookup_map_replace {β : Type} (l : List (String × β)) (k : String) (v : β)
    (h : (l.any fun p => decide (p.1 = k)) = true) :
    List.lookup k (l.map (fun p => if p.1 = k then (k, v) else p)) = some v := by
  induction l with
  | nil => simp at h
  | cons p t ih =>
    by_cases hpk : p.1 = k
    · rw [List.map_cons, if_pos hpk]
      simp [List.lookup]
    · rw [List.map_cons, if_neg hpk]
      have ht : (t.any fun p => decide (p.1 = k)) = true := by
        rcases List.any_eq_true.mp h with ⟨q, hq, hqk⟩
        rcases List.mem_cons.mp hq with rfl | hq
        · exact absurd (of_decide_eq_true hqk) hpk
        · exact List.any_eq_true.mpr ⟨q, hq, hqk⟩
      have hbk : (k == p.1) = false :=
        beq_eq_false_iff_ne.mpr (fun hkp => hpk hkp.symm)
      simp only [List.lookup, hbk]
      exact ih ht

theorem lookup_append_self {β : Type} (l : List (String × β)) (k : String) (v : β)
    (h : (l.any fun p => decide (p.1 = k)) = false) :
    List.lookup k (l ++ [(k, v)]) = some v := by
  induction l with
  | nil => simp [List.lookup]
  | cons p t ih =>
    rw [List.any_cons] at h
    rcases Bool.or_eq_false_iff.mp h with ⟨h1, h2⟩
    have hpk : p.1 ≠ k := of_decide_eq_false h1
    have hbk : (k == p.1) = false :=
      beq_eq_false_iff_ne.mpr (fun hkp => hpk hkp.symm)
    simp only [List.cons_append, List.lookup, hbk]
    exact ih h2

theorem lookup_mapSet_self {β : Type} (l : List (String × β)) (k : String) (v : β) :
    List.lookup k (mapSet l k v) = some v := by
  unfold mapSet
  split
  · rename_i h
    exact lookup_map_replace l k v h
  · rename_i h
    refine lookup_append_self l k v ?_
    cases hh : (l.any fun p => decide (p.1 = k)) with
    | true => exact absurd hh h
    | false => rfl

theorem lookup_removeKey_self (l : List (String × Session)) (k : String) :
    List.lookup k (removeKey l k) = none := by
  unfold removeKey
  induction l with
  | nil => simp [List.lookup]
  | cons p t ih =>
    by_cases hpk : p.1 ≠ k
    · rw [List.filter_cons_of_pos (by simpa using hpk)]
      have : (k == p.1) = false := by
        simp only [beq_eq_false_iff_ne, ne_eq]
        exact fun hkp => hpk hkp.symm
      simp only [List.lookup, this]
      exact ih
    · rw [List.filter_cons_of_neg (by simpa using hpk)]
      exact ih

theorem lookup_cleanupExisting (st : List (String × Session)) (p : String) :
    List.lookup p (cleanupExisting st p) = none := by
  unfold cleanupExisting
  split
  · exact lookup_removeKey_self st p
  · rename_i h
    exact Option.not_isSome_iff_eq_none.mp h

theorem foldl_preserve {α β : Type} (P : α → Prop) (f : α → β → α)
    (hstep : ∀ a b, P a → P (f a b)) :
    ∀ (l : List β) (a : α), P a → P (l.foldl f a)
  | [], _, h => h
  | b :: t, a, h => foldl_preserve P f hstep t (f a b) (hstep a b h)

end OXE

namespace OXE

/-- A concrete session and disk used by witnesses: one modified XML entry,
no materialized temp files. -/
def exSession : Session := ⟨"/d.docx", "/tmp/x", [("a.xml", 1 :: [])], [], "a.xml" :: [], 5⟩

def exDisk : Disk := ⟨some (9 :: []), some (⟨"a.xml", .ok (1 :: [])⟩ :: []), 10, none, []⟩

/-- C1.  After the backup copy exists, a failure at any of the remaining
save steps (ZIP build, `.tmp` write, delete of the original, rename)
reports the error, leaves `originalPath` with its pre-save bytes (restored
from the backup), deletes the backup, and leaves the flushed `modified`
set untouched — in particular non-empty — so the save can be retried. -/
theorem saveChanges_failure_rolls_back (s : Session) (d : Disk) (fail : SaveFail)
    (wm : Int) (c : Bytes) (hfail : fail ≠ .ok) (horig : d.orig = some c)
    (hmod : (syncAllTempFiles s d.temps).modified ≠ []) :
    (saveChanges s d fail wm).ok = false ∧
    (saveChanges s d fail wm).disk.orig = some c ∧
    (saveChanges s d fail wm).disk.backup = none ∧
    (saveChanges s d fail wm).session.modified = (syncAllTempFiles s d.temps).modified ∧
    (saveChanges s d fail wm).session.modified ≠ [] := by
  have hne : (syncAllTempFiles s d.temps).modified.isEmpty = false := by
    cases hmm : (syncAllTempFiles s d.temps).modified with
    | nil => exact absurd hmm hmod
    | cons a t => rfl
  unfold saveChanges saveChangesFlushed
  rw [hne, horig]
  cases fail with
  | ok => exact absurd rfl hfail
  | zipBuild => exact ⟨rfl, rfl, rfl, rfl, hmod⟩
  | writeTmp => exact ⟨rfl, rfl, rfl, rfl, hmod⟩
  | deleteOrig => exact ⟨rfl, rfl, rfl, rfl, hmod⟩
  | rename => exact ⟨rfl, rfl, rfl, rfl, hmod⟩

theorem saveChanges_failure_rolls_back_witness :
    (saveChanges exSession exDisk .rename 99).ok = false ∧
    (saveChanges exSession exDisk .rename 99).disk.orig = some (9 :: []) ∧
    (saveChanges exSession exDisk .rename 99).disk.backup = none ∧
    (saveChanges exSession exDisk .rename 99).session.modified =
      (syncAllTempFiles exSession exDisk.temps).modified ∧
    (saveChanges exSession exDisk .rename 99).session.modified ≠ [] :=
  saveChanges_failure_rolls_back exSession exDisk .rename 99 (9 :: [])
    (by decide) (by decide) (by decide)

/-- The container of the C2 counterexample: openable, with one readable
entry and one entry whose read stream errors mid-read. -/
def cexDisk : Disk :=
  ⟨some (7 :: []), some (⟨"a.xml", .ok (1 :: [])⟩ :: ⟨"b.xml", .error ()⟩ :: []), 3, none, []⟩

/-- C2 counterexample.  An entry whose read stream errors mid-read does
**not** fail the extraction: `extractArchiveFiles` logs, skips the entry
and keeps going, and `loadOpenXMLFile` then installs a session whose entry
map is missing the unreadable entry — exactly the half-populated outcome
the claim rules out. -/
theorem extract_stream_error_installs_partial_session :
    (loadOpenXMLFile [] "/d.docx" "/t" cexDisk 0).ok = true ∧
    List.lookup "/d.docx" (loadOpenXMLFile [] "/d.docx" "/t" cexDisk 0).sessions =
      some ⟨"/d.docx", "/t", ("a.xml", 1 :: []) :: [],
            ("a.xml", "/t/a.xml") :: [], [], 3⟩ := by
  exact ⟨rfl, by decide⟩

/-- C2 amended.  Only a container that cannot be opened fails the whole
extraction, and then no session is installed for the path; an entry whose
read stream errors mid-read is skipped (the extraction itself still
succeeds, dropping that entry). -/
theorem extract_open_failure_is_atomic (st : List (String × Session))
    (p tempDir : String) (d : Disk) (wt : Int) (hopen : d.archive = none) :
    extractArchiveFiles d.archive tempDir wt = .error () ∧
    (loadOpenXMLFile st p tempDir d wt).ok = false ∧
    List.lookup p (loadOpenXMLFile st p tempDir d wt).sessions = none ∧
    (∀ es, (extractArchiveFiles (some es) tempDir wt).isOk = true) := by
  refine ⟨by rw [hopen]; rfl, ?_, ?_, fun es => rfl⟩
  · unfold loadOpenXMLFile
    rw [hopen]
    cases d.orig <;> rfl
  · unfold loadOpenXMLFile
    rw [hopen]
    cases d.orig <;> exact lookup_cleanupExisting st p

theorem extract_open_failure_is_atomic_witness :
    extractArchiveFiles (none : Option (List ZEntry)) "/t" 0 = .error () ∧
    (loadOpenXMLFile [] "/d.docx" "/t" ⟨some (7 :: []), none, 3, none, []⟩ 0).ok = false ∧
    List.lookup "/d.docx"
      (loadOpenXMLFile [] "/d.docx" "/t" ⟨some (7 :: []), none, 3, none, []⟩ 0).sessions
      = none ∧
    (∀ es, (extractArchiveFiles (some es) "/t" 0).isOk = true) :=
  extract_open_failure_is_atomic [] "/d.docx" "/t" ⟨some (7 :: []), none, 3, none, []⟩ 0 rfl

/-- C3.  With unsaved changes and a strictly newer source mtime, the
conflict dialog is shown exactly once no matter which resolution is later
chosen, entries are not touched by the choice-independent part; choosing
Keep only advances `lastModified` to the observed mtime (entries,
`modified`, and the disk untouched), and dismissing the dialog leaves
session and disk exactly as they were. -/
theorem handleSourceFileChange_conflict_policy (s : Session) (d : Disk)
    (choice : ConflictChoice) (fail : SaveFail) (wm rt : Int) (c : Bytes)
    (horig : d.orig = some c) (hnew : s.lastModified < d.origMtime)
    (hmod : s.modified ≠ []) :
    (handleSourceFileChange s d choice fail wm rt).prompts = 1 ∧
    (handleSourceFileChange s d .keep fail wm rt).session =
      { s with lastModified := d.origMtime } ∧
    (handleSourceFileChange s d .keep fail wm rt).disk = d ∧
    (handleSourceFileChange s d .keep fail wm rt).reloads = 0 ∧
    (handleSourceFileChange s d .decline fail wm rt).session = s ∧
    (handleSourceFileChange s d .decline fail wm rt).disk = d := by
  have hne : s.modified.isEmpty = false := by
    cases hmm : s.modified with
    | nil => exact absurd hmm hmod
    | cons a t => rfl
  have hle : ¬ d.origMtime ≤ s.lastModified := not_le.mpr hnew
  have h1 : ∀ ch, (handleSourceFileChange s d ch fail wm rt).prompts = 1 := by
    intro ch
    unfold handleSourceFileChange
    rw [horig]
    simp only [if_neg hle, hne, Bool.false_eq_true, if_false]
    cases ch with
    | reload => rfl
    | keep => rfl
    | saveThenReload =>
      by_cases hsv : (saveChanges s d fail wm).ok = true
      · rw [if_pos hsv]
      · rw [if_neg hsv]
    | decline => rfl
  have h2 : handleSourceFileChange s d .keep fail wm rt =
      ⟨{ s with lastModified := d.origMtime }, d, 1, 0⟩ := by
    unfold handleSourceFileChange
    rw [horig]
    simp only [if_neg hle, hne, Bool.false_eq_true, if_false]
  have h3 : handleSourceFileChange s d .decline fail wm rt = ⟨s, d, 1, 0⟩ := by
    unfold handleSourceFileChange
    rw [horig]
    simp only [if_neg hle, hne, Bool.false_eq_true, if_false]
  exact ⟨h1 choice, by rw [h2], by rw [h2], by rw [h2], by rw [h3], by rw [h3]⟩

theorem handleSourceFileChange_conflict_policy_witness :
    (handleSourceFileChange exSession exDisk .saveThenReload .ok 99 100).prompts = 1 ∧
    (handleSourceFileChange exSession exDisk .keep .ok 99 100).session =
      { exSession with lastModified := exDisk.origMtime } ∧
    (handleSourceFileChange exSession exDisk .keep .ok 99 100).disk = exDisk ∧
    (handleSourceFileChange exSession exDisk .keep .ok 99 100).reloads = 0 ∧
    (handleSourceFileChange exSession exDisk .decline .ok 99 100).session = exSession ∧
    (handleSourceFileChange exSession exDisk .decline .ok 99 100).disk = exDisk :=
  handleSourceFileChange_conflict_policy exSession exDisk .saveThenReload .ok 99 100
    (9 :: []) (by decide) (by decide) (by decide)

/-- C4.  A source-file event whose observed mtime is not strictly newer
than `lastKnownSourceModTime` is ignored outright (no reload, no prompt,
no session or disk change), and a successful save that actually wrote
installs the new file's stat mtime as `lastKnownSourceModTime`, so the
watcher then ignores the engine's own save. -/
theorem save_mtime_preempts_watcher (s : Session) (d : Disk)
    (choice : ConflictChoice) (fail : SaveFail) (wm rt : Int) (c : Bytes)
    (horig : d.orig = some c)
    (hmod : (syncAllTempFiles s d.temps).modified ≠ []) :
    (∀ s2 d2 ch2 f2 w2 r2, d2.origMtime ≤ s2.lastModified →
        handleSourceFileChange s2 d2 ch2 f2 w2 r2 = ⟨s2, d2, 0, 0⟩) ∧
    (saveChanges s d .ok wm).ok = true ∧
    (saveChanges s d .ok wm).session.lastModified = wm ∧
    (saveChanges s d .ok wm).disk.origMtime = wm ∧
    handleSourceFileChange (saveChanges s d .ok wm).session
        (saveChanges s d .ok wm).disk choice fail wm rt =
      ⟨(saveChanges s d .ok wm).session, (saveChanges s d .ok wm).disk, 0, 0⟩ := by
  have hignore : ∀ s2 d2 ch2 f2 w2 r2, d2.origMtime ≤ s2.lastModified →
      handleSourceFileChange s2 d2 ch2 f2 w2 r2 = ⟨s2, d2, 0, 0⟩ := by
    intro s2 d2 ch2 f2 w2 r2 hle
    unfold handleSourceFileChange
    cases d2.orig with
    | none => rfl
    | some c2 => rw [if_pos hle]
  have hne : (syncAllTempFiles s d.temps).modified.isEmpty = false := by
    cases hmm : (syncAllTempFiles s d.temps).modified with
    | nil => exact absurd hmm hmod
    | cons a t => rfl
  have hsave : (saveChanges s d .ok wm).ok = true ∧
      (saveChanges s d .ok wm).session.lastModified = wm ∧
      (saveChanges s d .ok wm).disk.origMtime = wm := by
    unfold saveChanges saveChangesFlushed
    rw [hne, horig]
    exact ⟨rfl, rfl, rfl⟩
  refine ⟨hignore, hsave.1, hsave.2.1, hsave.2.2, ?_⟩
  exact hignore _ _ _ _ _ _ (le_of_eq (hsave.2.2.trans hsave.2.1.symm))

theorem save_mtime_preempts_watcher_witness :
    ((∀ s2 d2 ch2 f2 w2 r2, d2.origMtime ≤ s2.lastModified →
        handleSourceFileChange s2 d2 ch2 f2 w2 r2 = ⟨s2, d2, 0, 0⟩) ∧
    (saveChanges exSession exDisk .ok 42).ok = true ∧
    (saveChanges exSession exDisk .ok 42).session.lastModified = 42 ∧
    (saveChanges exSession exDisk .ok 42).disk.origMtime = 42 ∧
    handleSourceFileChange (saveChanges exSession exDisk .ok 42).session
        (saveChanges exSession exDisk .ok 42).disk .keep .ok 42 50 =
      ⟨(saveChanges exSession exDisk .ok 42).session,
       (saveChanges exSession exDisk .ok 42).disk, 0, 0⟩) :=
  save_mtime_preempts_watcher exSession exDisk .keep .ok 42 50 (9 :: [])
    (by decide) (by decide)

/-- C5.  A sync-back for a temp file whose on-disk bytes equal the stored
entry is a no-op: the session (entries, modified set, everything) is
returned unchanged, whether or not the file passes the freshness check. -/
theorem syncTempFileBack_identical_noop (s : Session)
    (temps : List (String × (Bytes × Int))) (p tp : String) (c : Bytes)
    (m now : Int)
    (h1 : List.lookup p s.tempFiles = some tp)
    (h2 : List.lookup tp temps = some (c, m))
    (h3 : List.lookup p s.files = some c) :
    syncTempFileBack s temps p now = s := by
  unfold syncTempFileBack
  simp only [h1, h2, h3]
  split
  · rfl
  · simp

theorem syncTempFileBack_identical_noop_witness :
    syncTempFileBack
      ⟨"/d.docx", "/tmp/x", ("a.xml", 1 :: []) :: [], ("a.xml", "/tmp/x/a.xml") :: [],
       [], 5⟩
      (("/tmp/x/a.xml", (1 :: [], 0)) :: []) "a.xml" 3 =
      ⟨"/d.docx", "/tmp/x", ("a.xml", 1 :: []) :: [], ("a.xml", "/tmp/x/a.xml") :: [],
       [], 5⟩ :=
  syncTempFileBack_identical_noop _ _ "a.xml" "/tmp/x/a.xml" (1 :: []) 0 3
    (by decide) (by decide) (by decide)

theorem lookup_none_of_find_ci_none (files : List (String × Bytes)) (p : String)
    (h : files.find? (fun q => lowerStr q.1 == lowerStr p) = none) :
    List.lookup p files = none := by
  induction files with
  | nil => rfl
  | cons q t ih =>
    have hall : ∀ x ∈ q :: t, ¬ (lowerStr x.1 == lowerStr p) = true :=
      List.find?_eq_none.mp h
    have hq := hall q (List.mem_cons_self _ _)
    have hpq : (p == q.1) = false := by
      cases hpq2 : (p == q.1) with
      | false => rfl
      | true =>
        have hp : p = q.1 := eq_of_beq hpq2
        subst hp
        exact absurd (beq_self_eq_true _) hq
    simp only [List.lookup, hpq]
    exact ih (List.find?_eq_none.mpr fun x hx => hall x (List.mem_cons_of_mem _ hx))

/-- C10.  Entry resolution in `readFile`: an exact key hit returns its
bytes; otherwise the first entry whose key matches case-insensitively is
returned; `FileNotFound` is raised only when not even a case-insensitive
match exists. -/
theorem readFile_case_insensitive_fallback (s : Session) (p : String) :
    (∀ c, List.lookup p s.files = some c → readFile s p = .ok c) ∧
    (List.lookup p s.files = none →
      ∀ kv, s.files.find? (fun q => lowerStr q.1 == lowerStr p) = some kv →
        readFile s p = .ok kv.2) ∧
    (s.files.find? (fun q => lowerStr q.1 == lowerStr p) = none →
      readFile s p = .error ()) := by
  refine ⟨?_, ?_, ?_⟩
  · intro c hc
    unfold readFile
    simp only [hc]
  · intro hnone kv hkv
    unfold readFile findFileByPath
    simp only [hnone, hkv, Option.map_some']
  · intro hnone
    unfold readFile findFileByPath
    simp only [lookup_none_of_find_ci_none s.files p hnone, hnone, Option.map_none']

theorem readFile_case_insensitive_fallback_witness :
    (∀ c, List.lookup "word/Document.xml" exSession.files = some c →
        readFile exSession "word/Document.xml" = .ok c) ∧
    (List.lookup "word/Document.xml" exSession.files = none →
      ∀ kv, exSession.files.find?
          (fun q => lowerStr q.1 == lowerStr "word/Document.xml") = some kv →
        readFile exSession "word/Document.xml" = .ok kv.2) ∧
    (exSession.files.find? (fun q => lowerStr q.1 == lowerStr "word/Document.xml") = none →
      readFile exSession "word/Document.xml" = .error ()) :=
  readFile_case_insensitive_fallback exSession "word/Document.xml"

end OXE

namespace XMLFmt

/-- C8.  With the default two-space indent, the simple-element rule keeps
`<b>hi</b>` on one line at depth 1 between `<a>` and `</a>`. -/
theorem formatXML_simple_element :
    formatXML "<a><b>hi</b></a>" = some "<a>\n  <b>hi</b>\n</a>" := by decide

end XMLFmt

namespace OXE

theorem sessionInv_parts {s : Session} (h : sessionInv s = true) :
    s.tempFiles.all (fun p => hasKey s.files p.1) = true ∧
    s.modified.all (fun k => hasKey s.files k) = true := by
  unfold sessionInv at h
  rw [Bool.and_eq_true] at h
  exact h

theorem sessionInv_mk {s : Session}
    (h1 : s.tempFiles.all (fun p => hasKey s.files p.1) = true)
    (h2 : s.modified.all (fun k => hasKey s.files k) = true) :
    sessionInv s = true := by
  unfold sessionInv
  rw [Bool.and_eq_true]
  exact ⟨h1, h2⟩

/-- Updating one entry and marking it modified preserves the invariants. -/
theorem sessionInv_update (s : Session) (k : String) (v : Bytes)
    (h : sessionInv s = true) :
    sessionInv { s with files := mapSet s.files k v
                        modified := addMod s.modified k } = true := by
  obtain ⟨h1, h2⟩ := sessionInv_parts h
  refine sessionInv_mk ?_ ?_
  · exact all_imp _ _ _ (fun x hx => hasKey_mapSet_of _ _ _ _ hx) h1
  · exact all_addMod _ _ _
      (all_imp _ _ _ (fun x hx => hasKey_mapSet_of _ _ _ _ hx) h2)
      (hasKey_mapSet_self _ _ _)

theorem sessionInv_syncTempFileBack (s : Session)
    (temps : List (String × (Bytes × Int))) (p : String) (now : Int)
    (h : sessionInv s = true) :
    sessionInv (syncTempFileBack s temps p now) = true := by
  unfold syncTempFileBack
  split
  · exact h
  · split
    · exact h
    · split
      · exact h
      · split
        · split
          · exact h
          · exact sessionInv_update s p _ h
        · exact sessionInv_update s p _ h

theorem sessionInv_writeFile (s : Session) (p : String) (content : Bytes)
    (h : sessionInv s = true) : sessionInv (writeFile s p content) = true :=
  sessionInv_update s p content h

theorem sessionInv_syncAllStep (temps : List (String × (Bytes × Int)))
    (s : Session) (kv : String × String) (h : sessionInv s = true) :
    sessionInv (syncAllStep temps s kv) = true := by
  unfold syncAllStep
  split
  · exact h
  · split
    · exact h
    · split
      · exact h
      · exact sessionInv_update s kv.1 _ h

theorem sessionInv_syncAllTempFiles (s : Session)
    (temps : List (String × (Bytes × Int))) (h : sessionInv s = true) :
    sessionInv (syncAllTempFiles s temps) = true := by
  unfold syncAllTempFiles
  exact foldl_preserve (fun s' => sessionInv s' = true) (syncAllStep temps)
    (fun a b ha => sessionInv_syncAllStep temps a b ha) s.tempFiles s h

theorem sessionInv_clearMod (s : Session) (wm : Int) (h : sessionInv s = true) :
    sessionInv { s with modified := [], lastModified := wm } = true := by
  obtain ⟨h1, h2⟩ := sessionInv_parts h
  exact sessionInv_mk h1 rfl

theorem sessionInv_saveChangesFlushed (s1 : Session) (d : Disk) (fail : SaveFail)
    (wm : Int) (h : sessionInv s1 = true) :
    sessionInv (saveChangesFlushed s1 d fail wm).session = true := by
  unfold saveChangesFlushed
  split
  · exact h
  · split
    · exact h
    · split
      · exact h
      · exact h
      · exact h
      · exact h
      · exact sessionInv_clearMod s1 wm h

theorem sessionInv_saveChanges (s : Session) (d : Disk) (fail : SaveFail)
    (wm : Int) (h : sessionInv s = true) :
    sessionInv (saveChanges s d fail wm).session = true :=
  sessionInv_saveChangesFlushed _ d fail wm (sessionInv_syncAllTempFiles s d.temps h)

/-- The extraction loop keeps the temp-file map's keys inside the entry
map's keys. -/
theorem extractStep_tempFiles_sub (td : String) (wt : Int) (acc : ExtractAcc)
    (e : ZEntry)
    (h : acc.tempFiles.all (fun p => hasKey acc.files p.1) = true) :
    ((extractStep td wt acc e).tempFiles.all
      (fun p => hasKey (extractStep td wt acc e).files p.1)) = true := by
  unfold extractStep
  split
  · exact h
  · split
    · exact h
    · split
      · refine all_mapSet _ _ _ _ ?_ ?_
        · exact all_imp _ _ _ (fun x hx => hasKey_mapSet_of _ _ _ _ hx) h
        · exact hasKey_mapSet_self _ _ _
      · exact all_imp _ _ _ (fun x hx => hasKey_mapSet_of _ _ _ _ hx) h

theorem extractFold_tempFiles_sub (td : String) (wt : Int) (es : List ZEntry)
    (acc : ExtractAcc)
    (h : acc.tempFiles.all (fun p => hasKey acc.files p.1) = true) :
    ((es.foldl (extractStep td wt) acc).tempFiles.all
      (fun p => hasKey (es.foldl (extractStep td wt) acc).files p.1)) = true :=
  foldl_preserve (fun a => a.tempFiles.all (fun p => hasKey a.files p.1) = true)
    (extractStep td wt) (fun a b ha => extractStep_tempFiles_sub td wt a b ha) es acc h

theorem extractArchiveFiles_some (es : List ZEntry) (td : String) (wt : Int) :
    extractArchiveFiles (some es) td wt =
      .ok (es.foldl (extractStep td wt) ⟨[], [], []⟩) := rfl

theorem sessionInv_reloadFromSource (s : Session) (d : Disk) (wt : Int)
    (h : sessionInv s = true) :
    sessionInv (reloadFromSource s d wt).session = true := by
  unfold reloadFromSource
  split
  · exact h
  · cases d.archive with
    | none => exact rfl
    | some es =>
      simp only [extractArchiveFiles_some]
      exact sessionInv_mk (extractFold_tempFiles_sub _ wt es ⟨[], [], []⟩ rfl) rfl

theorem sessionInv_keep (s : Session) (x : Int) (h : sessionInv s = true) :
    sessionInv { s with lastModified := x } = true := h

theorem sessionInv_handleSourceFileChange (s : Session) (d : Disk)
    (choice : ConflictChoice) (fail : SaveFail) (wm rt : Int)
    (h : sessionInv s = true) :
    sessionInv (handleSourceFileChange s d choice fail wm rt).session = true := by
  unfold handleSourceFileChange
  split
  · exact h
  · split
    · exact h
    · split
      · exact sessionInv_reloadFromSource s d rt h
      · split
        · exact sessionInv_reloadFromSource s d rt h
        · exact h
        · split
          · exact sessionInv_reloadFromSource _ _ rt
              (sessionInv_saveChanges s d fail wm h)
          · exact sessionInv_saveChanges s d fail wm h
        · exact h

/-- C6.  The data-model invariants — `tempFiles`' keys are entry keys and
`modified` is a subset of the entry keys — hold for every freshly loaded
session and are preserved by every operation of the engine: temp-file
sync-back, provider writes, the pre-save flush, save (on success and on
every failure path), reload, and the whole source-change conflict
handler. -/
theorem session_invariants_all_ops :
    (∀ st p td d wt sess,
      List.lookup p (loadOpenXMLFile st p td d wt).sessions = some sess →
      (loadOpenXMLFile st p td d wt).ok = true → sessionInv sess = true) ∧
    (∀ s temps p now, sessionInv s = true →
      sessionInv (syncTempFileBack s temps p now) = true) ∧
    (∀ s p content, sessionInv s = true →
      sessionInv (writeFile s p content) = true) ∧
    (∀ s temps, sessionInv s = true →
      sessionInv (syncAllTempFiles s temps) = true) ∧
    (∀ s d fail wm, sessionInv s = true →
      sessionInv (saveChanges s d fail wm).session = true) ∧
    (∀ s d wt, sessionInv s = true →
      sessionInv (reloadFromSource s d wt).session = true) ∧
    (∀ s d choice fail wm rt, sessionInv s = true →
      sessionInv (handleSourceFileChange s d choice fail wm rt).session = true) := by
  refine ⟨?_, sessionInv_syncTempFileBack, sessionInv_writeFile,
    sessionInv_syncAllTempFiles, sessionInv_saveChanges,
    sessionInv_reloadFromSource, sessionInv_handleSourceFileChange⟩
  intro st p td d wt sess hlk hok
  unfold loadOpenXMLFile at hlk hok
  cases horig : d.orig with
  | none =>
    rw [horig] at hok
    exact Bool.noConfusion hok
  | some c =>
    rw [horig] at hlk hok
    cases harch : d.archive with
    | none =>
      rw [harch] at hok
      exact Bool.noConfusion hok
    | some es =>
      rw [harch] at hlk
      simp only [extractArchiveFiles_some] at hlk
      rw [lookup_mapSet_self] at hlk
      obtain rfl : sess = _ := (Option.some.injEq _ _).mp hlk.symm
      refine sessionInv_mk ?_ rfl
      exact extractFold_tempFiles_sub td wt es ⟨[], [], []⟩ rfl

theorem session_invariants_all_ops_witness :
    sessionInv (syncTempFileBack exSession [] "a.xml" 0) = true :=
  session_invariants_all_ops.2.1 exSession [] "a.xml" 0 (by decide)

end OXE

namespace XMLFmt

/-- Every `<` in the string has a `>` somewhere after it.  This is exactly
the condition under which the source's tokenizer loop always makes
progress (a `<` whose tail has no `>` falls through every branch without
advancing `i`). -/
def angleOk : List Char → Bool
  | [] => true
  | c :: t => (!(c = '<') || t.contains '>') && angleOk t

theorem angleOk_cons {c : Char} {t : List Char} (h : angleOk (c :: t) = true) :
    ((!(c = '<') || t.contains '>') = true) ∧ angleOk t = true := by
  unfold angleOk at h
  rw [Bool.and_eq_true] at h
  exact h

theorem angleOk_append {a b : List Char} (h : angleOk (a ++ b) = true) :
    angleOk b = true := by
  induction a with
  | nil => exact h
  | cons c a2 ih => exact ih (angleOk_cons h).2

theorem angleOk_drop {l : List Char} (n : Nat) (h : angleOk l = true) :
    angleOk (l.drop n) = true := by
  refine angleOk_append (a := l.take n) ?_
  rw [List.take_append_drop]
  exact h

theorem angleOk_dropWhile {l : List Char} (p : Char → Bool)
    (h : angleOk l = true) : angleOk (l.dropWhile p) = true := by
  refine angleOk_append (a := l.takeWhile p) ?_
  rw [List.takeWhile_append_dropWhile]
  exact h

theorem mem_takeWhile_sat {p : Char → Bool} :
    ∀ {l : List Char} {x : Char}, x ∈ l.takeWhile p → p x = true := by
  intro l
  induction l with
  | nil => intro x hx; simp [List.takeWhile] at hx
  | cons c t ih =>
    intro x hx
    rw [List.takeWhile] at hx
    cases hc : p c with
    | false => rw [hc] at hx; simp at hx
    | true =>
      rw [hc] at hx
      rcases List.mem_cons.mp hx with rfl | hx
      · exact hc
      · exact ih hx

theorem angleOk_append_ws {l w : List Char} (hw : ∀ c ∈ w, isWS c = true)
    (h : angleOk (l ++ w) = true) : angleOk l = true := by
  induction l with
  | nil => rfl
  | cons c t ih =>
    obtain ⟨h1, h2⟩ := angleOk_cons (by simpa using h)
    unfold angleOk
    rw [Bool.and_eq_true]
    refine ⟨?_, ih h2⟩
    rcases Bool.or_eq_true_iff.mp h1 with h1 | h1
    · exact Bool.or_eq_true_iff.mpr (Or.inl h1)
    · refine Bool.or_eq_true_iff.mpr (Or.inr ?_)
      have hmem : '>' ∈ t ++ w := by
        have := List.mem_of_elem_eq_true h1
        simpa using this
      rcases List.mem_append.mp hmem with hmem | hmem
      · exact List.elem_eq_true_of_mem hmem
      · exact absurd (hw _ hmem) (by decide)

theorem angleOk_trimL {l : List Char} (h : angleOk l = true) :
    angleOk (trimL l) = true := by
  unfold trimL
  have h1 : angleOk (l.dropWhile isWS) = true := angleOk_dropWhile isWS h
  have hsplit : l.dropWhile isWS =
      ((l.dropWhile isWS).reverse.dropWhile isWS).reverse ++
      ((l.dropWhile isWS).reverse.takeWhile isWS).reverse := by
    rw [← List.reverse_append, List.takeWhile_append_dropWhile, List.reverse_reverse]
  refine angleOk_append_ws
    (w := ((l.dropWhile isWS).reverse.takeWhile isWS).reverse) ?_ ?_
  · intro c hc
    rw [List.mem_reverse] at hc
    exact mem_takeWhile_sat hc
  · rw [← hsplit]
    exact h1

theorem dropWhile_tail_len {l : List Char} {c : Char}
    (h : (l.dropWhile isWS).head? = some c) :
    ((l.dropWhile isWS).tail).length + 1 ≤ l.length := by
  have hlen := len_dropWhile_le isWS l
  cases hd : l.dropWhile isWS with
  | nil => rw [hd] at h; exact Option.noConfusion h
  | cons d t =>
    rw [hd] at hlen
    simp only [List.length_cons] at hlen
    simp only [hd, List.tail_cons]
    omega

theorem collapseF_adequate :
    ∀ (f1 f2 : Nat) (l : List Char), l.length ≤ f1 → l.length ≤ f2 →
      collapseF f1 l = collapseF f2 l := by
  intro f1
  induction f1 with
  | zero =>
    intro f2 l h1 h2
    have : l = [] := List.length_eq_zero.mp (Nat.le_zero.mp h1)
    subst this
    cases f2 <;> rfl
  | succ f ih =>
    intro f2 l h1 h2
    cases l with
    | nil => cases f2 <;> rfl
    | cons c rest =>
      cases f2 with
      | zero => exact absurd h2 (by simp)
      | succ f2' =>
        simp only [collapseF]
        have hlen : rest.length ≤ f := by
          simp only [List.length_cons] at h1; omega
        have hlen2 : rest.length ≤ f2' := by
          simp only [List.length_cons] at h2; omega
        by_cases hc : c = '>'
        · rw [if_pos hc, if_pos hc]
          by_cases hd : (rest.dropWhile isWS).head? = some '<'
          · rw [if_pos hd, if_pos hd]
            have ht := dropWhile_tail_len hd
            rw [ih f2' (rest.dropWhile isWS).tail (by omega) (by omega)]
          · rw [if_neg hd, if_neg hd, ih f2' rest hlen hlen2]
        · rw [if_neg hc, if_neg hc, ih f2' rest hlen hlen2]

theorem collapse_nil : collapse [] = [] := rfl

theorem collapse_cons (c : Char) (rest : List Char) :
    collapse (c :: rest) =
      (if c = '>' then
        if (rest.dropWhile isWS).head? = some '<' then
          '>' :: '<' :: collapse (rest.dropWhile isWS).tail
        else '>' :: collapse rest
      else c :: collapse rest) := by
  unfold collapse
  simp only [List.length_cons, collapseF]
  by_cases hc : c = '>'
  · rw [if_pos hc, if_pos hc]
    by_cases hd : (rest.dropWhile isWS).head? = some '<'
    · rw [if_pos hd, if_pos hd]
      have ht := dropWhile_tail_len hd
      rw [collapseF_adequate rest.length ((rest.dropWhile isWS).tail).length
        (rest.dropWhile isWS).tail (by omega) (le_refl _)]
    · rw [if_neg hd, if_neg hd,
        collapseF_adequate rest.length rest.length rest (le_refl _) (le_refl _)]
  · rw [if_neg hc, if_neg hc,
      collapseF_adequate rest.length rest.length rest (le_refl _) (le_refl _)]

end XMLFmt

namespace XMLFmt

theorem isSome_map {α β : Type} (f : α → β) (o : Option α) :
    (o.map f).isSome = o.isSome := by cases o <;> rfl

theorem head?_decomp {l : List Char} (h : (l.dropWhile isWS).head? = some '<') :
    l.dropWhile isWS = '<' :: (l.dropWhile isWS).tail := by
  cases hd : l.dropWhile isWS with
  | nil => rw [hd] at h; exact Option.noConfusion h
  | cons d t =>
    rw [hd] at h
    simp only [List.head?] at h
    injection h with hdq
    rw [hdq]
    rfl

theorem mem_collapse (x : Char) (hx : isWS x = false) :
    ∀ (n : Nat) (l : List Char), l.length ≤ n → x ∈ l → x ∈ collapse l := by
  intro n
  induction n with
  | zero =>
    intro l hl hm
    have h0 : l = [] := List.length_eq_zero.mp (Nat.le_zero.mp hl)
    subst h0
    simp at hm
  | succ n ih =>
    intro l hl hm
    cases l with
    | nil => simp at hm
    | cons c rest =>
      rw [collapse_cons]
      simp only [List.length_cons] at hl
      by_cases hc : c = '>'
      · rw [if_pos hc]
        by_cases hd : (rest.dropWhile isWS).head? = some '<'
        · rw [if_pos hd]
          have hdec := head?_decomp hd
          have hrest : rest = rest.takeWhile isWS ++ '<' :: (rest.dropWhile isWS).tail := by
            rw [← hdec, List.takeWhile_append_dropWhile]
          rcases List.mem_cons.mp hm with rfl | hm2
          · rw [hc]; exact List.mem_cons_self _ _
          · rw [hrest] at hm2
            rcases List.mem_append.mp hm2 with hm3 | hm3
            · exact absurd (mem_takeWhile_sat hm3) (by rw [hx]; exact Bool.noConfusion)
            · rcases List.mem_cons.mp hm3 with rfl | hm4
              · exact List.mem_cons_of_mem _ (List.mem_cons_self _ _)
              · have hlen2 := dropWhile_tail_len hd
                exact List.mem_cons_of_mem _
                  (List.mem_cons_of_mem _ (ih _ (by omega) hm4))
        · rw [if_neg hd]
          rcases List.mem_cons.mp hm with rfl | hm2
          · rw [hc]; exact List.mem_cons_self _ _
          · exact List.mem_cons_of_mem _ (ih rest (by omega) hm2)
      · rw [if_neg hc]
        rcases List.mem_cons.mp hm with rfl | hm2
        · exact List.mem_cons_self _ _
        · exact List.mem_cons_of_mem _ (ih rest (by omega) hm2)

theorem angleOk_collapse_aux :
    ∀ (n : Nat) (l : List Char), l.length ≤ n →
      angleOk l = true → angleOk (collapse l) = true := by
  intro n
  induction n with
  | zero =>
    intro l hl _
    have h0 : l = [] := List.length_eq_zero.mp (Nat.le_zero.mp hl)
    subst h0
    rfl
  | succ n ih =>
    intro l hl hok
    cases l with
    | nil => rfl
    | cons c rest =>
      rw [collapse_cons]
      simp only [List.length_cons] at hl
      obtain ⟨hfst, hrest⟩ := angleOk_cons hok
      by_cases hc : c = '>'
      · rw [if_pos hc]
        by_cases hd : (rest.dropWhile isWS).head? = some '<'
        · rw [if_pos hd]
          have hdec := head?_decomp hd
          have hsuffix : angleOk ('<' :: (rest.dropWhile isWS).tail) = true := by
            rw [← hdec]; exact angleOk_dropWhile isWS hrest
          obtain ⟨hlt, htail⟩ := angleOk_cons hsuffix
          have hcont : ((rest.dropWhile isWS).tail).contains '>' = true := by
            simpa using hlt
          have hlen2 := dropWhile_tail_len hd
          have h1 : '>' ∈ collapse ((rest.dropWhile isWS).tail) :=
            mem_collapse '>' (by decide) n _ (by omega)
              (List.mem_of_elem_eq_true hcont)
          have h2 : angleOk (collapse ((rest.dropWhile isWS).tail)) = true :=
            ih _ (by omega) htail
          simp [angleOk, h1, h2]
        · rw [if_neg hd]
          have h2 := ih rest (by omega) hrest
          simp [angleOk, h2]
      · rw [if_neg hc]
        have h2 := ih rest (by omega) hrest
        by_cases hlt : c = '<'
        · subst hlt
          have hcont : rest.contains '>' = true := by simpa using hfst
          have h1 : '>' ∈ collapse rest :=
            mem_collapse '>' (by decide) n rest (by omega)
              (List.mem_of_elem_eq_true hcont)
          simp [angleOk, h1, h2]
        · simp [angleOk, hlt, h2]

theorem angleOk_collapse {l : List Char} (h : angleOk l = true) :
    angleOk (collapse l) = true :=
  angleOk_collapse_aux l.length l (le_refl _) h

theorem findSub_single_isSome {x : Char} :
    ∀ {l : List Char}, x ∈ l → (findSub (x :: []) l).isSome = true := by
  intro l
  induction l with
  | nil => intro h; simp at h
  | cons c rest ih =>
    intro h
    unfold findSub
    by_cases hp : (x :: []).isPrefixOf (c :: rest) = true
    · rw [if_pos hp]; rfl
    · rw [if_neg hp]
      rcases List.mem_cons.mp h with rfl | h2
      · exact absurd (by simp [List.isPrefixOf]) hp
      · rw [isSome_map]
        exact ih h2

theorem parseTokensF_isSome :
    ∀ (fuel : Nat) (l : List Char), l.length ≤ fuel → angleOk l = true →
      (parseTokensF fuel l).isSome = true := by
  intro fuel
  induction fuel with
  | zero =>
    intro l hl _
    have h0 : l = [] := List.length_eq_zero.mp (Nat.le_zero.mp hl)
    subst h0
    rfl
  | succ f ih =>
    intro l hl hok
    cases l with
    | nil => rfl
    | cons c rest =>
      simp only [List.length_cons] at hl
      simp only [parseTokensF]
      split
      · rename_i hcond
        cases hfind : findSub cdataClose (c :: rest) with
        | none => rw [hfind] at hcond; exact absurd hcond.2 (by simp)
        | some j =>
          simp only [Option.some_bind, isSome_map]
          refine ih _ ?_ (angleOk_drop _ hok)
          simp only [List.length_drop, List.length_cons]
          omega
      · split
        · rename_i hcond
          cases hfind : findSub commentClose (c :: rest) with
          | none => rw [hfind] at hcond; exact absurd hcond.2 (by simp)
          | some j =>
            simp only [Option.some_bind, isSome_map]
            refine ih _ ?_ (angleOk_drop _ hok)
            simp only [List.length_drop, List.length_cons]
            omega
        · split
          · rename_i hca hcb hc
            obtain ⟨hfst, hrest⟩ := angleOk_cons hok
            have hcont : rest.contains '>' = true := by
              rw [hc] at hfst
              simpa using hfst
            have hmem : '>' ∈ c :: rest :=
              List.mem_cons_of_mem _ (List.mem_of_elem_eq_true hcont)
            cases hfind : findSub ('>' :: []) (c :: rest) with
            | none =>
              have := findSub_single_isSome hmem
              rw [hfind] at this
              exact absurd this (by simp)
            | some j =>
              simp only [Option.some_bind, isSome_map]
              refine ih _ ?_ (angleOk_drop _ hok)
              simp only [List.length_drop, List.length_cons]
              omega
          · simp only [isSome_map]
            rename_i hca hcb hc
            refine ih _ ?_ (angleOk_dropWhile _ hok)
            have hpc : (fun d => decide (d ≠ '<')) c = true := by
              simpa using hc
            rw [List.dropWhile_cons, if_pos hpc]
            have := len_dropWhile_le (fun d => decide (d ≠ '<')) rest
            omega

theorem parseTokens_isSome (l : List Char) (h : angleOk l = true) :
    (parseTokens l).isSome = true :=
  parseTokensF_isSome l.length l (le_refl _) h

/-- C9 counterexample.  On the input `"<"` — a `<` with no later `>` —
the source's tokenizer loop never advances `i` and spins forever, so
`formatXML` neither returns a result nor throws: in particular the
`catch`-based fallback (whose output on this string would be `"<"`) is
never produced.  Divergence is modelled by the `none` result. -/
theorem formatXML_unterminated_tag_diverges :
    formatXML "<" = none ∧ fallbackFormat ('<' :: []) = '<' :: [] := by decide

/-- C9 amended.  `Format` is deterministic and pure, and it terminates
with a result for every input in which every `<` has a later `>` (it never
throws on such inputs, so the fallback is not needed there); on inputs
with an unterminated `<` — e.g. `"<"` — the tokenizer loops forever
instead of falling back. -/
theorem formatXML_total_on_closed_angles (x : String) (h : angleOk x.data = true) :
    (formatXML x).isSome = true := by
  unfold formatXML formatXMLL
  rw [isSome_map, isSome_map]
  exact parseTokens_isSome _ (angleOk_collapse (angleOk_trimL h))

theorem formatXML_total_on_closed_angles_witness :
    angleOk "<a/>".data = true ∧ (formatXML "<a/>").isSome = true :=
  ⟨by decide, formatXML_total_on_closed_angles "<a/>" (by decide)⟩

end XMLFmt

namespace XMLFmt

theorem findSub_eq_some (pat l : List Char) (j : Nat) (hp : pat ≠ [])
    (h1 : pat.isPrefixOf (l.drop j) = true)
    (h2 : ∀ k, k < j → pat.isPrefixOf (l.drop k) = false) :
    findSub pat l = some j := by
  induction l generalizing j with
  | nil =>
    rw [List.drop_nil] at h1
    cases pat with
    | nil => exact absurd rfl hp
    | cons p ps => exact absurd h1 (by simp [List.isPrefixOf])
  | cons c rest ih =>
    cases j with
    | zero =>
      rw [List.drop_zero] at h1
      unfold findSub
      rw [if_pos h1]
    | succ j2 =>
      unfold findSub
      have h0 : pat.isPrefixOf (c :: rest) = false := by
        have := h2 0 (Nat.zero_lt_succ _)
        rw [List.drop_zero] at this
        exact this
      rw [if_neg (by rw [h0]; exact Bool.noConfusion)]
      have hrec : findSub pat rest = some j2 := by
        refine ih j2 ?_ ?_
        · rw [List.drop_succ_cons] at h1
          exact h1
        · intro k hk
          have hx := h2 (k + 1) (Nat.succ_lt_succ hk)
          rw [List.drop_succ_cons] at hx
          exact hx
      rw [hrec]
      rfl

end XMLFmt

namespace XMLFmt

theorem isPrefixOf_nil_false {pat : List Char} (hp : pat ≠ []) :
    pat.isPrefixOf ([] : List Char) = false := by
  cases pat with
  | nil => exact absurd rfl hp
  | cons p ps => rfl

theorem findSub_eq_none (pat l : List Char)
    (h : ∀ k, pat.isPrefixOf (l.drop k) = false) : findSub pat l = none := by
  induction l with
  | nil =>
    unfold findSub
    split
    · rename_i hpat
      have h0 := h 0
      rw [List.drop_nil, hpat] at h0
      exact absurd h0 (by simp [List.isPrefixOf])
    · rfl
  | cons c rest ih =>
    unfold findSub
    rw [if_neg (by rw [show pat.isPrefixOf (c :: rest) = false from by
          have := h 0; rwa [List.drop_zero] at this]; exact Bool.noConfusion)]
    rw [ih (fun k => by have := h (k + 1); rwa [List.drop_succ_cons] at this)]
    rfl

theorem findSub_some_imp {pat l : List Char} {j : Nat}
    (h : findSub pat l = some j) :
    pat.isPrefixOf (l.drop j) = true ∧
      ∀ k, k < j → pat.isPrefixOf (l.drop k) = false := by
  induction l generalizing j with
  | nil =>
    unfold findSub at h
    split at h
    · rename_i hpat
      injection h with h0
      subst h0
      subst hpat
      exact ⟨rfl, fun k hk => absurd hk (by omega)⟩
    · exact Option.noConfusion h
  | cons c rest ih =>
    unfold findSub at h
    split at h
    · rename_i hpre
      injection h with h0
      subst h0
      rw [List.drop_zero]
      exact ⟨hpre, fun k hk => absurd hk (by omega)⟩
    · rename_i hpre
      cases hrec : findSub pat rest with
      | none => rw [hrec] at h; exact Option.noConfusion h
      | some j2 =>
        rw [hrec] at h
        injection h with h0
        subst h0
        obtain ⟨ih1, ih2⟩ := ih hrec
        refine ⟨by rwa [List.drop_succ_cons], ?_⟩
        intro k hk
        cases k with
        | zero =>
          rw [List.drop_zero]
          cases hb : pat.isPrefixOf (c :: rest) with
          | false => rfl
          | true => exact absurd hb (by simpa using hpre)
        | succ k2 =>
          rw [List.drop_succ_cons]
          exact ih2 k2 (Nat.lt_of_succ_lt_succ hk)

theorem findSub_none_imp {pat l : List Char} (hp : pat ≠ [])
    (h : findSub pat l = none) :
    ∀ k, pat.isPrefixOf (l.drop k) = false := by
  induction l with
  | nil => intro k; rw [List.drop_nil]; exact isPrefixOf_nil_false hp
  | cons c rest ih =>
    unfold findSub at h
    split at h
    · exact Option.noConfusion h
    · rename_i hpre
      have hrest : findSub pat rest = none := by
        cases hrec : findSub pat rest with
        | none => rfl
        | some j2 => rw [hrec] at h; exact Option.noConfusion h
      intro k
      cases k with
      | zero =>
        rw [List.drop_zero]
        cases hb : pat.isPrefixOf (c :: rest) with
        | false => rfl
        | true => exact absurd hb (by simpa using hpre)
      | succ k2 =>
        rw [List.drop_succ_cons]
        exact ih hrest k2

/-- `pat` occurs somewhere in `l`. -/
def hasSub (pat l : List Char) : Prop :=
  ∃ k, pat.isPrefixOf (l.drop k) = true

theorem findSub_eq_none_of_not_hasSub {pat l : List Char}
    (h : ¬ hasSub pat l) : findSub pat l = none := by
  refine findSub_eq_none pat l (fun k => ?_)
  cases hb : pat.isPrefixOf (l.drop k) with
  | false => rfl
  | true => exact absurd ⟨k, hb⟩ h

theorem prefixOf_append_right {pat u v : List Char}
    (h : pat.isPrefixOf u = true) : pat.isPrefixOf (u ++ v) = true :=
  List.isPrefixOf_iff_prefix.mpr
    ((List.isPrefixOf_iff_prefix.mp h).trans (List.prefix_append u v))

theorem prefixOf_of_append_left {pat u v : List Char}
    (h : pat.isPrefixOf (u ++ v) = true) (hlen : pat.length ≤ u.length) :
    pat.isPrefixOf u = true := by
  have hpre := List.isPrefixOf_iff_prefix.mp h
  have heq := List.prefix_iff_eq_take.mp hpre
  rw [List.take_append_of_le_length hlen] at heq
  exact List.isPrefixOf_iff_prefix.mpr (heq ▸ List.take_prefix _ _)

theorem prefixOf_head {pat u : List Char} (hp : pat ≠ [])
    (h : pat.isPrefixOf u = true) : u.head? = pat.head? := by
  obtain ⟨t, ht⟩ := List.isPrefixOf_iff_prefix.mp h
  rw [← ht, List.head?_append_of_ne_nil _ hp]

theorem hasSub_lift {pat u l : List Char} (hp : pat ≠ [])
    (hinf : u <:+: l) (h : hasSub pat u) : hasSub pat l := by
  obtain ⟨k, hk⟩ := h
  obtain ⟨a, b, hab⟩ := hinf
  refine ⟨a.length + k, ?_⟩
  have hd : l.drop (a.length + k) = (u ++ b).drop k := by
    rw [← hab, List.append_assoc, List.drop_append]
  rw [hd]
  by_cases hku : k ≤ u.length
  · rw [List.drop_append_of_le_length hku]
    exact prefixOf_append_right hk
  · exfalso
    rw [List.drop_eq_nil_of_le (by omega)] at hk
    exact absurd hk (by rw [isPrefixOf_nil_false hp]; exact Bool.noConfusion)

end XMLFmt

namespace XMLFmt

theorem hasSub_append {pat a b : List Char} (hp : pat ≠ [])
    (h : hasSub pat (a ++ b)) :
    hasSub pat a ∨ hasSub pat b ∨
      ∃ k, 0 < k ∧ k < pat.length ∧
        (pat.take k) <:+ a ∧ (pat.drop k) <+: b := by
  obtain ⟨j, hj⟩ := h
  by_cases h1 : j + pat.length ≤ a.length
  · refine Or.inl ⟨j, ?_⟩
    rw [List.drop_append_of_le_length (by omega)] at hj
    exact prefixOf_of_append_left hj (by rw [List.length_drop]; omega)
  · by_cases h2 : a.length ≤ j
    · refine Or.inr (Or.inl ⟨j - a.length, ?_⟩)
      have h3 : (a ++ b).drop j = b.drop (j - a.length) := by
        have h4 := @List.drop_append _ a b (j - a.length)
        rw [show a.length + (j - a.length) = j from by omega] at h4
        exact h4
      rwa [h3] at hj
    · have hsplit : (a ++ b).drop j = a.drop j ++ b :=
        List.drop_append_of_le_length (by omega)
      have hlenaj : (a.drop j).length = a.length - j := List.length_drop j a
      have hpre : pat = ((a.drop j ++ b).take pat.length) := by
        have := List.prefix_iff_eq_take.mp (List.isPrefixOf_iff_prefix.mp hj)
        rwa [hsplit] at this
      refine Or.inr (Or.inr ⟨a.length - j, by omega, by omega, ?_, ?_⟩)
      · have htk : pat.take (a.length - j) = a.drop j := by
          rw [hpre, List.take_take, min_eq_left (by omega),
            List.take_append_of_le_length (by omega),
            ← hlenaj, List.take_length]
        rw [htk]
        exact List.drop_suffix j a
      · have hdp : pat.drop (a.length - j) = b.take (pat.length - (a.length - j)) := by
          rw [hpre, List.drop_take]
          have h5 : (a.drop j ++ b).drop (a.length - j) = b := by
            rw [← hlenaj, List.drop_left]
          rw [h5, List.length_take]
          have h6 : pat.length ≤ (List.drop j a ++ b).length := by
            have h7 := (List.isPrefixOf_iff_prefix.mp hj).length_le
            rw [List.length_drop, List.length_append] at h7
            rw [List.length_append, List.length_drop]
            omega
          rw [min_eq_left h6]
        rw [hdp]
        exact List.take_prefix _ _

/-- All characters of `l` are whitespace. -/
def wsAll (l : List Char) : Prop := ∀ c ∈ l, isWS c = true

theorem wsAll_nil : wsAll [] := fun c hc => absurd hc (List.not_mem_nil c)

theorem wsAll_append {a b : List Char} (ha : wsAll a) (hb : wsAll b) :
    wsAll (a ++ b) := by
  intro c hc
  rcases List.mem_append.mp hc with hc | hc
  · exact ha c hc
  · exact hb c hc

theorem not_hasSub_ws {pat l : List Char} {p0 : Char}
    (hh : pat.head? = some p0) (hws : isWS p0 = false) (hl : wsAll l) :
    ¬ hasSub pat l := by
  rintro ⟨k, hk⟩
  have hp : pat ≠ [] := by intro h0; rw [h0] at hh; exact Option.noConfusion hh
  have hhead := prefixOf_head hp hk
  rw [hh] at hhead
  cases hd : l.drop k with
  | nil => rw [hd] at hhead; exact Option.noConfusion hhead
  | cons d t =>
    rw [hd] at hhead
    simp only [List.head?] at hhead
    injection hhead with hde
    have hmem : d ∈ l := by
      have : d ∈ l.drop k := by rw [hd]; exact List.mem_cons_self _ _
      exact List.mem_of_mem_drop this
    have := hl d hmem
    rw [← hde] at hws
    rw [this] at hws
    exact Bool.noConfusion hws

theorem dropWhile_head_not {p : Char → Bool} :
    ∀ {l : List Char} {c : Char}, (l.dropWhile p).head? = some c → p c = false := by
  intro l
  induction l with
  | nil => intro c hc; simp [List.dropWhile] at hc
  | cons d t ih =>
    intro c hc
    rw [List.dropWhile_cons] at hc
    split at hc
    · exact ih hc
    · rename_i hd
      simp only [List.head?] at hc
      injection hc with hdc
      rw [← hdc]
      cases hpd : p d with
      | false => rfl
      | true => exact absurd hpd hd

theorem dropWhile_ws_append {W v : List Char} {c : Char} (hW : wsAll W)
    (hv : v.head? = some c) (hc : isWS c = false) :
    (W ++ v).dropWhile isWS = v := by
  induction W with
  | nil =>
    cases v with
    | nil => exact Option.noConfusion hv
    | cons d t =>
      simp only [List.head?] at hv
      injection hv with hdc
      rw [List.nil_append, List.dropWhile_cons, hdc, hc]
      simp
  | cons w W2 ih =>
    rw [List.cons_append, List.dropWhile_cons, hW w (List.mem_cons_self _ _)]
    simp only [decide_True, if_true]
    exact ih (fun x hx => hW x (List.mem_cons_of_mem _ hx))

theorem takeWhile_all_append {p : Char → Bool} {a b : List Char}
    (ha : ∀ x ∈ a, p x = true) :
    (a ++ b).takeWhile p = a ++ b.takeWhile p := by
  induction a with
  | nil => rfl
  | cons c t ih =>
    rw [List.cons_append, List.takeWhile_cons, ha c (List.mem_cons_self _ _)]
    simp only [decide_True, if_true]
    rw [ih (fun x hx => ha x (List.mem_cons_of_mem _ hx))]
    rfl

theorem dropWhile_all_append {p : Char → Bool} {a b : List Char}
    (ha : ∀ x ∈ a, p x = true) :
    (a ++ b).dropWhile p = b.dropWhile p := by
  induction a with
  | nil => rfl
  | cons c t ih =>
    rw [List.cons_append, List.dropWhile_cons, ha c (List.mem_cons_self _ _)]
    simp only [decide_True, if_true]
    exact ih (fun x hx => ha x (List.mem_cons_of_mem _ hx))

theorem takeWhile_head_stop {p : Char → Bool} {v : List Char} {c : Char}
    (hv : v.head? = some c) (hc : p c = false) : v.takeWhile p = [] := by
  cases v with
  | nil => rfl
  | cons d t =>
    simp only [List.head?] at hv
    injection hv with hdc
    rw [List.takeWhile_cons, hdc, hc]
    simp

theorem dropWhile_head_stop {p : Char → Bool} {v : List Char} {c : Char}
    (hv : v.head? = some c) (hc : p c = false) : v.dropWhile p = v := by
  cases v with
  | nil => rfl
  | cons d t =>
    simp only [List.head?] at hv
    injection hv with hdc
    rw [List.dropWhile_cons, hdc, hc]
    simp

end XMLFmt


namespace XMLFmt

theorem prefix_head_eq {u w : List Char} (h : u <+: w) (hu : u ≠ []) :
    w.head? = u.head? := by
  obtain ⟨t, ht⟩ := h
  rw [← ht, List.head?_append_of_ne_nil _ hu]

theorem trimL_pref (l : List Char) : trimL l <+: l.dropWhile isWS := by
  unfold trimL
  have h := List.reverse_prefix.mpr
    (List.dropWhile_suffix (l := (List.dropWhile isWS l).reverse) isWS)
  rwa [List.reverse_reverse] at h

theorem trimL_head {l : List Char} {c : Char} (h : (trimL l).head? = some c) :
    isWS c = false := by
  have hne : trimL l ≠ [] := by
    intro h0; rw [h0] at h; exact Option.noConfusion h
  have hd := prefix_head_eq (trimL_pref l) hne
  rw [h] at hd
  exact dropWhile_head_not hd

theorem trimL_last {l : List Char} {c : Char} (h : (trimL l).getLast? = some c) :
    isWS c = false := by
  unfold trimL at h
  rw [← List.head?_reverse, List.reverse_reverse] at h
  exact dropWhile_head_not h

theorem trimL_fix {t : List Char} {c0 cl : Char}
    (h0 : t.head? = some c0) (hw0 : isWS c0 = false)
    (h1 : t.getLast? = some cl) (hw1 : isWS cl = false) : trimL t = t := by
  unfold trimL
  rw [dropWhile_head_stop h0 hw0]
  rw [dropWhile_head_stop (by rw [List.head?_reverse]; exact h1) hw1]
  exact List.reverse_reverse t

theorem trimL_fix_head {t : List Char} (hfix : trimL t = t) (hne : t ≠ []) :
    ∃ c, t.head? = some c ∧ isWS c = false := by
  cases hh : t.head? with
  | none => exact absurd (List.head?_eq_none_iff.mp hh) hne
  | some c => exact ⟨c, rfl, trimL_head (by rw [hfix]; exact hh)⟩

theorem trimL_fix_last {t : List Char} (hfix : trimL t = t) (hne : t ≠ []) :
    ∃ c, t.getLast? = some c ∧ isWS c = false := by
  cases hh : t.getLast? with
  | none => exact absurd (List.getLast?_eq_none_iff.mp hh) hne
  | some c => exact ⟨c, rfl, trimL_last (by rw [hfix]; exact hh)⟩

theorem trimL_idem (t : List Char) : trimL (trimL t) = trimL t := by
  cases hh : (trimL t).head? with
  | none => rw [List.head?_eq_none_iff.mp hh]; rfl
  | some c =>
    have hc := trimL_head hh
    cases hl : (trimL t).getLast? with
    | none => rw [List.getLast?_eq_none_iff.mp hl]; rfl
    | some d => exact trimL_fix hh hc hl (trimL_last hl)

theorem trimL_ws_pad {W t V : List Char} {c0 cl : Char} (hW : wsAll W)
    (hV : wsAll V) (h0 : t.head? = some c0) (hw0 : isWS c0 = false)
    (h1 : t.getLast? = some cl) (hw1 : isWS cl = false) :
    trimL (W ++ t ++ V) = t := by
  unfold trimL
  rw [List.append_assoc, dropWhile_ws_append hW (by
    rw [List.head?_append_of_ne_nil]
    · exact h0
    · intro h2; rw [h2] at h0; exact Option.noConfusion h0) hw0]
  rw [List.reverse_append, dropWhile_ws_append (by
      intro c hc; exact hV c (List.mem_reverse.mp hc))
    (by rw [List.head?_reverse]; exact h1) hw1]
  exact List.reverse_reverse t

theorem trimL_all_ws {W : List Char} (hW : wsAll W) : trimL W = [] := by
  unfold trimL
  have h1 : W.dropWhile isWS = [] := by
    cases hd : W.dropWhile isWS with
    | nil => rfl
    | cons c u =>
      have hc : isWS c = false := dropWhile_head_not (by rw [hd]; rfl)
      have hmem : c ∈ W := by
        have hsuf := List.dropWhile_suffix (l := W) isWS
        rw [hd] at hsuf
        exact hsuf.subset (List.mem_cons_self _ _)
      rw [hW c hmem] at hc
      exact Bool.noConfusion hc
  rw [h1]
  rfl

end XMLFmt

namespace XMLFmt

theorem parseTokensF_adequate :
    ∀ (f1 f2 : Nat) (l : List Char), l.length ≤ f1 → l.length ≤ f2 →
      parseTokensF f1 l = parseTokensF f2 l := by
  intro f1
  induction f1 with
  | zero =>
    intro f2 l h1 _
    have h0 : l = [] := List.length_eq_zero.mp (Nat.le_zero.mp h1)
    subst h0
    cases f2 <;> rfl
  | succ f ih =>
    intro f2 l h1 h2
    cases l with
    | nil => cases f2 <;> rfl
    | cons c rest =>
      cases f2 with
      | zero => exact absurd h2 (by simp)
      | succ f2' =>
        simp only [List.length_cons] at h1 h2
        simp only [parseTokensF]
        by_cases hca : cdataOpen.isPrefixOf (c :: rest) = true ∧
            (findSub cdataClose (c :: rest)).isSome = true
        · rw [if_pos hca, if_pos hca]
          cases hfind : findSub cdataClose (c :: rest) with
          | none => rfl
          | some j =>
            simp only [Option.some_bind]
            rw [ih f2' ((c :: rest).drop (j + 3))
              (by simp only [List.length_drop, List.length_cons]; omega)
              (by simp only [List.length_drop, List.length_cons]; omega)]
        · rw [if_neg hca, if_neg hca]
          by_cases hcb : commentOpen.isPrefixOf (c :: rest) = true ∧
              (findSub commentClose (c :: rest)).isSome = true
          · rw [if_pos hcb, if_pos hcb]
            cases hfind : findSub commentClose (c :: rest) with
            | none => rfl
            | some j =>
              simp only [Option.some_bind]
              rw [ih f2' ((c :: rest).drop (j + 3))
                (by simp only [List.length_drop, List.length_cons]; omega)
                (by simp only [List.length_drop, List.length_cons]; omega)]
          · rw [if_neg hcb, if_neg hcb]
            by_cases hc : c = '<'
            · rw [if_pos hc, if_pos hc]
              cases hfind : findSub ('>' :: []) (c :: rest) with
              | none => rfl
              | some j =>
                simp only [Option.some_bind]
                rw [ih f2' ((c :: rest).drop (j + 1))
                  (by simp only [List.length_drop, List.length_cons]; omega)
                  (by simp only [List.length_drop, List.length_cons]; omega)]
            · rw [if_neg hc, if_neg hc]
              have hpc : (fun d => decide (d ≠ '<')) c = true := by simpa using hc
              have hlen := len_dropWhile_le (fun d => decide (d ≠ '<')) rest
              rw [ih f2' ((c :: rest).dropWhile (fun d => d ≠ '<'))
                (by rw [List.dropWhile_cons, if_pos hpc]; omega)
                (by rw [List.dropWhile_cons, if_pos hpc]; omega)]

theorem parseTokens_cons (c : Char) (rest : List Char) :
    parseTokens (c :: rest) =
      (if cdataOpen.isPrefixOf (c :: rest) ∧ (findSub cdataClose (c :: rest)).isSome then
        (findSub cdataClose (c :: rest)).bind (fun j =>
          (parseTokens ((c :: rest).drop (j + 3))).map
            (fun ts => .cdata ((c :: rest).take (j + 3)) :: ts))
      else if commentOpen.isPrefixOf (c :: rest) ∧ (findSub commentClose (c :: rest)).isSome then
        (findSub commentClose (c :: rest)).bind (fun j =>
          (parseTokens ((c :: rest).drop (j + 3))).map
            (fun ts => .comment ((c :: rest).take (j + 3)) :: ts))
      else if c = '<' then
        (findSub ('>' :: []) (c :: rest)).bind (fun j =>
          (parseTokens ((c :: rest).drop (j + 1))).map
            (fun ts => .tag ((c :: rest).take (j + 1)) :: ts))
      else
        (parseTokens ((c :: rest).dropWhile (fun d => d ≠ '<'))).map
          (fun ts =>
            if trimL ((c :: rest).takeWhile (fun d => d ≠ '<')) = [] then ts
            else .text (trimL ((c :: rest).takeWhile (fun d => d ≠ '<'))) :: ts)) := by
  unfold parseTokens
  simp only [List.length_cons, parseTokensF]
  by_cases hca : cdataOpen.isPrefixOf (c :: rest) = true ∧
      (findSub cdataClose (c :: rest)).isSome = true
  · rw [if_pos hca, if_pos hca]
    cases hfind : findSub cdataClose (c :: rest) with
    | none => rfl
    | some j =>
      simp only [Option.some_bind]
      rw [parseTokensF_adequate rest.length ((c :: rest).drop (j + 3)).length
        ((c :: rest).drop (j + 3))
        (by simp only [List.length_drop, List.length_cons]; omega) (le_refl _)]
  · rw [if_neg hca, if_neg hca]
    by_cases hcb : commentOpen.isPrefixOf (c :: rest) = true ∧
        (findSub commentClose (c :: rest)).isSome = true
    · rw [if_pos hcb, if_pos hcb]
      cases hfind : findSub commentClose (c :: rest) with
      | none => rfl
      | some j =>
        simp only [Option.some_bind]
        rw [parseTokensF_adequate rest.length ((c :: rest).drop (j + 3)).length
          ((c :: rest).drop (j + 3))
          (by simp only [List.length_drop, List.length_cons]; omega) (le_refl _)]
    · rw [if_neg hcb, if_neg hcb]
      by_cases hc : c = '<'
      · rw [if_pos hc, if_pos hc]
        cases hfind : findSub ('>' :: []) (c :: rest) with
        | none => rfl
        | some j =>
          simp only [Option.some_bind]
          rw [parseTokensF_adequate rest.length ((c :: rest).drop (j + 1)).length
            ((c :: rest).drop (j + 1))
            (by simp only [List.length_drop, List.length_cons]; omega) (le_refl _)]
      · rw [if_neg hc, if_neg hc]
        have hpc : (fun d => decide (d ≠ '<')) c = true := by simpa using hc
        have hlen := len_dropWhile_le (fun d => decide (d ≠ '<')) rest
        rw [parseTokensF_adequate rest.length
          ((c :: rest).dropWhile (fun d => d ≠ '<')).length
          ((c :: rest).dropWhile (fun d => d ≠ '<'))
          (by rw [List.dropWhile_cons, if_pos hpc]; omega) (le_refl _)]

theorem parseTokens_nil : parseTokens [] = some [] := rfl

end XMLFmt

namespace XMLFmt

theorem single_isPrefixOf {x : Char} {u : List Char} :
    ((x :: []).isPrefixOf u = true) ↔ u.head? = some x := by
  cases u with
  | nil => simp [List.isPrefixOf]
  | cons c t =>
    simp only [List.isPrefixOf, List.head?]
    constructor
    · intro h
      have : x = c := by
        cases hb : x == c with
        | false => rw [hb] at h; exact Bool.noConfusion h
        | true => exact eq_of_beq hb
      rw [this]
    · intro h
      injection h with h0
      simp [h0]

theorem prefix_drop_of_prefix {s u : List Char} (h : s <+: u) (k : Nat) :
    s.drop k <+: u.drop k := by
  obtain ⟨t, ht⟩ := h
  by_cases hk : k ≤ s.length
  · rw [← ht, List.drop_append_of_le_length hk]
    exact List.prefix_append _ _
  · rw [List.drop_eq_nil_of_le (by omega)]
    exact List.nil_prefix

theorem drop_head_mem {s : List Char} {k : Nat} {c : Char}
    (h : (s.drop k).head? = some c) : c ∈ s := by
  rw [List.head?_drop] at h
  exact List.getElem?_mem h

theorem findSub_append_end {pat s : List Char} {j : Nat} (hp : pat ≠ [])
    (h : findSub pat s = some j) (hend : j + pat.length = s.length)
    (v : List Char) : findSub pat (s ++ v) = some j := by
  obtain ⟨h1, h2⟩ := findSub_some_imp h
  have hjs : j ≤ s.length := by
    have := pat.length
    omega
  refine findSub_eq_some pat (s ++ v) j hp ?_ ?_
  · rw [List.drop_append_of_le_length hjs]
    exact prefixOf_append_right h1
  · intro k hk
    cases hb : pat.isPrefixOf ((s ++ v).drop k) with
    | false => rfl
    | true =>
      exfalso
      rw [List.drop_append_of_le_length (by omega)] at hb
      have hb2 : pat.isPrefixOf (s.drop k) = true := by
        refine prefixOf_of_append_left hb ?_
        rw [List.length_drop]
        omega
      have := h2 k hk
      rw [this] at hb2
      exact Bool.noConfusion hb2

theorem findSub_take {pat u : List Char} {j : Nat} (hp : pat ≠ [])
    (h : findSub pat u = some j) :
    findSub pat (u.take (j + pat.length)) = some j := by
  obtain ⟨h1, h2⟩ := findSub_some_imp h
  have hlen : j + pat.length ≤ u.length := by
    have hle := (List.isPrefixOf_iff_prefix.mp h1).length_le
    rw [List.length_drop] at hle
    cases pat with
    | nil => exact absurd rfl hp
    | cons p ps =>
      by_cases hj : j ≤ u.length
      · simp only [List.length_cons] at hle ⊢
        omega
      · rw [List.drop_eq_nil_of_le (by omega)] at h1
        exact absurd h1 (by rw [isPrefixOf_nil_false hp]; exact Bool.noConfusion)
  refine findSub_eq_some pat _ j hp ?_ ?_
  · have hdt : (u.take (j + pat.length)).drop j = pat := by
      rw [List.drop_take]
      obtain ⟨t, ht⟩ := List.isPrefixOf_iff_prefix.mp h1
      rw [← ht]
      have : j + pat.length - j = pat.length := by omega
      rw [this, List.take_left]
    rw [hdt]
    exact List.isPrefixOf_iff_prefix.mpr (List.prefix_refl pat)
  · intro k hk
    cases hb : pat.isPrefixOf ((u.take (j + pat.length)).drop k) with
    | false => rfl
    | true =>
      exfalso
      have hsub : (u.take (j + pat.length)).drop k <+: u.drop k :=
        prefix_drop_of_prefix (List.take_prefix _ _) k
      have hb2 : pat.isPrefixOf (u.drop k) = true :=
        List.isPrefixOf_iff_prefix.mpr
          ((List.isPrefixOf_iff_prefix.mp hb).trans hsub)
      have := h2 k hk
      rw [this] at hb2
      exact Bool.noConfusion hb2

theorem suffix_getLast_eq {u w : List Char} (h : u <:+ w) (hu : u ≠ []) :
    w.getLast? = u.getLast? := by
  have hr : u.reverse <+: w.reverse := List.reverse_prefix.mpr h
  have hne : u.reverse ≠ [] := by
    intro h0
    exact hu (by rw [← List.reverse_reverse u, h0]; rfl)
  have := prefix_head_eq hr hne
  rwa [List.head?_reverse, List.head?_reverse] at this

theorem prefix_trunc {pat s v : List Char} (hs : '>' ∈ s) (hnp : '>' ∉ pat)
    (h : pat.isPrefixOf (s ++ v) = true) : pat.isPrefixOf s = true := by
  by_cases hlen : pat.length ≤ s.length
  · exact prefixOf_of_append_left h hlen
  · exfalso
    have hsp : s <+: pat :=
      List.prefix_of_prefix_length_le (List.prefix_append s v)
        (List.isPrefixOf_iff_prefix.mp h) (by omega)
    exact hnp (hsp.subset hs)

theorem trimEndL_fix {t : List Char} {c : Char}
    (h : t.getLast? = some c) (hw : isWS c = false) : trimEndL t = t := by
  unfold trimEndL
  rw [dropWhile_head_stop (by rw [List.head?_reverse]; exact h) hw]
  exact List.reverse_reverse t

theorem trimEndL_fix_last {t : List Char} (hfix : trimEndL t = t) (hne : t ≠ []) :
    ∃ c, t.getLast? = some c ∧ isWS c = false := by
  cases hh : t.getLast? with
  | none => exact absurd (List.getLast?_eq_none_iff.mp hh) hne
  | some c =>
    refine ⟨c, rfl, ?_⟩
    have h2 : (trimEndL t).getLast? = some c := by rw [hfix]; exact hh
    unfold trimEndL at h2
    rw [← List.head?_reverse, List.reverse_reverse] at h2
    exact dropWhile_head_not h2

theorem trimL_eq_nil_iff {l : List Char} : trimL l = [] ↔ wsAll l := by
  constructor
  · intro h
    have hdw : l.dropWhile isWS = [] := by
      unfold trimL at h
      have h2 : (l.dropWhile isWS).reverse.dropWhile isWS = [] := by
        rw [← List.reverse_reverse ((l.dropWhile isWS).reverse.dropWhile isWS), h]
        rfl
      have h3 := List.dropWhile_eq_nil_iff.mp h2
      cases hd : l.dropWhile isWS with
      | nil => rfl
      | cons d t =>
        exfalso
        have hdn : isWS d = false := dropWhile_head_not (by rw [hd]; rfl)
        have hdm : d ∈ (l.dropWhile isWS).reverse :=
          List.mem_reverse.mpr (by rw [hd]; exact List.mem_cons_self _ _)
        rw [h3 d hdm] at hdn
        exact Bool.noConfusion hdn
    intro c hc
    have hsplit : l = l.takeWhile isWS ++ l.dropWhile isWS :=
      (List.takeWhile_append_dropWhile isWS l).symm
    rw [hsplit, hdw, List.append_nil] at hc
    exact List.mem_takeWhile_imp hc
  · exact trimL_all_ws

theorem takeWhile_all {p : Char → Bool} {l : List Char}
    (h : ∀ x ∈ l, p x = true) : l.takeWhile p = l :=
  List.takeWhile_eq_self_iff.mpr h

theorem dropWhile_all {p : Char → Bool} {l : List Char}
    (h : ∀ x ∈ l, p x = true) : l.dropWhile p = [] :=
  List.dropWhile_eq_nil_iff.mpr h

theorem intercalate_nil2 (sep : List Char) : List.intercalate sep [] = [] := by
  simp [List.intercalate]

theorem intercalate_one (sep a : List Char) : List.intercalate sep (a :: []) = a := by
  simp [List.intercalate]

theorem intercalate_cons2 (sep a b : List Char) (t : List (List Char)) :
    List.intercalate sep (a :: b :: t) = a ++ sep ++ List.intercalate sep (b :: t) := by
  simp [List.intercalate, List.intersperse_cons_cons]

theorem join_head {sep L : List Char} {ls : List (List Char)} (hL : L ≠ []) :
    (List.intercalate sep (L :: ls)).head? = L.head? := by
  cases ls with
  | nil => rw [intercalate_one]
  | cons b t =>
    rw [intercalate_cons2, List.append_assoc, List.head?_append_of_ne_nil _ hL]

theorem intercalate_ne_nil {sep L : List Char} {ls : List (List Char)}
    (hL : L ≠ []) : List.intercalate sep (L :: ls) ≠ [] := by
  intro h0
  have := @join_head sep L ls hL
  rw [h0] at this
  cases hh : L.head? with
  | none => exact hL (List.head?_eq_none_iff.mp hh)
  | some c => rw [hh] at this; exact Option.noConfusion this

theorem join_getLast {sep : List Char} :
    ∀ (ls : List (List Char)) (L : List Char), (∀ l ∈ L :: ls, l ≠ []) →
      ∃ M ∈ (L :: ls), (List.intercalate sep (L :: ls)).getLast? = M.getLast? := by
  intro ls
  induction ls with
  | nil =>
    intro L _
    exact ⟨L, List.mem_cons_self _ _, by rw [intercalate_one]⟩
  | cons b t ih =>
    intro L hne
    obtain ⟨M, hM, hMl⟩ := ih b (fun l hl => hne l (List.mem_cons_of_mem _ hl))
    refine ⟨M, List.mem_cons_of_mem _ hM, ?_⟩
    rw [intercalate_cons2,
      List.getLast?_append_of_ne_nil _
        (intercalate_ne_nil (hne b (List.mem_cons_of_mem _ (List.mem_cons_self _ _)))),
      hMl]

end XMLFmt

namespace XMLFmt

/-- The character content carried by a token. -/
def tokStr : FormatToken → List Char
  | .tag s => s
  | .text s => s
  | .comment s => s
  | .cdata s => s

/-- The head of the token list is not a text token (the tokenizer never
produces two adjacent text tokens). -/
def headNotText : List FormatToken → Prop
  | .text _ :: _ => False
  | _ => True

/-- Inside `s`, a `>` that is followed (after optional whitespace, still
inside `s`) by `<` has the `<` immediately adjacent: the shape `> ws+ <`
does not occur.  This is exactly the normal form produced by the
`replace(/>\s*</g, '><')` collapse, restricted to a fragment. -/
def contentSafe (s : List Char) : Prop :=
  ∀ p q, s = p ++ '>' :: q → q ≠ [] →
    ((q.dropWhile isWS).head? = some '<') → q.head? = some '<'

/-- Shape invariants of a single token produced by `parseTokens`. -/
def wfTok : FormatToken → Prop
  | .text t => t ≠ [] ∧ trimL t = t ∧ '<' ∉ t
  | .tag s => s.head? = some '<' ∧ ∃ s2, s = s2 ++ '>' :: [] ∧ '>' ∉ s2
  | .cdata s => cdataOpen.isPrefixOf s = true ∧ contentSafe s ∧
      ∃ j, findSub cdataClose s = some j ∧ s.length = j + 3
  | .comment s => commentOpen.isPrefixOf s = true ∧ contentSafe s ∧
      ∃ j, findSub commentClose s = some j ∧ s.length = j + 3

/-- `pat` occurs in no token content of `T`. -/
def noSub (pat : List Char) (T : List FormatToken) : Prop :=
  ∀ tok ∈ T, ¬ hasSub pat (tokStr tok)

/-- The negative side conditions carried by a tag token: a tag whose text
looks like an (unterminated) CDATA or comment opener is only produced when
the corresponding closer occurs nowhere later in the stream. -/
def tagNeg (s : List Char) (T : List FormatToken) : Prop :=
  (cdataOpen.isPrefixOf s = true → noSub cdataClose (FormatToken.tag s :: T)) ∧
  (commentOpen.isPrefixOf s = true → noSub commentClose (FormatToken.tag s :: T))

/-- Well-formedness of a token stream as produced by `parseTokens`. -/
def wfT : List FormatToken → Prop
  | [] => True
  | tok :: T => wfTok tok ∧ wfT T ∧
      (match tok with
       | .tag s => tagNeg s T
       | .text _ => headNotText T
       | _ => True)

/-- `u` interleaves the contents of `T`, in order, with whitespace runs
between (and around) them. -/
def Inter : List FormatToken → List Char → Prop
  | [], u => wsAll u
  | tok :: T, u => ∃ W v, wsAll W ∧ u = W ++ tokStr tok ++ v ∧ Inter T v

theorem head?_mem_self {l : List Char} {c : Char} (h : l.head? = some c) :
    c ∈ l := by
  cases l with
  | nil => exact Option.noConfusion h
  | cons d t =>
    simp only [List.head?] at h
    injection h with h0
    rw [h0]
    exact List.mem_cons_self _ _

theorem wfTok_head_lt {tok : FormatToken} (h : wfTok tok)
    (hnt : headNotText (tok :: [])) : (tokStr tok).head? = some '<' := by
  cases tok with
  | text t => exact absurd hnt (by simp [headNotText])
  | tag s => exact h.1
  | cdata s =>
    have := @prefixOf_head cdataOpen s (by simp [cdataOpen]) h.1
    simp only [tokStr]
    rw [this]
    rfl
  | comment s =>
    have := @prefixOf_head commentOpen s (by simp [commentOpen]) h.1
    simp only [tokStr]
    rw [this]
    rfl

theorem close_split {pat s : List Char} {j : Nat} (hp : pat ≠ [])
    (hfind : findSub pat s = some j) (hlen : s.length = j + pat.length) :
    s.drop j = pat := by
  obtain ⟨h1, _⟩ := findSub_some_imp hfind
  have hdl : (s.drop j).length = pat.length := by
    rw [List.length_drop]
    omega
  exact ((List.isPrefixOf_iff_prefix.mp h1).eq_of_length (by omega)).symm

theorem wfTok_ends_gt {tok : FormatToken} (h : wfTok tok)
    (hnt : headNotText (tok :: [])) : (tokStr tok).getLast? = some '>' := by
  cases tok with
  | text t => exact absurd hnt (by simp [headNotText])
  | tag s =>
    obtain ⟨s2, hs2, _⟩ := h.2
    rw [hs2]
    exact List.getLast?_append_of_ne_nil s2 (by simp)
  | cdata s =>
    obtain ⟨j, hfind, hlen⟩ := h.2.2
    have hd := close_split (by simp [cdataClose]) hfind hlen
    rw [show s = s.take j ++ s.drop j from (List.take_append_drop j s).symm, hd]
    exact List.getLast?_append_of_ne_nil _ (by simp [cdataClose])
  | comment s =>
    obtain ⟨j, hfind, hlen⟩ := h.2.2
    have hd := close_split (by simp [commentClose]) hfind hlen
    rw [show s = s.take j ++ s.drop j from (List.take_append_drop j s).symm, hd]
    exact List.getLast?_append_of_ne_nil _ (by simp [commentClose])

theorem wfTok_ne_nil {tok : FormatToken} (h : wfTok tok) : tokStr tok ≠ [] := by
  cases tok with
  | text t => exact h.1
  | tag s =>
    obtain ⟨s2, hs2, _⟩ := h.2
    rw [hs2]
    simp [tokStr]
  | cdata s =>
    intro h0
    simp only [tokStr] at h0
    have := h.1
    rw [h0, isPrefixOf_nil_false (by simp [cdataOpen])] at this
    exact Bool.noConfusion this
  | comment s =>
    intro h0
    simp only [tokStr] at h0
    have := h.1
    rw [h0, isPrefixOf_nil_false (by simp [commentOpen])] at this
    exact Bool.noConfusion this

theorem wsAll_repeatL {ind : List Char} (h : wsAll ind) :
    ∀ d, wsAll (repeatL ind d)
  | 0 => wsAll_nil
  | d + 1 => wsAll_append h (wsAll_repeatL h d)

theorem Inter_ws_prepend {W v : List Char} {T : List FormatToken}
    (hW : wsAll W) (h : Inter T v) : Inter T (W ++ v) := by
  cases T with
  | nil => exact wsAll_append hW h
  | cons tok T2 =>
    obtain ⟨W2, v2, hW2, hv, hrec⟩ := h
    exact ⟨W ++ W2, v2, wsAll_append hW hW2,
      by rw [hv, List.append_assoc, List.append_assoc, List.append_assoc], hrec⟩

end XMLFmt

namespace XMLFmt

theorem getLast?_mem_self {l : List Char} {c : Char} (h : l.getLast? = some c) :
    c ∈ l := by
  rw [← List.head?_reverse] at h
  exact List.mem_reverse.mp (head?_mem_self h)

theorem headNotText_single {tok : FormatToken} {T : List FormatToken}
    (h : headNotText (tok :: T)) : headNotText (tok :: []) := by
  cases tok <;> simp [headNotText] at h ⊢

theorem take_ne_nil_of_pos {l : List Char} {k : Nat} (hk : 0 < k)
    (hl : l ≠ []) : l.take k ≠ [] := by
  intro h0
  have := congrArg List.length h0
  rw [List.length_take] at this
  simp only [List.length_nil] at this
  have : l.length = 0 := by omega
  exact hl (List.length_eq_zero.mp this)

theorem drop_ne_nil_of_lt {l : List Char} {k : Nat} (hk : k < l.length) :
    l.drop k ≠ [] := by
  intro h0
  have := congrArg List.length h0
  rw [List.length_drop] at this
  simp only [List.length_nil] at this
  omega

/-- A pattern with no whitespace, whose proper tails never start with `<`,
and whose characters before the last are never `>`, cannot occur in an
interleaving of well-formed token contents if it occurs in no single
content: it can neither sit inside a whitespace run nor span a boundary. -/
theorem not_hasSub_inter {pat : List Char} (hp : pat ≠ [])
    (hpw : ∀ c ∈ pat, isWS c = false)
    (hpt : ∀ k, 0 < k → k < pat.length → (pat.drop k).head? ≠ some '<')
    (hpg : ∀ c ∈ pat.take (pat.length - 1), c ≠ '>') :
    ∀ (T : List FormatToken) (u : List Char),
      wfT T → Inter T u → noSub pat T → ¬ hasSub pat u := by
  have hph : ∃ p0, pat.head? = some p0 ∧ isWS p0 = false := by
    cases pat with
    | nil => exact absurd rfl hp
    | cons p0 ps => exact ⟨p0, rfl, hpw p0 (List.mem_cons_self _ _)⟩
  obtain ⟨p0, hph1, hph2⟩ := hph
  intro T
  induction T with
  | nil =>
    intro u _ hI _
    exact not_hasSub_ws hph1 hph2 hI
  | cons tok T2 ih =>
    intro u hw hI hns hsub
    obtain ⟨W, v, hW, hu, hIv⟩ := hI
    rw [hu] at hsub
    have hspan_ws : ∀ {k : Nat}, 0 < k → (pat.take k) <:+ W → False := by
      intro k hk0 hsuf
      obtain ⟨c0, hc0⟩ := List.exists_mem_of_ne_nil _ (take_ne_nil_of_pos hk0 hp)
      have hcp : c0 ∈ pat := List.mem_of_mem_take hc0
      have hcW : c0 ∈ W := hsuf.subset hc0
      have := hW c0 hcW
      rw [hpw c0 hcp] at this
      exact Bool.noConfusion this
    rcases hasSub_append hp hsub with h1 | h2 | ⟨k, hk0, hkl, hsuf, hpre⟩
    · -- inside `W ++ content`
      rcases hasSub_append hp h1 with h3 | h4 | ⟨k, hk0, _, hsuf, _⟩
      · exact not_hasSub_ws hph1 hph2 hW h3
      · exact hns tok (List.mem_cons_self _ _) h4
      · exact hspan_ws hk0 hsuf
    · -- inside the rest of the interleaving
      exact ih v hw.2.1 hIv
        (fun tok2 htok2 => hns tok2 (List.mem_cons_of_mem _ htok2)) h2
    · -- the pattern would span the boundary after this token's content
      have hdk_ne : pat.drop k ≠ [] := drop_ne_nil_of_lt hkl
      have htk_ne : pat.take k ≠ [] := take_ne_nil_of_pos hk0 hp
      have key : headNotText (tok :: []) → False := by
        intro hnt
        have hlast : (pat.take k).getLast? = some '>' := by
          rw [← suffix_getLast_eq hsuf htk_ne,
            List.getLast?_append_of_ne_nil _ (wfTok_ne_nil hw.1)]
          exact wfTok_ends_gt hw.1 hnt
        have hmem : '>' ∈ pat.take k := getLast?_mem_self hlast
        have hmem2 : '>' ∈ pat.take (pat.length - 1) := by
          have hkk : k ≤ pat.length - 1 := by omega
          have hteq : pat.take k = (pat.take (pat.length - 1)).take k := by
            rw [List.take_take, min_eq_left hkk]
          rw [hteq] at hmem
          exact List.mem_of_mem_take hmem
        exact hpg '>' hmem2 rfl
      cases tok with
      | text t =>
        obtain ⟨c1, hc1⟩ : ∃ c1, (pat.drop k).head? = some c1 := by
          cases hdd : (pat.drop k).head? with
          | none => exact absurd (List.head?_eq_none_iff.mp hdd) hdk_ne
          | some c1 => exact ⟨c1, rfl⟩
        have hc1p : c1 ∈ pat := List.drop_subset k pat (head?_mem_self hc1)
        have hc1w : isWS c1 = false := hpw c1 hc1p
        have hvh : v.head? = some c1 := by
          rw [prefix_head_eq hpre hdk_ne, hc1]
        cases T2 with
        | nil =>
          have hcm : c1 ∈ v := head?_mem_self hvh
          rw [hIv c1 hcm] at hc1w
          exact Bool.noConfusion hc1w
        | cons tok2 T3 =>
          obtain ⟨W2, v2, hW2, hveq, _⟩ := hIv
          have hnt2 : headNotText (tok2 :: T3) := hw.2.2
          cases W2 with
          | nil =>
            have hh2 : (tokStr tok2).head? = some '<' :=
              wfTok_head_lt hw.2.1.1 (headNotText_single hnt2)
            have hvlt : v.head? = some '<' := by
              rw [hveq, List.nil_append,
                List.head?_append_of_ne_nil _ (wfTok_ne_nil hw.2.1.1)]
              exact hh2
            rw [hvh] at hvlt
            injection hvlt with h0
            rw [h0] at hc1
            exact hpt k hk0 hkl hc1
          | cons w W2' =>
            have hvw : v.head? = some w := by rw [hveq]; rfl
            rw [hvh] at hvw
            injection hvw with h0
            have := hW2 w (List.mem_cons_self _ _)
            rw [← h0, hc1w] at this
            exact Bool.noConfusion this
      | tag s => exact key trivial
      | cdata s => exact key trivial
      | comment s => exact key trivial

end XMLFmt

namespace XMLFmt

theorem split_of_append_eq {a b p q : List Char} {x : Char}
    (h : a ++ b = p ++ x :: q) :
    (∃ q1, a = p ++ x :: q1 ∧ q = q1 ++ b) ∨
      (∃ p1, p = a ++ p1 ∧ b = p1 ++ x :: q) := by
  rcases List.append_eq_append_iff.mp h with ⟨a', ha1, ha2⟩ | ⟨c', hc1, hc2⟩
  · exact Or.inr ⟨a', ha1, ha2⟩
  · cases c' with
    | nil =>
      rw [List.append_nil] at hc1
      rw [List.nil_append] at hc2
      exact Or.inr ⟨[], by rw [List.append_nil, hc1], hc2.symm⟩
    | cons y q1 =>
      rw [List.cons_append] at hc2
      injection hc2 with hy hq
      rw [← hy] at hc1
      exact Or.inl ⟨q1, hc1, hq⟩

theorem getLast?_decomp {l : List Char} {c : Char} (h : l.getLast? = some c) :
    ∃ l2, l = l2 ++ c :: [] := by
  rw [← List.head?_reverse] at h
  cases hr : l.reverse with
  | nil => rw [hr] at h; exact Option.noConfusion h
  | cons d m =>
    rw [hr] at h
    simp only [List.head?] at h
    injection h with hd
    refine ⟨m.reverse, ?_⟩
    rw [← List.reverse_reverse l, hr, List.reverse_cons, hd]

/-- Prepending `a` to `v` does not disturb the collapse of `v`:
every `>` inside `a` either is not followed (across the junction) by
whitespace-then-`<`, or has its `<` immediately adjacent. -/
def SafeExt (a v : List Char) : Prop :=
  ∀ p q, a = p ++ '>' :: q →
    ((q ++ v).dropWhile isWS).head? = some '<' → (q ++ v).head? = some '<'

theorem safeExt_of_no_gt {a v : List Char} (h : '>' ∉ a) : SafeExt a v := by
  intro p q hsplit _
  exact absurd (by rw [hsplit]; exact List.mem_append_right p (List.mem_cons_self _ _)) h

theorem safeExt_append {a b v : List Char} (ha : SafeExt a (b ++ v))
    (hb : SafeExt b v) : SafeExt (a ++ b) v := by
  intro p q hsplit hdrop
  rcases split_of_append_eq hsplit with ⟨q1, haq, hq⟩ | ⟨p1, hp, hbq⟩
  · have h1 : q ++ v = q1 ++ (b ++ v) := by rw [hq, List.append_assoc]
    rw [h1] at hdrop ⊢
    exact ha p q1 haq hdrop
  · exact hb p1 q hbq hdrop

theorem collapse_head (l : List Char) : (collapse l).head? = l.head? := by
  cases l with
  | nil => rfl
  | cons c rest =>
    rw [collapse_cons]
    by_cases hc : c = '>'
    · rw [if_pos hc]
      by_cases hd : (rest.dropWhile isWS).head? = some '<'
      · rw [if_pos hd, hc]; rfl
      · rw [if_neg hd, hc]; rfl
    · rw [if_neg hc]; rfl

theorem collapse_ws_prefix {W : List Char} (hW : wsAll W) :
    ∀ r, collapse (W ++ r) = W ++ collapse r := by
  induction W with
  | nil => intro r; rw [List.nil_append, List.nil_append]
  | cons w W2 ih =>
    intro r
    have hw : isWS w = true := hW w (List.mem_cons_self _ _)
    have hne : w ≠ '>' := by
      intro h0; rw [h0] at hw; exact Bool.noConfusion hw
    rw [List.cons_append, collapse_cons, if_neg hne,
      ih (fun x hx => hW x (List.mem_cons_of_mem _ hx)) r, List.cons_append]

theorem collapse_all_ws {v : List Char} (hv : wsAll v) : collapse v = v := by
  have h := collapse_ws_prefix hv []
  rwa [List.append_nil, collapse_nil, List.append_nil] at h

theorem collapse_append_safe :
    ∀ (n : Nat) (a : List Char), a.length ≤ n → ∀ v, SafeExt a v →
      collapse (a ++ v) = a ++ collapse v := by
  intro n
  induction n with
  | zero =>
    intro a ha v _
    have h0 : a = [] := List.length_eq_zero.mp (Nat.le_zero.mp ha)
    subst h0
    rw [List.nil_append, List.nil_append]
  | succ n ih =>
    intro a ha v hsafe
    cases a with
    | nil => rw [List.nil_append, List.nil_append]
    | cons c a2 =>
      simp only [List.length_cons] at ha
      by_cases hc : c = '>'
      · subst hc
        rw [List.cons_append, collapse_cons, if_pos rfl]
        by_cases hd : (((a2 ++ v)).dropWhile isWS).head? = some '<'
        · rw [if_pos hd]
          have hh : (a2 ++ v).head? = some '<' := hsafe [] a2 rfl hd
          have hstop : (a2 ++ v).dropWhile isWS = a2 ++ v :=
            dropWhile_head_stop hh (by decide)
          rw [hstop]
          cases a2 with
          | nil =>
            simp only [List.nil_append] at hh ⊢
            cases v with
            | nil => exact Option.noConfusion hh
            | cons d v2 =>
              simp only [List.head?] at hh
              injection hh with hd2
              rw [List.tail_cons, hd2, collapse_cons,
                if_neg (show ¬('<' = '>') from by decide)]
              rfl
          | cons d a3 =>
            rw [List.cons_append] at hh ⊢
            simp only [List.head?] at hh
            injection hh with hd2
            rw [List.tail_cons, ih a3 (by simp only [List.length_cons] at ha; omega) v ?_, hd2]
            · rfl
            · intro p q hsplit hdrop
              exact hsafe ('>' :: d :: p) q (by rw [hsplit]; rfl) hdrop
        · rw [if_neg hd, ih a2 (by omega) v ?_]
          · rfl
          · intro p q hsplit hdrop
            exact hsafe ('>' :: p) q (by rw [hsplit]; rfl) hdrop
      · rw [List.cons_append, collapse_cons, if_neg hc,
          ih a2 (by omega) v ?_]
        · rfl
        · intro p q hsplit hdrop
          exact hsafe (c :: p) q (by rw [hsplit]; rfl) hdrop

end XMLFmt

namespace XMLFmt

/-- The output of `collapse` never contains `>` followed by one or more
whitespace characters and then `<`. -/
theorem collapse_safe :
    ∀ (n : Nat) (l : List Char), l.length ≤ n →
      ∀ p q, collapse l = p ++ '>' :: q →
        ((q.dropWhile isWS).head? = some '<') → q.head? = some '<' := by
  intro n
  induction n with
  | zero =>
    intro l hl p q heq _
    have h0 : l = [] := List.length_eq_zero.mp (Nat.le_zero.mp hl)
    subst h0
    rw [collapse_nil] at heq
    exact absurd heq.symm (List.append_ne_nil_of_right_ne_nil p (by simp))
  | succ n ih =>
    intro l hl p q heq hq
    cases l with
    | nil =>
      rw [collapse_nil] at heq
      exact absurd heq.symm (List.append_ne_nil_of_right_ne_nil p (by simp))
    | cons c rest =>
      simp only [List.length_cons] at hl
      rw [collapse_cons] at heq
      by_cases hc : c = '>'
      · rw [if_pos hc] at heq
        by_cases hd : (rest.dropWhile isWS).head? = some '<'
        · rw [if_pos hd] at heq
          cases p with
          | nil =>
            rw [List.nil_append] at heq
            injection heq with h1 h2
            rw [← h2]
            rfl
          | cons a p2 =>
            rw [List.cons_append] at heq
            injection heq with h1 h2
            cases p2 with
            | nil =>
              rw [List.nil_append] at h2
              injection h2 with h3 h4
              exact absurd h3 (by decide)
            | cons b p3 =>
              rw [List.cons_append] at h2
              injection h2 with h3 h4
              refine ih ((rest.dropWhile isWS).tail) ?_ p3 q h4 hq
              have := dropWhile_tail_len hd
              omega
        · rw [if_neg hd] at heq
          cases p with
          | nil =>
            rw [List.nil_append] at heq
            injection heq with h1 h2
            exfalso
            have hsplit : rest = rest.takeWhile isWS ++ rest.dropWhile isWS :=
              (List.takeWhile_append_dropWhile isWS rest).symm
            have hWws : wsAll (rest.takeWhile isWS) :=
              fun x hx => List.mem_takeWhile_imp hx
            cases hr0 : rest.dropWhile isWS with
            | nil =>
              have hqw : q = rest.takeWhile isWS := by
                rw [← h2]
                nth_rewrite 1 [hsplit]
                rw [hr0, List.append_nil, collapse_all_ws hWws]
              rw [hqw, dropWhile_all hWws] at hq
              exact Option.noConfusion hq
            | cons d r0 =>
              have hdw : isWS d = false := dropWhile_head_not (by rw [hr0]; rfl)
              have hqe : q = rest.takeWhile isWS ++ collapse (d :: r0) := by
                rw [← h2]
                nth_rewrite 1 [hsplit]
                rw [hr0, collapse_ws_prefix hWws]
              have hch : (collapse (d :: r0)).head? = some d := collapse_head _
              have hne : collapse (d :: r0) ≠ [] := by
                intro h0; rw [h0] at hch; exact Option.noConfusion hch
              rw [hqe, dropWhile_ws_append hWws hch hdw] at hq
              rw [hch] at hq
              injection hq with hq2
              rw [hq2] at hr0
              rw [hr0] at hd
              exact hd rfl
          | cons a p2 =>
            rw [List.cons_append] at heq
            injection heq with h1 h2
            exact ih rest (by omega) p2 q h2 hq
      · rw [if_neg hc] at heq
        cases p with
        | nil =>
          rw [List.nil_append] at heq
          injection heq with h1 h2
          exact absurd h1 hc
        | cons a p2 =>
          rw [List.cons_append] at heq
          injection heq with h1 h2
          exact ih rest (by omega) p2 q h2 hq

theorem contentSafe_infix_collapse {s l : List Char} (h : s <:+: collapse l) :
    contentSafe s := by
  intro p q hsplit hqne hcond
  obtain ⟨a, b, hab⟩ := h
  have hz : collapse l = (a ++ p) ++ '>' :: (q ++ b) := by
    rw [← hab, hsplit]
    simp [List.append_assoc]
  have hq0 : q.dropWhile isWS ≠ [] := by
    intro h0; rw [h0] at hcond; exact Option.noConfusion hcond
  have hq0e : (q.dropWhile isWS).isEmpty = false := by
    cases hqd : q.dropWhile isWS with
    | nil => exact absurd hqd hq0
    | cons x xs => rfl
  have hQ : ((q ++ b).dropWhile isWS).head? = some '<' := by
    rw [List.dropWhile_append, hq0e]
    simp only [Bool.false_eq_true, if_false]
    rw [List.head?_append_of_ne_nil _ hq0]
    exact hcond
  have hfin := collapse_safe l.length l (le_refl _) (a ++ p) (q ++ b) hz hQ
  rwa [List.head?_append_of_ne_nil _ hqne] at hfin

theorem contentSafe_text {t : List Char} (h : '<' ∉ t) : contentSafe t := by
  intro p q hsplit hqne hcond
  exfalso
  have hq0 : q.dropWhile isWS ≠ [] := by
    intro h0; rw [h0] at hcond; exact Option.noConfusion hcond
  have hmd : '<' ∈ q.dropWhile isWS := by
    cases hqd : q.dropWhile isWS with
    | nil => exact absurd hqd hq0
    | cons x xs =>
      rw [hqd] at hcond
      injection hcond with h1
      rw [h1]
      exact List.mem_cons_self _ _
  have : '<' ∈ t := by
    rw [hsplit]
    exact List.mem_append_right p
      (List.mem_cons_of_mem _ ((List.dropWhile_suffix isWS).subset hmd))
  exact h this

theorem contentSafe_tag {s2 : List Char} (h : '>' ∉ s2) :
    contentSafe (s2 ++ '>' :: []) := by
  intro p q hsplit hqne _
  exfalso
  rcases split_of_append_eq hsplit with ⟨q1, haq, _⟩ | ⟨p1, _, hbq⟩
  · exact h (by rw [haq]; exact List.mem_append_right p (List.mem_cons_self _ _))
  · cases p1 with
    | nil =>
      rw [List.nil_append] at hbq
      injection hbq with _ h2
      exact hqne h2.symm
    | cons y p2 =>
      injection hbq with _ h2
      exact absurd h2.symm (List.append_ne_nil_of_right_ne_nil p2 (by simp))

theorem safeExt_before_gt {s2 v : List Char}
    (hsafe : contentSafe (s2 ++ '>' :: [])) : SafeExt s2 ('>' :: v) := by
  intro p q hsplit hdrop
  have hsp : s2 ++ '>' :: [] = p ++ '>' :: (q ++ '>' :: []) := by
    rw [hsplit]
    simp
  have hqg_ne : (q ++ '>' :: []).dropWhile isWS ≠ [] := by
    intro h0
    have := List.dropWhile_eq_nil_iff.mp h0 '>'
      (List.mem_append_right q (List.mem_cons_self _ _))
    exact Bool.noConfusion this
  have hqg_e : ((q ++ '>' :: []).dropWhile isWS).isEmpty = false := by
    cases hqd : (q ++ '>' :: []).dropWhile isWS with
    | nil => exact absurd hqd hqg_ne
    | cons x xs => rfl
  have hrw : (q ++ '>' :: v).dropWhile isWS =
      ((q ++ '>' :: []).dropWhile isWS) ++ v := by
    rw [show q ++ '>' :: v = (q ++ '>' :: []) ++ v from by simp,
      List.dropWhile_append, hqg_e]
    simp only [Bool.false_eq_true, if_false]
  rw [hrw, List.head?_append_of_ne_nil _ hqg_ne] at hdrop
  have hlt := hsafe p (q ++ '>' :: []) hsp (by simp) hdrop
  rw [show q ++ '>' :: v = (q ++ '>' :: []) ++ v from by simp,
    List.head?_append_of_ne_nil _ (by simp)]
  exact hlt

theorem safeExt_text {t v : List Char} {c : Char}
    (hnl : '<' ∉ t) (hlast : t.getLast? = some c) (hcw : isWS c = false)
    (hcg : c ≠ '>') : SafeExt t v := by
  intro p q hsplit hdrop
  exfalso
  have hqne : q ≠ [] := by
    intro h0
    rw [h0] at hsplit
    have : t.getLast? = some '>' := by
      rw [hsplit]
      exact List.getLast?_append_of_ne_nil p (by simp)
    rw [hlast] at this
    injection this with h1
    exact hcg h1
  have hqsuf : q <:+ t := ⟨p ++ '>' :: [], by rw [hsplit]; simp⟩
  have hql : q.getLast? = some c := by
    rw [← suffix_getLast_eq hqsuf hqne]
    exact hlast
  have hq0 : q.dropWhile isWS ≠ [] := by
    intro h0
    have := List.dropWhile_eq_nil_iff.mp h0 c (getLast?_mem_self hql)
    rw [hcw] at this
    exact Bool.noConfusion this
  have hq0e : (q.dropWhile isWS).isEmpty = false := by
    cases hqd : q.dropWhile isWS with
    | nil => exact absurd hqd hq0
    | cons x xs => rfl
  rw [List.dropWhile_append, hq0e] at hdrop
  simp only [Bool.false_eq_true, if_false] at hdrop
  rw [List.head?_append_of_ne_nil _ hq0] at hdrop
  have hmem : '<' ∈ q.dropWhile isWS := by
    cases hqd : q.dropWhile isWS with
    | nil => exact absurd hqd hq0
    | cons x xs =>
      rw [hqd] at hdrop
      injection hdrop with h1
      rw [h1]
      exact List.mem_cons_self _ _
  exact hnl (hqsuf.subset ((List.dropWhile_suffix isWS).subset hmem))

end XMLFmt

namespace XMLFmt

theorem collapse_inter_step {W s2 v : List Char} {T2 : List FormatToken}
    (hW : wsAll W) (hsafe2 : SafeExt s2 ('>' :: v))
    (hIv : Inter T2 v) (hw2 : wfT T2)
    (ihv : ∀ v', Inter T2 v' → Inter T2 (collapse v')) :
    ∃ R, collapse (W ++ (s2 ++ '>' :: []) ++ v) = W ++ (s2 ++ '>' :: []) ++ R ∧
      Inter T2 R := by
  have hWg : '>' ∉ W := by
    intro h0
    have := hW '>' h0
    exact Bool.noConfusion this
  have hfact : collapse ((W ++ s2) ++ '>' :: v) = (W ++ s2) ++ collapse ('>' :: v) :=
    collapse_append_safe (W ++ s2).length (W ++ s2) (le_refl _) ('>' :: v)
      (safeExt_append (safeExt_of_no_gt hWg) hsafe2)
  have hshape : W ++ (s2 ++ '>' :: []) ++ v = (W ++ s2) ++ '>' :: v := by
    simp
  rw [hshape, hfact]
  rw [collapse_cons]
  by_cases hd : (v.dropWhile isWS).head? = some '<'
  · rw [if_pos rfl, if_pos hd]
    cases T2 with
    | nil =>
      exfalso
      rw [dropWhile_all hIv] at hd
      exact Option.noConfusion hd
    | cons tok2 T3 =>
      obtain ⟨W2, v2, hW2, hveq, hI2⟩ := hIv
      have hwtok2 : wfTok tok2 := hw2.1
      have hs'ne : tokStr tok2 ≠ [] := wfTok_ne_nil hwtok2
      cases htok2 : tok2 with
      | text t2 =>
        exfalso
        obtain ⟨c, hch, hcw⟩ := trimL_fix_head (htok2 ▸ hwtok2).2.1 (htok2 ▸ hwtok2).1
        have hvh : v.dropWhile isWS = tokStr tok2 ++ v2 := by
          rw [hveq, List.append_assoc]
          refine dropWhile_ws_append hW2 ?_ hcw
          rw [List.head?_append_of_ne_nil _ hs'ne, htok2]
          exact hch
        rw [hvh, List.head?_append_of_ne_nil _ hs'ne, htok2] at hd
        simp only [tokStr] at hd
        rw [hch] at hd
        injection hd with hd2
        have : '<' ∈ t2 := by
          rw [hd2] at hch
          exact head?_mem_self hch
        exact (htok2 ▸ hwtok2).2.2 this
      | tag s | cdata s | comment s =>
        rw [← htok2]
        have hh2 : (tokStr tok2).head? = some '<' := by
          refine wfTok_head_lt hwtok2 ?_
          rw [htok2]
          trivial
        have hvh : v.dropWhile isWS = tokStr tok2 ++ v2 := by
          rw [hveq, List.append_assoc]
          refine dropWhile_ws_append (c := '<') hW2 ?_ (by decide)
          rw [List.head?_append_of_ne_nil _ hs'ne]
          exact hh2
        obtain ⟨s'tail, hs'⟩ : ∃ s'tail, tokStr tok2 = '<' :: s'tail := by
          cases hts : tokStr tok2 with
          | nil => exact absurd hts hs'ne
          | cons x xs =>
            rw [hts] at hh2
            injection hh2 with h1
            exact ⟨xs, by rw [h1]⟩
        refine ⟨collapse (tokStr tok2 ++ v2), ?_, ?_⟩
        · rw [hvh, hs']
          rw [show ('<' :: s'tail ++ v2).tail = s'tail ++ v2 from rfl]
          rw [show ('<' :: s'tail ++ v2 : List Char) = '<' :: (s'tail ++ v2) from rfl]
          rw [collapse_cons, if_neg (show ¬('<' = '>') from by decide)]
          simp
        · exact ihv (tokStr tok2 ++ v2) ⟨[], v2, wsAll_nil, by simp, hI2⟩
  · rw [if_pos rfl, if_neg hd]
    refine ⟨collapse v, by simp, ihv v hIv⟩

theorem collapse_inter :
    ∀ (T : List FormatToken) (u : List Char),
      wfT T → Inter T u → Inter T (collapse u) := by
  intro T
  induction T with
  | nil =>
    intro u _ hI
    have hcu : collapse u = u := collapse_all_ws hI
    rw [show Inter [] (collapse u) = wsAll (collapse u) from rfl, hcu]
    exact hI
  | cons tok T2 ih =>
    intro u hw hI
    obtain ⟨W, v, hW, hu, hIv⟩ := hI
    subst hu
    have hw2 : wfT T2 := hw.2.1
    have ihv : ∀ v', Inter T2 v' → Inter T2 (collapse v') :=
      fun v' h => ih v' hw2 h
    cases htok : tok with
    | tag s =>
      have hwt : wfTok (FormatToken.tag s) := htok ▸ hw.1
      obtain ⟨s2, hs, hng⟩ := hwt.2
      have hsafe2 : SafeExt s2 ('>' :: v) :=
        safeExt_before_gt (contentSafe_tag hng)
      obtain ⟨R, hR, hIR⟩ := collapse_inter_step hW hsafe2 hIv hw2 ihv
      refine ⟨W, R, hW, ?_, hIR⟩
      simp only [tokStr]
      rw [hs]
      exact hR
    | cdata s =>
      have hwt : wfTok (FormatToken.cdata s) := htok ▸ hw.1
      have hcs : contentSafe s := hwt.2.1
      have hend : (tokStr (FormatToken.cdata s)).getLast? = some '>' :=
        wfTok_ends_gt hwt trivial
      simp only [tokStr] at hend
      obtain ⟨s2, hs⟩ := getLast?_decomp hend
      have hsafe2 : SafeExt s2 ('>' :: v) := safeExt_before_gt (hs ▸ hcs)
      obtain ⟨R, hR, hIR⟩ := collapse_inter_step hW hsafe2 hIv hw2 ihv
      refine ⟨W, R, hW, ?_, hIR⟩
      simp only [tokStr]
      rw [hs]
      exact hR
    | comment s =>
      have hwt : wfTok (FormatToken.comment s) := htok ▸ hw.1
      have hcs : contentSafe s := hwt.2.1
      have hend : (tokStr (FormatToken.comment s)).getLast? = some '>' :=
        wfTok_ends_gt hwt trivial
      simp only [tokStr] at hend
      obtain ⟨s2, hs⟩ := getLast?_decomp hend
      have hsafe2 : SafeExt s2 ('>' :: v) := safeExt_before_gt (hs ▸ hcs)
      obtain ⟨R, hR, hIR⟩ := collapse_inter_step hW hsafe2 hIv hw2 ihv
      refine ⟨W, R, hW, ?_, hIR⟩
      simp only [tokStr]
      rw [hs]
      exact hR
    | text t =>
      have hwt : wfTok (FormatToken.text t) := htok ▸ hw.1
      obtain ⟨cl, hcl, hclw⟩ := trimL_fix_last hwt.2.1 hwt.1
      by_cases hcg : cl = '>'
      · subst hcg
        obtain ⟨t2, ht⟩ := getLast?_decomp hcl
        have hsafe2 : SafeExt t2 ('>' :: v) :=
          safeExt_before_gt (ht ▸ contentSafe_text hwt.2.2)
        obtain ⟨R, hR, hIR⟩ := collapse_inter_step hW hsafe2 hIv hw2 ihv
        refine ⟨W, R, hW, ?_, hIR⟩
        simp only [tokStr]
        rw [ht]
        exact hR
      · have hWg : '>' ∉ W := by
          intro h0
          have := hW '>' h0
          exact Bool.noConfusion this
        have hsafe : SafeExt (W ++ t) v :=
          safeExt_append (safeExt_of_no_gt hWg)
            (safeExt_text hwt.2.2 hcl hclw hcg)
        have hfact : collapse ((W ++ t) ++ v) = (W ++ t) ++ collapse v :=
          collapse_append_safe (W ++ t).length (W ++ t) (le_refl _) v hsafe
        refine ⟨W, collapse v, hW, ?_, ihv v hIv⟩
        simp only [tokStr]
        rw [show W ++ t ++ v = (W ++ t) ++ v from by simp, hfact]

end XMLFmt

namespace XMLFmt

/-- No `> ws+ <` anywhere in the stream. -/
def streamSafe (z : List Char) : Prop :=
  ∀ p q, z = p ++ '>' :: q →
    ((q.dropWhile isWS).head? = some '<') → q.head? = some '<'

theorem streamSafe_collapse (l : List Char) : streamSafe (collapse l) :=
  fun p q heq hq => collapse_safe l.length l (le_refl _) p q heq hq

theorem streamSafe_suffix {z u : List Char} (hz : streamSafe z)
    (h : u <:+ z) : streamSafe u := by
  obtain ⟨a, ha⟩ := h
  intro p q heq hq
  refine hz (a ++ p) q ?_ hq
  rw [← ha, heq, List.append_assoc]

theorem contentSafe_of_streamSafe {s z : List Char} (hz : streamSafe z)
    (h : s <:+: z) : contentSafe s := by
  intro p q hsplit hqne hcond
  obtain ⟨a, b, hab⟩ := h
  have hzz : z = (a ++ p) ++ '>' :: (q ++ b) := by
    rw [← hab, hsplit]
    simp [List.append_assoc]
  have hq0 : q.dropWhile isWS ≠ [] := by
    intro h0; rw [h0] at hcond; exact Option.noConfusion hcond
  have hq0e : (q.dropWhile isWS).isEmpty = false := by
    cases hqd : q.dropWhile isWS with
    | nil => exact absurd hqd hq0
    | cons x xs => rfl
  have hQ : ((q ++ b).dropWhile isWS).head? = some '<' := by
    rw [List.dropWhile_append, hq0e]
    simp only [Bool.false_eq_true, if_false]
    rw [List.head?_append_of_ne_nil _ hq0]
    exact hcond
  have hfin := hz (a ++ p) (q ++ b) hzz hQ
  rwa [List.head?_append_of_ne_nil _ hqne] at hfin

theorem trimL_isInfix (l : List Char) : trimL l <:+: l :=
  ((trimL_pref l).isInfix).trans ((List.dropWhile_suffix isWS).isInfix)

theorem head?_take {z : List Char} {k : Nat} : (z.take (k + 1)).head? = z.head? := by
  cases z <;> rfl

theorem prefix_getElem {pat z : List Char} (h : pat <+: z) {j : Nat}
    (hj : j < pat.length) : z[j]? = pat[j]? := by
  obtain ⟨t, ht⟩ := h
  rw [← ht, List.getElem?_append, if_pos hj]

theorem isSome_false_eq_none {α : Type} {o : Option α} (h : o.isSome = false) :
    o = none := by
  cases o with
  | none => rfl
  | some a => exact Bool.noConfusion h

theorem not_hasSub_of_findSub_none {pat z : List Char} (hp : pat ≠ [])
    (h : findSub pat z = none) : ¬ hasSub pat z := by
  rintro ⟨k, hk⟩
  have := findSub_none_imp hp h k
  rw [this] at hk
  exact Bool.noConfusion hk

end XMLFmt

namespace XMLFmt

theorem findSub_le_length {pat u : List Char} {j : Nat} (hp : pat ≠ [])
    (h : findSub pat u = some j) : j + pat.length ≤ u.length := by
  obtain ⟨h1, _⟩ := findSub_some_imp h
  have hle := (List.isPrefixOf_iff_prefix.mp h1).length_le
  rw [List.length_drop] at hle
  cases pat with
  | nil => exact absurd rfl hp
  | cons p ps =>
    by_cases hj : j ≤ u.length
    · simp only [List.length_cons] at hle ⊢
      omega
    · rw [List.drop_eq_nil_of_le (by omega)] at h1
      exact absurd h1 (by rw [isPrefixOf_nil_false hp]; exact Bool.noConfusion)

theorem head_at_findSub {pat z : List Char} {j : Nat} {c : Char} (hp : pat ≠ [])
    (hfind : findSub pat z = some j) (hc : pat.head? = some c) :
    z[j]? = some c := by
  have h1 := (findSub_some_imp hfind).1
  have h2 := prefixOf_head hp h1
  rw [← List.head?_drop, h2, hc]

theorem no_mem_take_findSub {z : List Char} {j : Nat}
    (hfind : findSub ('>' :: []) z = some j) : '>' ∉ z.take j := by
  intro hmem
  obtain ⟨k, hk⟩ := List.mem_iff_getElem?.mp hmem
  rw [List.getElem?_take] at hk
  by_cases hkj : k < j
  · rw [if_pos hkj] at hk
    have hpre : ('>' :: []).isPrefixOf (z.drop k) = true := by
      rw [single_isPrefixOf, List.head?_drop]
      exact hk
    have := (findSub_some_imp hfind).2 k hkj
    rw [this] at hpre
    exact Bool.noConfusion hpre
  · rw [if_neg hkj] at hk
    exact Option.noConfusion hk

/-- Soundness of the tokenizer on a collapsed (`streamSafe`) stream: the
token list is well-formed, each content is an infix of the stream, and a
stream starting with `<` never yields a leading text token. -/
theorem parse_sound :
    ∀ (n : Nat) (z : List Char), z.length ≤ n → streamSafe z →
      ∀ T, parseTokens z = some T →
        wfT T ∧ (∀ tok ∈ T, tokStr tok <:+: z) ∧
          (z.head? = some '<' → headNotText T) := by
  intro n
  induction n with
  | zero =>
    intro z hl _ T hp
    have h0 : z = [] := List.length_eq_zero.mp (Nat.le_zero.mp hl)
    subst h0
    rw [parseTokens_nil] at hp
    injection hp with h1
    subst h1
    exact ⟨trivial, fun tok h => absurd h (List.not_mem_nil tok), fun _ => trivial⟩
  | succ n ih =>
    intro z hl hz T hp
    cases z with
    | nil =>
      rw [parseTokens_nil] at hp
      injection hp with h1
      subst h1
      exact ⟨trivial, fun tok h => absurd h (List.not_mem_nil tok), fun _ => trivial⟩
    | cons c rest =>
      simp only [List.length_cons] at hl
      rw [parseTokens_cons] at hp
      by_cases hca : cdataOpen.isPrefixOf (c :: rest) = true ∧
          (findSub cdataClose (c :: rest)).isSome = true
      · rw [if_pos hca] at hp
        cases hfind : findSub cdataClose (c :: rest) with
        | none => rw [hfind] at hca; exact absurd hca.2 (by simp)
        | some j =>
          rw [hfind] at hp
          simp only [Option.some_bind] at hp
          cases hrec : parseTokens ((c :: rest).drop (j + 3)) with
          | none => rw [hrec] at hp; exact Option.noConfusion hp
          | some ts =>
            rw [hrec, Option.map_some'] at hp
            injection hp with h1
            subst h1
            have hfl3 : j + 3 ≤ (c :: rest).length :=
              findSub_le_length (by simp [cdataClose]) hfind
            have hdlen : ((c :: rest).drop (j + 3)).length ≤ n := by
              simp only [List.length_drop, List.length_cons]
              simp only [List.length_cons] at hfl3
              omega
            have hdz : streamSafe ((c :: rest).drop (j + 3)) :=
              streamSafe_suffix hz (List.drop_suffix _ _)
            obtain ⟨hwts, hits, _⟩ := ih _ hdlen hdz ts hrec
            have hjge : 9 ≤ j := by
              by_cases hlt : 9 ≤ j
              · exact hlt
              · exfalso
                have h1 : (c :: rest)[j]? = some ']' :=
                  head_at_findSub (by simp [cdataClose]) hfind rfl
                have h2 : (c :: rest)[j]? = cdataOpen[j]? :=
                  prefix_getElem (List.isPrefixOf_iff_prefix.mp hca.1)
                    (by simp [cdataOpen]; omega)
                rw [h1] at h2
                exact absurd (List.getElem?_mem h2.symm) (by decide)
            have hpre_s : cdataOpen.isPrefixOf ((c :: rest).take (j + 3)) = true := by
              rw [List.isPrefixOf_iff_prefix]
              have he : cdataOpen = ((c :: rest).take (j + 3)).take 9 := by
                rw [List.take_take, min_eq_left (by omega)]
                exact List.prefix_iff_eq_take.mp (List.isPrefixOf_iff_prefix.mp hca.1)
              rw [he]
              exact List.take_prefix _ _
            have hfs : findSub cdataClose ((c :: rest).take (j + 3)) = some j :=
              findSub_take (by simp [cdataClose]) hfind
            have hsl : ((c :: rest).take (j + 3)).length = j + 3 := by
              rw [List.length_take]
              exact min_eq_left hfl3
            have hwtok : wfTok (FormatToken.cdata ((c :: rest).take (j + 3))) :=
              ⟨hpre_s, contentSafe_of_streamSafe hz (List.take_prefix _ _).isInfix,
                j, hfs, hsl⟩
            refine ⟨⟨hwtok, hwts, trivial⟩, ?_, fun _ => trivial⟩
            intro tok htok
            rcases List.mem_cons.mp htok with h2 | hmem
            · rw [h2]
              exact (List.take_prefix _ _).isInfix
            · exact (hits tok hmem).trans (List.drop_suffix _ _).isInfix
      · rw [if_neg hca] at hp
        by_cases hcb : commentOpen.isPrefixOf (c :: rest) = true ∧
            (findSub commentClose (c :: rest)).isSome = true
        · rw [if_pos hcb] at hp
          cases hfind : findSub commentClose (c :: rest) with
          | none => rw [hfind] at hcb; exact absurd hcb.2 (by simp)
          | some j =>
            rw [hfind] at hp
            simp only [Option.some_bind] at hp
            cases hrec : parseTokens ((c :: rest).drop (j + 3)) with
            | none => rw [hrec] at hp; exact Option.noConfusion hp
            | some ts =>
              rw [hrec, Option.map_some'] at hp
              injection hp with h1
              subst h1
              have hfl3 : j + 3 ≤ (c :: rest).length :=
                findSub_le_length (by simp [commentClose]) hfind
              have hdlen : ((c :: rest).drop (j + 3)).length ≤ n := by
                simp only [List.length_drop, List.length_cons]
                simp only [List.length_cons] at hfl3
                omega
              have hdz : streamSafe ((c :: rest).drop (j + 3)) :=
                streamSafe_suffix hz (List.drop_suffix _ _)
              obtain ⟨hwts, hits, _⟩ := ih _ hdlen hdz ts hrec
              have hjge : 1 ≤ j := by
                by_cases hlt : 1 ≤ j
                · exact hlt
                · exfalso
                  have hj0 : j = 0 := by omega
                  subst hj0
                  have h1 : (c :: rest)[0]? = some '-' :=
                    head_at_findSub (by simp [commentClose]) hfind rfl
                  have h2 : (c :: rest).head? = commentOpen.head? :=
                    prefixOf_head (by simp [commentOpen])
                      (by exact hcb.1)
                  simp only [List.head?] at h2
                  injection h2 with h3
                  simp only [List.getElem?_cons_zero] at h1
                  injection h1 with h4
                  rw [h3] at h4
                  exact absurd h4 (by decide)
              have hpre_s : commentOpen.isPrefixOf ((c :: rest).take (j + 3)) = true := by
                rw [List.isPrefixOf_iff_prefix]
                have he : commentOpen = ((c :: rest).take (j + 3)).take 4 := by
                  rw [List.take_take, min_eq_left (by omega)]
                  exact List.prefix_iff_eq_take.mp (List.isPrefixOf_iff_prefix.mp hcb.1)
                rw [he]
                exact List.take_prefix _ _
              have hfs : findSub commentClose ((c :: rest).take (j + 3)) = some j :=
                findSub_take (by simp [commentClose]) hfind
              have hsl : ((c :: rest).take (j + 3)).length = j + 3 := by
                rw [List.length_take]
                exact min_eq_left hfl3
              have hwtok : wfTok (FormatToken.comment ((c :: rest).take (j + 3))) :=
                ⟨hpre_s, contentSafe_of_streamSafe hz (List.take_prefix _ _).isInfix,
                  j, hfs, hsl⟩
              refine ⟨⟨hwtok, hwts, trivial⟩, ?_, fun _ => trivial⟩
              intro tok htok
              rcases List.mem_cons.mp htok with h2 | hmem
              · rw [h2]
                exact (List.take_prefix _ _).isInfix
              · exact (hits tok hmem).trans (List.drop_suffix _ _).isInfix
        · rw [if_neg hcb] at hp
          by_cases hc : c = '<'
          · rw [if_pos hc] at hp
            cases hfind : findSub ('>' :: []) (c :: rest) with
            | none => rw [hfind] at hp; exact Option.noConfusion hp
            | some j =>
              rw [hfind] at hp
              simp only [Option.some_bind] at hp
              cases hrec : parseTokens ((c :: rest).drop (j + 1)) with
              | none => rw [hrec] at hp; exact Option.noConfusion hp
              | some ts =>
                rw [hrec, Option.map_some'] at hp
                injection hp with h1
                subst h1
                have hfl : j + 1 ≤ (c :: rest).length :=
                  findSub_le_length (by simp) hfind
                have hdlen : ((c :: rest).drop (j + 1)).length ≤ n := by
                  simp only [List.length_drop, List.length_cons]
                  simp only [List.length_cons] at hfl
                  omega
                have hdz : streamSafe ((c :: rest).drop (j + 1)) :=
                  streamSafe_suffix hz (List.drop_suffix _ _)
                obtain ⟨hwts, hits, _⟩ := ih _ hdlen hdz ts hrec
                have hfs : findSub ('>' :: []) ((c :: rest).take (j + 1)) = some j :=
                  findSub_take (by simp) hfind
                have hsl : ((c :: rest).take (j + 1)).length = j + 1 := by
                  rw [List.length_take]
                  exact min_eq_left hfl
                have hdropj : ((c :: rest).take (j + 1)).drop j = '>' :: [] :=
                  close_split (by simp) hfs hsl
                have hs2 : (c :: rest).take (j + 1) =
                    ((c :: rest).take (j + 1)).take j ++ '>' :: [] := by
                  nth_rewrite 1 [← List.take_append_drop j ((c :: rest).take (j + 1))]
                  rw [hdropj]
                have hnog : '>' ∉ ((c :: rest).take (j + 1)).take j := by
                  rw [List.take_take, min_eq_left (by omega)]
                  exact no_mem_take_findSub hfind
                have hhead : ((c :: rest).take (j + 1)).head? = some '<' := by
                  rw [head?_take]
                  simp only [List.head?, hc]
                have hwtok : wfTok (FormatToken.tag ((c :: rest).take (j + 1))) :=
                  ⟨hhead, ((c :: rest).take (j + 1)).take j, hs2, hnog⟩
                have hinf_all : ∀ tok ∈ FormatToken.tag ((c :: rest).take (j + 1)) :: ts,
                    tokStr tok <:+: (c :: rest) := by
                  intro tok htok
                  rcases List.mem_cons.mp htok with h2 | hmem
                  · rw [h2]
                    exact (List.take_prefix _ _).isInfix
                  · exact (hits tok hmem).trans (List.drop_suffix _ _).isInfix
                have hneg : tagNeg ((c :: rest).take (j + 1)) ts := by
                  constructor
                  · intro hcd
                    have hcdz : cdataOpen.isPrefixOf (c :: rest) = true := by
                      rw [List.isPrefixOf_iff_prefix] at hcd ⊢
                      exact hcd.trans (List.take_prefix _ _)
                    have hnone : findSub cdataClose (c :: rest) = none := by
                      cases hos : (findSub cdataClose (c :: rest)).isSome with
                      | false => exact isSome_false_eq_none hos
                      | true => exact absurd ⟨hcdz, hos⟩ hca
                    have hnsub : ¬ hasSub cdataClose (c :: rest) :=
                      not_hasSub_of_findSub_none (by simp [cdataClose]) hnone
                    intro tok htok habs
                    exact hnsub (hasSub_lift (by simp [cdataClose])
                      (hinf_all tok htok) habs)
                  · intro hcd
                    have hcdz : commentOpen.isPrefixOf (c :: rest) = true := by
                      rw [List.isPrefixOf_iff_prefix] at hcd ⊢
                      exact hcd.trans (List.take_prefix _ _)
                    have hnone : findSub commentClose (c :: rest) = none := by
                      cases hos : (findSub commentClose (c :: rest)).isSome with
                      | false => exact isSome_false_eq_none hos
                      | true => exact absurd ⟨hcdz, hos⟩ hcb
                    have hnsub : ¬ hasSub commentClose (c :: rest) :=
                      not_hasSub_of_findSub_none (by simp [commentClose]) hnone
                    intro tok htok habs
                    exact hnsub (hasSub_lift (by simp [commentClose])
                      (hinf_all tok htok) habs)
                exact ⟨⟨hwtok, hwts, hneg⟩, hinf_all, fun _ => trivial⟩
          · rw [if_neg hc] at hp
            cases hrec : parseTokens ((c :: rest).dropWhile (fun d => d ≠ '<')) with
            | none => rw [hrec] at hp; exact Option.noConfusion hp
            | some ts =>
              rw [hrec, Option.map_some'] at hp
              injection hp with h1
              have hdlen : ((c :: rest).dropWhile (fun d => d ≠ '<')).length ≤ n := by
                have hpc : (fun d => decide (d ≠ '<')) c = true := by simpa using hc
                rw [List.dropWhile_cons, if_pos hpc]
                have := len_dropWhile_le (fun d => decide (d ≠ '<')) rest
                omega
              have hdz : streamSafe ((c :: rest).dropWhile (fun d => d ≠ '<')) :=
                streamSafe_suffix hz (List.dropWhile_suffix _)
              obtain ⟨hwts, hits, hhts⟩ := ih _ hdlen hdz ts hrec
              by_cases htr : trimL ((c :: rest).takeWhile (fun d => d ≠ '<')) = []
              · rw [if_pos htr] at h1
                subst h1
                refine ⟨hwts, ?_, ?_⟩
                · intro tok hmem
                  exact (hits tok hmem).trans (List.dropWhile_suffix _).isInfix
                · intro habs
                  simp only [List.head?] at habs
                  injection habs with h2
                  exact absurd h2 hc
              · rw [if_neg htr] at h1
                subst h1
                have hmem_lt : '<' ∉ trimL ((c :: rest).takeWhile (fun d => d ≠ '<')) := by
                  intro hmemlt
                  have h2 : '<' ∈ (c :: rest).takeWhile (fun d => d ≠ '<') :=
                    (trimL_isInfix _).subset hmemlt
                  have := List.mem_takeWhile_imp h2
                  simp at this
                have hwtok : wfTok (FormatToken.text
                    (trimL ((c :: rest).takeWhile (fun d => d ≠ '<')))) :=
                  ⟨htr, trimL_idem _, hmem_lt⟩
                have hnt : headNotText ts := by
                  cases hdw : (c :: rest).dropWhile (fun d => d ≠ '<') with
                  | nil =>
                    rw [hdw, parseTokens_nil] at hrec
                    injection hrec with h3
                    rw [← h3]
                    trivial
                  | cons d z2 =>
                    refine hhts ?_
                    rw [hdw]
                    have hd' : (fun x => decide (x ≠ '<')) d = false :=
                      dropWhile_head_not (by rw [hdw]; rfl)
                    have hdeq : d = '<' := by simpa using hd'
                    rw [hdeq]
                    rfl
                refine ⟨⟨hwtok, hwts, hnt⟩, ?_, ?_⟩
                · intro tok htok
                  rcases List.mem_cons.mp htok with h2 | hmem
                  · rw [h2]
                    exact (trimL_isInfix _).trans (List.takeWhile_prefix _).isInfix
                  · exact (hits tok hmem).trans (List.dropWhile_suffix _).isInfix
                · intro habs
                  simp only [List.head?] at habs
                  injection habs with h2
                  exact absurd h2 hc

end XMLFmt

namespace XMLFmt

theorem not_open_prefix_of_head {op u : List Char} {c : Char}
    (hop : op.head? = some '<') (hu : u.head? = some c) (hc : c ≠ '<') :
    op.isPrefixOf u = false := by
  cases hb : op.isPrefixOf u with
  | false => rfl
  | true =>
    exfalso
    have hne : op ≠ [] := by
      intro h0; rw [h0] at hop; exact Option.noConfusion hop
    have h2 := prefixOf_head hne hb
    rw [hu, hop] at h2
    injection h2 with h0
    exact hc h0

/-- One step of the tokenizer on a `<`-free nonempty chunk followed by a
stream that is empty or starts with `<`: the whole chunk is consumed as
(possibly empty after trimming) text. -/
theorem parse_text_chunk {a r : List Char} (ha : a ≠ [])
    (hanl : ∀ x ∈ a, x ≠ '<') (hr : r.head? = some '<' ∨ r = []) :
    parseTokens (a ++ r) =
      (parseTokens r).map (fun ts =>
        if trimL a = [] then ts else .text (trimL a) :: ts) := by
  cases a with
  | nil => exact absurd rfl ha
  | cons c a2 =>
    rw [List.cons_append, parseTokens_cons, ← List.cons_append]
    have hcne : c ≠ '<' := hanl c (List.mem_cons_self _ _)
    have hhd : ((c :: a2) ++ r).head? = some c := rfl
    have h1 : ¬(cdataOpen.isPrefixOf ((c :: a2) ++ r) = true ∧
        (findSub cdataClose ((c :: a2) ++ r)).isSome = true) := by
      rintro ⟨hpre, _⟩
      rw [not_open_prefix_of_head (show cdataOpen.head? = some '<' from rfl)
        hhd hcne] at hpre
      exact Bool.noConfusion hpre
    have h2 : ¬(commentOpen.isPrefixOf ((c :: a2) ++ r) = true ∧
        (findSub commentClose ((c :: a2) ++ r)).isSome = true) := by
      rintro ⟨hpre, _⟩
      rw [not_open_prefix_of_head (show commentOpen.head? = some '<' from rfl)
        hhd hcne] at hpre
      exact Bool.noConfusion hpre
    rw [if_neg h1, if_neg h2, if_neg hcne]
    have hall : ∀ x ∈ c :: a2, (fun d => decide (d ≠ '<')) x = true := by
      intro x hx
      simp only [decide_eq_true_eq]
      exact hanl x hx
    have htake : ((c :: a2) ++ r).takeWhile (fun d => d ≠ '<') = c :: a2 := by
      rw [takeWhile_all_append hall]
      rcases hr with hr | hr
      · rw [takeWhile_head_stop hr (by decide), List.append_nil]
      · rw [hr]
        simp
    have hdrop : ((c :: a2) ++ r).dropWhile (fun d => d ≠ '<') = r := by
      rw [dropWhile_all_append hall]
      rcases hr with hr | hr
      · exact dropWhile_head_stop hr (by decide)
      · rw [hr]
        rfl

    rw [htake, hdrop]

theorem parse_ws_skip {W r : List Char} (hW : wsAll W) (hr : r.head? = some '<') :
    parseTokens (W ++ r) = parseTokens r := by
  cases hWc : W with
  | nil => rw [List.nil_append]
  | cons w W2 =>
    rw [← hWc]
    have hWlt : ∀ x ∈ W, x ≠ '<' := by
      intro x hx h0
      have := hW x hx
      rw [h0] at this
      exact absurd this (by decide)
    rw [parse_text_chunk (by rw [hWc]; simp) hWlt (Or.inl hr), trimL_all_ws hW]
    simp

theorem parse_all_ws {u : List Char} (hu : wsAll u) : parseTokens u = some [] := by
  cases huc : u with
  | nil => exact parseTokens_nil
  | cons c rest =>
    rw [← huc]
    have hult : ∀ x ∈ u, x ≠ '<' := by
      intro x hx h0
      have := hu x hx
      rw [h0] at this
      exact absurd this (by decide)
    have h0 := parse_text_chunk (a := u) (r := []) (by rw [huc]; simp) hult (Or.inr rfl)
    rw [List.append_nil] at h0
    rw [h0, trimL_all_ws hu, parseTokens_nil]
    simp

theorem cdataClose_tails :
    ∀ k, 0 < k → k < cdataClose.length → (cdataClose.drop k).head? ≠ some '<' := by
  intro k h1 h2
  have h3 : k < 3 := h2
  interval_cases k <;> decide

theorem commentClose_tails :
    ∀ k, 0 < k → k < commentClose.length → (commentClose.drop k).head? ≠ some '<' := by
  intro k h1 h2
  have h3 : k < 3 := h2
  interval_cases k <;> decide

end XMLFmt

namespace XMLFmt

theorem parse_inter_cdata {s v : List Char} {T2 : List FormatToken}
    (hwt : wfTok (FormatToken.cdata s))
    (hrec : parseTokens v = some T2) :
    parseTokens (s ++ v) = some (FormatToken.cdata s :: T2) := by
  have hsne : s ≠ [] := wfTok_ne_nil hwt
  obtain ⟨hpre, _, j, hfind, hsl⟩ := hwt
  cases hs : s with
  | nil => exact absurd hs hsne
  | cons c1 srest =>
    rw [← hs]
    have hfe : findSub cdataClose (s ++ v) = some j :=
      findSub_append_end (by simp [cdataClose]) hfind (by rw [hsl]; rfl) v
    have hA : cdataOpen.isPrefixOf (s ++ v) = true := prefixOf_append_right hpre
    rw [hs, List.cons_append, parseTokens_cons, ← List.cons_append, ← hs]
    rw [if_pos ⟨hA, by rw [hfe]; rfl⟩, hfe]
    simp only [Option.some_bind]
    rw [List.take_left' hsl, List.drop_left' hsl, hrec, Option.map_some']

theorem parse_inter_comment {s v : List Char} {T2 : List FormatToken}
    (hwt : wfTok (FormatToken.comment s))
    (hrec : parseTokens v = some T2) :
    parseTokens (s ++ v) = some (FormatToken.comment s :: T2) := by
  have hsne : s ≠ [] := wfTok_ne_nil hwt
  obtain ⟨hpre, hcs, j, hfind, hsl⟩ := hwt
  cases hs : s with
  | nil => exact absurd hs hsne
  | cons c1 srest =>
    rw [← hs]
    have hfe : findSub commentClose (s ++ v) = some j :=
      findSub_append_end (by simp [commentClose]) hfind (by rw [hsl]; rfl) v
    have hA : commentOpen.isPrefixOf (s ++ v) = true := prefixOf_append_right hpre
    have h1 : ¬(cdataOpen.isPrefixOf (s ++ v) = true ∧
        (findSub cdataClose (s ++ v)).isSome = true) := by
      rintro ⟨hpc, _⟩
      have hle : commentOpen <+: cdataOpen :=
        List.prefix_of_prefix_length_le (List.isPrefixOf_iff_prefix.mp hA)
          (List.isPrefixOf_iff_prefix.mp hpc) (by decide)
      have h2 : commentOpen.isPrefixOf cdataOpen = true :=
        List.isPrefixOf_iff_prefix.mpr hle
      exact absurd h2 (by decide)
    rw [hs, List.cons_append, parseTokens_cons, ← List.cons_append, ← hs]
    rw [if_neg h1, if_pos ⟨hA, by rw [hfe]; rfl⟩, hfe]
    simp only [Option.some_bind]
    rw [List.take_left' hsl, List.drop_left' hsl, hrec, Option.map_some']

theorem parse_inter_tag {s v : List Char} {T2 : List FormatToken}
    (hw : wfT (FormatToken.tag s :: T2)) (hIv : Inter T2 v)
    (hrec : parseTokens v = some T2) :
    parseTokens (s ++ v) = some (FormatToken.tag s :: T2) := by
  have hwt : wfTok (FormatToken.tag s) := hw.1
  have hneg : tagNeg s T2 := hw.2.2
  obtain ⟨hhead, s2, hs2eq, hng⟩ := hwt
  have hIfull : Inter (FormatToken.tag s :: T2) (s ++ v) :=
    ⟨[], v, wsAll_nil, by simp [tokStr], hIv⟩
  have hsne : s ≠ [] := by
    rw [hs2eq]
    simp
  cases hs : s with
  | nil => exact absurd hs hsne
  | cons c1 srest =>
    rw [← hs]
    have hc1 : c1 = '<' := by
      rw [hs] at hhead
      simp only [List.head?, Option.some.injEq] at hhead
      exact hhead
    have h1 : ¬(cdataOpen.isPrefixOf (s ++ v) = true ∧
        (findSub cdataClose (s ++ v)).isSome = true) := by
      rintro ⟨hpc, hsome⟩
      by_cases hcp : cdataOpen.isPrefixOf s = true
      · have hnsub : ¬ hasSub cdataClose (s ++ v) :=
          not_hasSub_inter (by simp [cdataClose]) (by decide) cdataClose_tails
            (by decide) (FormatToken.tag s :: T2) (s ++ v) hw hIfull (hneg.1 hcp)
        rw [findSub_eq_none_of_not_hasSub hnsub] at hsome
        exact Bool.noConfusion hsome
      · exact hcp (prefix_trunc
          (by rw [hs2eq]; exact List.mem_append_right s2 (List.mem_cons_self _ _))
          (by decide) hpc)
    have h2 : ¬(commentOpen.isPrefixOf (s ++ v) = true ∧
        (findSub commentClose (s ++ v)).isSome = true) := by
      rintro ⟨hpc, hsome⟩
      by_cases hcp : commentOpen.isPrefixOf s = true
      · have hnsub : ¬ hasSub commentClose (s ++ v) :=
          not_hasSub_inter (by simp [commentClose]) (by decide) commentClose_tails
            (by decide) (FormatToken.tag s :: T2) (s ++ v) hw hIfull (hneg.2 hcp)
        rw [findSub_eq_none_of_not_hasSub hnsub] at hsome
        exact Bool.noConfusion hsome
      · exact hcp (prefix_trunc
          (by rw [hs2eq]; exact List.mem_append_right s2 (List.mem_cons_self _ _))
          (by decide) hpc)
    have hsv : s ++ v = s2 ++ '>' :: v := by
      rw [hs2eq]
      simp
    have hfind : findSub ('>' :: []) (s ++ v) = some s2.length := by
      refine findSub_eq_some _ _ _ (by simp) ?_ ?_
      · rw [hsv, List.drop_left, single_isPrefixOf]
        rfl
      · intro k hk
        cases hb : ('>' :: []).isPrefixOf ((s ++ v).drop k) with
        | false => rfl
        | true =>
          exfalso
          rw [single_isPrefixOf, hsv,
            List.drop_append_of_le_length (by omega)] at hb
          have hne2 : s2.drop k ≠ [] := drop_ne_nil_of_lt hk
          rw [List.head?_append_of_ne_nil _ hne2] at hb
          exact hng (drop_head_mem hb)
    have hslen : s.length = s2.length + 1 := by
      rw [hs2eq, List.length_append]
      rfl
    rw [hs, List.cons_append, parseTokens_cons, ← List.cons_append, ← hs]
    rw [if_neg h1, if_neg h2, if_pos hc1, hfind]
    simp only [Option.some_bind]
    rw [List.take_left' hslen, List.drop_left' hslen, hrec, Option.map_some']

end XMLFmt

namespace XMLFmt

/-- Completeness of the tokenizer over interleavings: a well-formed token
stream laid out with arbitrary whitespace separators re-tokenizes to
exactly the same tokens. -/
theorem parse_inter :
    ∀ (T : List FormatToken) (u : List Char),
      wfT T → Inter T u → parseTokens u = some T := by
  intro T
  induction T with
  | nil =>
    intro u _ hI
    exact parse_all_ws hI
  | cons tok T2 ih =>
    intro u hw hI
    obtain ⟨W, v, hW, hu, hIv⟩ := hI
    subst hu
    have hw2 : wfT T2 := hw.2.1
    cases htok : tok with
    | tag s =>
      have hlt : (tokStr (FormatToken.tag s)).head? = some '<' :=
        wfTok_head_lt (htok ▸ hw.1) trivial
      rw [List.append_assoc, parse_ws_skip hW
        (by rw [List.head?_append_of_ne_nil _ (wfTok_ne_nil (htok ▸ hw.1))]
            exact hlt)]
      exact parse_inter_tag (htok ▸ hw) hIv (ih v hw2 hIv)
    | cdata s =>
      have hlt : (tokStr (FormatToken.cdata s)).head? = some '<' :=
        wfTok_head_lt (htok ▸ hw.1) trivial
      rw [List.append_assoc, parse_ws_skip hW
        (by rw [List.head?_append_of_ne_nil _ (wfTok_ne_nil (htok ▸ hw.1))]
            exact hlt)]
      exact parse_inter_cdata (htok ▸ hw.1) (ih v hw2 hIv)
    | comment s =>
      have hlt : (tokStr (FormatToken.comment s)).head? = some '<' :=
        wfTok_head_lt (htok ▸ hw.1) trivial
      rw [List.append_assoc, parse_ws_skip hW
        (by rw [List.head?_append_of_ne_nil _ (wfTok_ne_nil (htok ▸ hw.1))]
            exact hlt)]
      exact parse_inter_comment (htok ▸ hw.1) (ih v hw2 hIv)
    | text t =>
      have hwt : wfTok (FormatToken.text t) := htok ▸ hw.1
      have hnt : headNotText T2 := by
        have h0 := hw.2.2
        rw [htok] at h0
        exact h0
      have htne : t ≠ [] := hwt.1
      obtain ⟨c0, hc0, hc0w⟩ := trimL_fix_head hwt.2.1 htne
      obtain ⟨cl, hcl, hclw⟩ := trimL_fix_last hwt.2.1 htne
      have htlt : '<' ∉ t := hwt.2.2
      have hWlt : ∀ x ∈ W, x ≠ '<' := by
        intro x hx h0
        have := hW x hx
        rw [h0] at this
        exact absurd this (by decide)
      cases T2 with
      | nil =>
        -- v is pure whitespace: the whole stream is one text chunk
        have hvlt : ∀ x ∈ v, x ≠ '<' := by
          intro x hx h0
          have := hIv x hx
          rw [h0] at this
          exact absurd this (by decide)
        have hne : W ++ tokStr (FormatToken.text t) ++ v ≠ [] := by
          simp only [tokStr]
          intro h0
          rcases List.append_eq_nil.mp h0 with ⟨h1, _⟩
          rcases List.append_eq_nil.mp h1 with ⟨_, h2⟩
          exact htne h2
        have hanl : ∀ x ∈ W ++ tokStr (FormatToken.text t) ++ v, x ≠ '<' := by
          simp only [tokStr]
          intro x hx
          rcases List.mem_append.mp hx with hx1 | hx2
          · rcases List.mem_append.mp hx1 with hx3 | hx4
            · exact hWlt x hx3
            · intro h0; rw [h0] at hx4; exact htlt hx4
          · exact hvlt x hx2
        have hchunk := parse_text_chunk hne hanl (Or.inr rfl)
        rw [List.append_nil] at hchunk
        rw [hchunk, parseTokens_nil]
        have htrim : trimL (W ++ tokStr (FormatToken.text t) ++ v) = t := by
          simp only [tokStr]
          exact trimL_ws_pad hW hIv hc0 hc0w hcl hclw
        rw [htrim, Option.map_some', if_neg htne]
      | cons tok2 T3 =>
        obtain ⟨W2, v2, hW2, hveq, hI2⟩ := hIv
        have hwtok2 : wfTok tok2 := hw2.1
        have hs2ne : tokStr tok2 ≠ [] := wfTok_ne_nil hwtok2
        have hh2 : (tokStr tok2).head? = some '<' :=
          wfTok_head_lt hwtok2 (headNotText_single hnt)
        have hstream : W ++ tokStr (FormatToken.text t) ++ v =
            (W ++ t ++ W2) ++ (tokStr tok2 ++ v2) := by
          rw [hveq]
          simp only [tokStr]
          simp [List.append_assoc]
        rw [hstream]
        have hne : W ++ t ++ W2 ≠ [] := by
          intro h0
          rcases List.append_eq_nil.mp h0 with ⟨h1, _⟩
          rcases List.append_eq_nil.mp h1 with ⟨_, h2⟩
          exact htne h2
        have hanl : ∀ x ∈ W ++ t ++ W2, x ≠ '<' := by
          intro x hx
          rcases List.mem_append.mp hx with hx1 | hx2
          · rcases List.mem_append.mp hx1 with hx3 | hx4
            · exact hWlt x hx3
            · intro h0; rw [h0] at hx4; exact htlt hx4
          · intro h0
            have := hW2 x hx2
            rw [h0] at this
            exact absurd this (by decide)
        have hrhead : (tokStr tok2 ++ v2).head? = some '<' := by
          rw [List.head?_append_of_ne_nil _ hs2ne]
          exact hh2
        rw [parse_text_chunk hne hanl (Or.inl hrhead)]
        have hrec : parseTokens (tokStr tok2 ++ v2) = some (tok2 :: T3) :=
          ih (tokStr tok2 ++ v2) hw2 ⟨[], v2, wsAll_nil, by simp, hI2⟩
        rw [hrec, Option.map_some']
        have htrim : trimL (W ++ t ++ W2) = t :=
          trimL_ws_pad hW hW2 hc0 hc0w hcl hclw
        rw [htrim, if_neg htne]

end XMLFmt

namespace XMLFmt

theorem formatLinesF_adequate (ind : List Char) :
    ∀ (f1 f2 : Nat) (d : Nat) (T : List FormatToken),
      T.length ≤ f1 → T.length ≤ f2 →
      formatLinesF ind f1 d T = formatLinesF ind f2 d T := by
  intro f1
  induction f1 with
  | zero =>
    intro f2 d T h1 _
    have h0 : T = [] := List.length_eq_zero.mp (Nat.le_zero.mp h1)
    subst h0
    cases f2 <;> rfl
  | succ f ih =>
    intro f2 d T h1 h2
    cases T with
    | nil => cases f2 <;> rfl
    | cons tok rest =>
      cases f2 with
      | zero => exact absurd h2 (by simp)
      | succ f2' =>
        simp only [List.length_cons] at h1 h2
        cases tok with
        | comment s =>
          simp only [formatLinesF]
          rw [ih f2' d rest (by omega) (by omega)]
        | cdata s =>
          simp only [formatLinesF]
          rw [ih f2' d rest (by omega) (by omega)]
        | text s =>
          simp only [formatLinesF]
          rw [ih f2' d rest (by omega) (by omega)]
        | tag s =>
          simp only [formatLinesF]
          by_cases hd : (declOpen1.isPrefixOf s || declOpen2.isPrefixOf s) = true
          · rw [if_pos hd, if_pos hd, ih f2' d rest (by omega) (by omega)]
          · rw [if_neg hd, if_neg hd]
            by_cases hc : closeOpen.isPrefixOf s = true
            · rw [if_pos hc, if_pos hc, ih f2' (d - 1) rest (by omega) (by omega)]
            · rw [if_neg hc, if_neg hc]
              by_cases hsc : selfCloseEnd.isSuffixOf s = true
              · rw [if_pos hsc, if_pos hsc, ih f2' d rest (by omega) (by omega)]
              · rw [if_neg hsc, if_neg hsc]
                cases rest with
                | nil =>
                  simp only []
                  rw [ih f2' (d + 1) [] (by simp) (by simp)]
                | cons tok1 rest1 =>
                  simp only [List.length_cons] at h1 h2
                  cases tok1 with
                  | text t =>
                    cases rest1 with
                    | nil =>
                      simp only []
                      rw [ih f2' (d + 1) (FormatToken.text t :: [])
                        (by simp only [List.length_cons, List.length_nil] at h1 ⊢; omega)
                        (by simp only [List.length_cons, List.length_nil] at h2 ⊢; omega)]
                    | cons tok2 rest2 =>
                      simp only [List.length_cons] at h1 h2
                      cases tok2 with
                      | tag cl =>
                        simp only []
                        by_cases hcl : closeOpen.isPrefixOf cl = true
                        · rw [if_pos hcl, if_pos hcl,
                            ih f2' d rest2 (by omega) (by omega)]
                        · rw [if_neg hcl, if_neg hcl,
                            ih f2' (d + 1)
                              (FormatToken.text t :: FormatToken.tag cl :: rest2)
                              (by simp; omega) (by simp; omega)]
                      | text t2 =>
                        simp only []
                        rw [ih f2' (d + 1)
                          (FormatToken.text t :: FormatToken.text t2 :: rest2)
                          (by simp; omega) (by simp; omega)]
                      | comment s2 =>
                        simp only []
                        rw [ih f2' (d + 1)
                          (FormatToken.text t :: FormatToken.comment s2 :: rest2)
                          (by simp; omega) (by simp; omega)]
                      | cdata s2 =>
                        simp only []
                        rw [ih f2' (d + 1)
                          (FormatToken.text t :: FormatToken.cdata s2 :: rest2)
                          (by simp; omega) (by simp; omega)]
                  | tag s1 =>
                    simp only []
                    rw [ih f2' (d + 1) (FormatToken.tag s1 :: rest1)
                      (by simp only [List.length_cons]; omega)
                      (by simp only [List.length_cons]; omega)]
                  | comment s1 =>
                    simp only []
                    rw [ih f2' (d + 1) (FormatToken.comment s1 :: rest1)
                      (by simp only [List.length_cons]; omega)
                      (by simp only [List.length_cons]; omega)]
                  | cdata s1 =>
                    simp only []
                    rw [ih f2' (d + 1) (FormatToken.cdata s1 :: rest1)
                      (by simp only [List.length_cons]; omega)
                      (by simp only [List.length_cons]; omega)]

theorem formatLines_nil (ind : List Char) (d : Nat) :
    formatLines ind d [] = [] := rfl

theorem formatLines_comment (ind : List Char) (d : Nat) (s : List Char)
    (rest : List FormatToken) :
    formatLines ind d (FormatToken.comment s :: rest) =
      (repeatL ind d ++ s) :: formatLines ind d rest := by
  unfold formatLines
  simp only [List.length_cons, formatLinesF]

theorem formatLines_cdata (ind : List Char) (d : Nat) (s : List Char)
    (rest : List FormatToken) :
    formatLines ind d (FormatToken.cdata s :: rest) =
      (repeatL ind d ++ s) :: formatLines ind d rest := by
  unfold formatLines
  simp only [List.length_cons, formatLinesF]

theorem formatLines_text (ind : List Char) (d : Nat) (s : List Char)
    (rest : List FormatToken) :
    formatLines ind d (FormatToken.text s :: rest) =
      (repeatL ind d ++ s) :: formatLines ind d rest := by
  unfold formatLines
  simp only [List.length_cons, formatLinesF]

end XMLFmt

namespace XMLFmt

theorem formatLines_tag_decl {s : List Char} (ind : List Char) (d : Nat)
    (rest : List FormatToken)
    (hd : (declOpen1.isPrefixOf s || declOpen2.isPrefixOf s) = true) :
    formatLines ind d (FormatToken.tag s :: rest) =
      s :: formatLines ind d rest := by
  unfold formatLines
  simp only [List.length_cons, formatLinesF]
  rw [if_pos hd]

theorem formatLines_tag_close {s : List Char} (ind : List Char) (d : Nat)
    (rest : List FormatToken)
    (hd : ¬(declOpen1.isPrefixOf s || declOpen2.isPrefixOf s) = true)
    (hc : closeOpen.isPrefixOf s = true) :
    formatLines ind d (FormatToken.tag s :: rest) =
      (repeatL ind (d - 1) ++ s) :: formatLines ind (d - 1) rest := by
  unfold formatLines
  simp only [List.length_cons, formatLinesF]
  rw [if_neg hd, if_pos hc]

theorem formatLines_tag_selfclose {s : List Char} (ind : List Char) (d : Nat)
    (rest : List FormatToken)
    (hd : ¬(declOpen1.isPrefixOf s || declOpen2.isPrefixOf s) = true)
    (hc : ¬closeOpen.isPrefixOf s = true)
    (hsc : selfCloseEnd.isSuffixOf s = true) :
    formatLines ind d (FormatToken.tag s :: rest) =
      (repeatL ind d ++ s) :: formatLines ind d rest := by
  unfold formatLines
  simp only [List.length_cons, formatLinesF]
  rw [if_neg hd, if_neg hc, if_pos hsc]

theorem formatLines_tag_triple {s t cl : List Char} (ind : List Char) (d : Nat)
    (rest2 : List FormatToken)
    (hd : ¬(declOpen1.isPrefixOf s || declOpen2.isPrefixOf s) = true)
    (hc : ¬closeOpen.isPrefixOf s = true)
    (hsc : ¬selfCloseEnd.isSuffixOf s = true)
    (hcl : closeOpen.isPrefixOf cl = true) :
    formatLines ind d (FormatToken.tag s :: FormatToken.text t ::
        FormatToken.tag cl :: rest2) =
      (repeatL ind d ++ s ++ t ++ cl) :: formatLines ind d rest2 := by
  unfold formatLines
  simp only [List.length_cons, formatLinesF]
  rw [if_neg hd, if_neg hc, if_neg hsc]
  rw [if_pos hcl,
    formatLinesF_adequate ind (rest2.length + 1 + 1) rest2.length d rest2
      (by omega) (le_refl _)]

theorem formatLines_tag_open_triple {s t cl : List Char} (ind : List Char)
    (d : Nat) (rest2 : List FormatToken)
    (hd : ¬(declOpen1.isPrefixOf s || declOpen2.isPrefixOf s) = true)
    (hc : ¬closeOpen.isPrefixOf s = true)
    (hsc : ¬selfCloseEnd.isSuffixOf s = true)
    (hcl : ¬closeOpen.isPrefixOf cl = true) :
    formatLines ind d (FormatToken.tag s :: FormatToken.text t ::
        FormatToken.tag cl :: rest2) =
      (repeatL ind d ++ s) ::
        formatLines ind (d + 1)
          (FormatToken.text t :: FormatToken.tag cl :: rest2) := by
  unfold formatLines
  simp only [List.length_cons, formatLinesF]
  rw [if_neg hd, if_neg hc, if_neg hsc]
  rw [if_neg hcl]

theorem formatLines_tag_open_other {s : List Char} (ind : List Char) (d : Nat)
    (rest : List FormatToken)
    (hd : ¬(declOpen1.isPrefixOf s || declOpen2.isPrefixOf s) = true)
    (hc : ¬closeOpen.isPrefixOf s = true)
    (hsc : ¬selfCloseEnd.isSuffixOf s = true)
    (hshape : ∀ t cl rest2,
      rest ≠ FormatToken.text t :: FormatToken.tag cl :: rest2) :
    formatLines ind d (FormatToken.tag s :: rest) =
      (repeatL ind d ++ s) :: formatLines ind (d + 1) rest := by
  unfold formatLines
  simp only [List.length_cons, formatLinesF]
  rw [if_neg hd, if_neg hc, if_neg hsc]

end XMLFmt

namespace XMLFmt

theorem not_wsAll_of_mem {l : List Char} {c : Char} (hc : c ∈ l)
    (hw : isWS c = false) : ¬ wsAll l := by
  intro h
  rw [h c hc] at hw
  exact Bool.noConfusion hw

theorem wsAll_nl : wsAll ('\n' :: []) := by
  intro c hc
  rcases List.mem_cons.mp hc with h | h
  · rw [h]; rfl
  · exact absurd h (List.not_mem_nil c)

theorem line_facts {W s : List Char} {c0 cl : Char} (hW : wsAll W)
    (h0 : s.head? = some c0) (h0w : isWS c0 = false)
    (h1 : s.getLast? = some cl) (h1w : isWS cl = false) :
    trimL (W ++ s) ≠ [] ∧ trimEndL (W ++ s) = W ++ s := by
  constructor
  · intro h
    exact not_wsAll_of_mem (List.mem_append_right W (head?_mem_self h0)) h0w
      (trimL_eq_nil_iff.mp h)
  · refine trimEndL_fix ?_ h1w
    rw [List.getLast?_append_of_ne_nil _
      (by intro hh; rw [hh] at h0; exact Option.noConfusion h0)]
    exact h1

theorem inter_line1 {W : List Char} (hW : wsAll W) {tok : FormatToken}
    {T2 : List FormatToken} {ls : List (List Char)}
    (hI2 : Inter T2 (List.intercalate ('\n' :: []) ls))
    (hls : ls = [] → T2 = []) :
    Inter (tok :: T2)
      (List.intercalate ('\n' :: []) ((W ++ tokStr tok) :: ls)) := by
  cases hl : ls with
  | nil =>
    rw [intercalate_one]
    refine ⟨W, [], hW, by simp, ?_⟩
    rw [hls hl]
    exact wsAll_nil
  | cons L2 ls2 =>
    rw [intercalate_cons2]
    refine ⟨W, ('\n' :: []) ++ List.intercalate ('\n' :: []) (L2 :: ls2), hW,
      by simp [List.append_assoc], ?_⟩
    exact Inter_ws_prepend wsAll_nl (hl ▸ hI2)

theorem inter_line3 {W : List Char} (hW : wsAll W) {s t cl : List Char}
    {T2 : List FormatToken} {ls : List (List Char)}
    (hI2 : Inter T2 (List.intercalate ('\n' :: []) ls))
    (hls : ls = [] → T2 = []) :
    Inter (FormatToken.tag s :: FormatToken.text t :: FormatToken.tag cl :: T2)
      (List.intercalate ('\n' :: []) ((W ++ s ++ t ++ cl) :: ls)) := by
  have hrest : ∀ (v : List Char), Inter T2 v →
      Inter (FormatToken.text t :: FormatToken.tag cl :: T2) (t ++ (cl ++ v)) :=
    fun v hv => ⟨[], cl ++ v, wsAll_nil, by simp [tokStr], ⟨[], v, wsAll_nil,
      by simp [tokStr], hv⟩⟩
  cases hl : ls with
  | nil =>
    rw [intercalate_one]
    refine ⟨W, t ++ (cl ++ []), hW, by simp [tokStr, List.append_assoc], ?_⟩
    refine hrest [] ?_
    rw [hls hl]
    exact wsAll_nil
  | cons L2 ls2 =>
    rw [intercalate_cons2]
    refine ⟨W, t ++ (cl ++ (('\n' :: []) ++ List.intercalate ('\n' :: []) (L2 :: ls2))),
      hW, by simp [tokStr, List.append_assoc], ?_⟩
    exact hrest _ (Inter_ws_prepend wsAll_nl (hl ▸ hI2))

end XMLFmt

namespace XMLFmt

/-- The reprint of a well-formed token stream: every emitted line is
nonempty after trimming and has no trailing whitespace, and the
newline-joined lines interleave exactly the original token contents. -/
theorem render (ind : List Char) (hind : wsAll ind) :
    ∀ (n : Nat) (T : List FormatToken), T.length ≤ n → ∀ (d : Nat), wfT T →
      (∀ L ∈ formatLines ind d T, trimL L ≠ [] ∧ trimEndL L = L) ∧
      Inter T (List.intercalate ('\n' :: []) (formatLines ind d T)) ∧
      (formatLines ind d T = [] ↔ T = []) := by
  intro n
  induction n with
  | zero =>
    intro T hT d _
    have h0 : T = [] := List.length_eq_zero.mp (Nat.le_zero.mp hT)
    subst h0
    exact ⟨fun L hL => absurd hL (List.not_mem_nil L), wsAll_nil,
      ⟨fun _ => rfl, fun _ => rfl⟩⟩
  | succ n ih =>
    intro T hT d hw
    cases T with
    | nil =>
      exact ⟨fun L hL => absurd hL (List.not_mem_nil L), wsAll_nil,
        ⟨fun _ => rfl, fun _ => rfl⟩⟩
    | cons tok rest =>
      simp only [List.length_cons] at hT
      cases htok : tok with
      | comment s =>
        have hwt : wfTok (FormatToken.comment s) := htok ▸ hw.1
        obtain ⟨hper2, hI2, hiff2⟩ := ih rest (by omega) d hw.2.1
        rw [formatLines_comment]
        have h0 : s.head? = some '<' := by
          have := wfTok_head_lt hwt trivial
          simpa [tokStr] using this
        have h1 : s.getLast? = some '>' := by
          have := wfTok_ends_gt hwt trivial
          simpa [tokStr] using this
        have hLf := line_facts (wsAll_repeatL hind d) h0 (by decide) h1 (by decide)
        refine ⟨?_, ?_, by simp⟩
        · intro L hL
          rcases List.mem_cons.mp hL with h2 | h2
          · rw [h2]; exact hLf
          · exact hper2 L h2
        · exact inter_line1 (wsAll_repeatL hind d) hI2 (fun h => hiff2.mp h)
      | cdata s =>
        have hwt : wfTok (FormatToken.cdata s) := htok ▸ hw.1
        obtain ⟨hper2, hI2, hiff2⟩ := ih rest (by omega) d hw.2.1
        rw [formatLines_cdata]
        have h0 : s.head? = some '<' := by
          have := wfTok_head_lt hwt trivial
          simpa [tokStr] using this
        have h1 : s.getLast? = some '>' := by
          have := wfTok_ends_gt hwt trivial
          simpa [tokStr] using this
        have hLf := line_facts (wsAll_repeatL hind d) h0 (by decide) h1 (by decide)
        refine ⟨?_, ?_, by simp⟩
        · intro L hL
          rcases List.mem_cons.mp hL with h2 | h2
          · rw [h2]; exact hLf
          · exact hper2 L h2
        · exact inter_line1 (wsAll_repeatL hind d) hI2 (fun h => hiff2.mp h)
      | text t =>
        have hwt : wfTok (FormatToken.text t) := htok ▸ hw.1
        obtain ⟨hper2, hI2, hiff2⟩ := ih rest (by omega) d hw.2.1
        rw [formatLines_text]
        obtain ⟨c0, h0, h0w⟩ := trimL_fix_head hwt.2.1 hwt.1
        obtain ⟨cl, h1, h1w⟩ := trimL_fix_last hwt.2.1 hwt.1
        have hLf := line_facts (wsAll_repeatL hind d) h0 h0w h1 h1w
        refine ⟨?_, ?_, by simp⟩
        · intro L hL
          rcases List.mem_cons.mp hL with h2 | h2
          · rw [h2]; exact hLf
          · exact hper2 L h2
        · exact inter_line1 (wsAll_repeatL hind d) hI2 (fun h => hiff2.mp h)
      | tag s =>
        have hwt : wfTok (FormatToken.tag s) := htok ▸ hw.1
        have h0 : s.head? = some '<' := hwt.1
        have h1 : s.getLast? = some '>' := by
          have := wfTok_ends_gt hwt trivial
          simpa [tokStr] using this
        have hsne : s ≠ [] := by
          intro hh
          rw [hh] at h0
          exact Option.noConfusion h0
        by_cases hd : (declOpen1.isPrefixOf s || declOpen2.isPrefixOf s) = true
        · obtain ⟨hper2, hI2, hiff2⟩ := ih rest (by omega) d hw.2.1
          rw [formatLines_tag_decl ind d rest hd]
          have hLf := line_facts wsAll_nil h0 (by decide) h1 (by decide)
          simp only [List.nil_append] at hLf
          refine ⟨?_, ?_, by simp⟩
          · intro L hL
            rcases List.mem_cons.mp hL with h2 | h2
            · rw [h2]; exact hLf
            · exact hper2 L h2
          · have := @inter_line1 [] wsAll_nil (FormatToken.tag s) rest _ hI2
              (fun h => hiff2.mp h)
            simpa [tokStr] using this
        · by_cases hc : closeOpen.isPrefixOf s = true
          · obtain ⟨hper2, hI2, hiff2⟩ := ih rest (by omega) (d - 1) hw.2.1
            rw [formatLines_tag_close ind d rest hd hc]
            have hLf := line_facts (wsAll_repeatL hind (d - 1)) h0 (by decide) h1
              (by decide)
            refine ⟨?_, ?_, by simp⟩
            · intro L hL
              rcases List.mem_cons.mp hL with h2 | h2
              · rw [h2]; exact hLf
              · exact hper2 L h2
            · exact inter_line1 (wsAll_repeatL hind (d - 1)) hI2 (fun h => hiff2.mp h)
          · by_cases hsc : selfCloseEnd.isSuffixOf s = true
            · obtain ⟨hper2, hI2, hiff2⟩ := ih rest (by omega) d hw.2.1
              rw [formatLines_tag_selfclose ind d rest hd hc hsc]
              have hLf := line_facts (wsAll_repeatL hind d) h0 (by decide) h1
                (by decide)
              refine ⟨?_, ?_, by simp⟩
              · intro L hL
                rcases List.mem_cons.mp hL with h2 | h2
                · rw [h2]; exact hLf
                · exact hper2 L h2
              · exact inter_line1 (wsAll_repeatL hind d) hI2 (fun h => hiff2.mp h)
            · -- non-decl, non-close, non-self-closing opening tag
              have hopen : ∀ (rest' : List FormatToken),
                  rest'.length ≤ n → wfT rest' →
                  (∀ t' cl' rest2',
                    rest' ≠ FormatToken.text t' :: FormatToken.tag cl' :: rest2') →
                  (∀ L ∈ formatLines ind d (FormatToken.tag s :: rest'),
                      trimL L ≠ [] ∧ trimEndL L = L) ∧
                  Inter (FormatToken.tag s :: rest')
                    (List.intercalate ('\n' :: [])
                      (formatLines ind d (FormatToken.tag s :: rest'))) ∧
                  (formatLines ind d (FormatToken.tag s :: rest') = [] ↔
                    FormatToken.tag s :: rest' = []) := by
                intro rest' hlen hwr hshape
                obtain ⟨hper2, hI2, hiff2⟩ := ih rest' hlen (d + 1) hwr
                rw [formatLines_tag_open_other ind d rest' hd hc hsc hshape]
                have hLf := line_facts (wsAll_repeatL hind d) h0 (by decide) h1
                  (by decide)
                refine ⟨?_, ?_, by simp⟩
                · intro L hL
                  rcases List.mem_cons.mp hL with h2 | h2
                  · rw [h2]; exact hLf
                  · exact hper2 L h2
                · exact inter_line1 (wsAll_repeatL hind d) hI2 (fun h => hiff2.mp h)
              cases hrest : rest with
              | nil =>
                exact hopen [] (by simp) trivial
                  (fun t' cl' rest2' h => List.noConfusion h)
              | cons tok1 rest1 =>
                cases htok1 : tok1 with
                | text t =>
                  cases hrest1 : rest1 with
                  | nil =>
                    refine hopen (FormatToken.text t :: [])
                      (by rw [hrest, hrest1] at hT
                          simp only [List.length_cons] at hT ⊢
                          omega)
                      (by rw [hrest, htok1, hrest1] at hw; exact hw.2.1) ?_
                    intro t' cl' rest2' hh
                    injection hh with hh1 hh2
                    exact List.noConfusion hh2
                  | cons tok2 rest2 =>
                    cases htok2 : tok2 with
                    | tag cl =>
                      -- the collapse-triple shape
                      have hwchain : wfT (FormatToken.text t :: FormatToken.tag cl
                          :: rest2) := by
                        rw [hrest, htok1, hrest1, htok2] at hw
                        exact hw.2.1
                      have hwt_t : wfTok (FormatToken.text t) := hwchain.1
                      have hwt_cl : wfTok (FormatToken.tag cl) := hwchain.2.1.1
                      have hclne : cl ≠ [] := by
                        intro hh
                        have := hwt_cl.1
                        rw [hh] at this
                        exact Option.noConfusion this
                      have htne : t ≠ [] := hwt_t.1
                      have hlen2 : rest2.length ≤ n := by
                        rw [hrest, hrest1] at hT
                        simp only [List.length_cons] at hT
                        omega
                      by_cases hcl : closeOpen.isPrefixOf cl = true
                      · obtain ⟨hper2, hI2, hiff2⟩ :=
                          ih rest2 hlen2 d hwchain.2.1.2.1
                        rw [formatLines_tag_triple ind d rest2 hd hc hsc hcl]
                        have h0t : (s ++ t ++ cl).head? = some '<' := by
                          rw [List.head?_append_of_ne_nil _
                            (by intro hh
                                rcases List.append_eq_nil.mp hh with ⟨hh1, _⟩
                                exact hsne hh1)]
                          rw [List.head?_append_of_ne_nil _ hsne]
                          exact h0
                        have h1t : (s ++ t ++ cl).getLast? = some '>' := by
                          rw [List.getLast?_append_of_ne_nil _ hclne]
                          have := wfTok_ends_gt hwt_cl trivial
                          simpa [tokStr] using this
                        have hLf := line_facts (wsAll_repeatL hind d) h0t
                          (by decide) h1t (by decide)
                        rw [show repeatL ind d ++ s ++ t ++ cl =
                          repeatL ind d ++ (s ++ t ++ cl) from by
                            simp [List.append_assoc]] 
                        refine ⟨?_, ?_, by simp⟩
                        · intro L hL
                          rcases List.mem_cons.mp hL with h2 | h2
                          · rw [h2]; exact hLf
                          · exact hper2 L h2
                        · have := @inter_line3 (repeatL ind d)
                            (wsAll_repeatL hind d) s t cl rest2 _ hI2
                            (fun h => hiff2.mp h)
                          rw [show repeatL ind d ++ s ++ t ++ cl =
                            repeatL ind d ++ (s ++ t ++ cl) from by
                              simp [List.append_assoc]] at this
                          exact this
                      · obtain ⟨hper2, hI2, hiff2⟩ :=
                          ih (FormatToken.text t :: FormatToken.tag cl :: rest2)
                            (by rw [hrest, hrest1] at hT
                                simp only [List.length_cons] at hT ⊢
                                omega)
                            (d + 1) hwchain
                        rw [formatLines_tag_open_triple ind d rest2 hd hc hsc hcl]
                        have hLf := line_facts (wsAll_repeatL hind d) h0
                          (by decide) h1 (by decide)
                        refine ⟨?_, ?_, by simp⟩
                        · intro L hL
                          rcases List.mem_cons.mp hL with h2 | h2
                          · rw [h2]; exact hLf
                          · exact hper2 L h2
                        · exact inter_line1 (wsAll_repeatL hind d) hI2
                            (fun h => hiff2.mp h)
                    | text t2 =>
                      refine hopen (FormatToken.text t :: FormatToken.text t2 ::
                        rest2) ?_ ?_ ?_
                      · rw [hrest, hrest1] at hT
                        simp only [List.length_cons] at hT ⊢
                        omega
                      · rw [hrest, htok1, hrest1, htok2] at hw
                        exact hw.2.1
                      · intro t' cl' rest2' hh
                        injection hh with hh1 hh2
                        injection hh2 with hh3 hh4
                        exact FormatToken.noConfusion hh3
                    | comment s2 =>
                      refine hopen (FormatToken.text t :: FormatToken.comment s2 ::
                        rest2) ?_ ?_ ?_
                      · rw [hrest, hrest1] at hT
                        simp only [List.length_cons] at hT ⊢
                        omega
                      · rw [hrest, htok1, hrest1, htok2] at hw
                        exact hw.2.1
                      · intro t' cl' rest2' hh
                        injection hh with hh1 hh2
                        injection hh2 with hh3 hh4
                        exact FormatToken.noConfusion hh3
                    | cdata s2 =>
                      refine hopen (FormatToken.text t :: FormatToken.cdata s2 ::
                        rest2) ?_ ?_ ?_
                      · rw [hrest, hrest1] at hT
                        simp only [List.length_cons] at hT ⊢
                        omega
                      · rw [hrest, htok1, hrest1, htok2] at hw
                        exact hw.2.1
                      · intro t' cl' rest2' hh
                        injection hh with hh1 hh2
                        injection hh2 with hh3 hh4
                        exact FormatToken.noConfusion hh3
                | tag s1 =>
                  refine hopen (FormatToken.tag s1 :: rest1) ?_ ?_ ?_
                  · rw [hrest] at hT
                    simp only [List.length_cons] at hT ⊢
                    omega
                  · rw [hrest, htok1] at hw
                    exact hw.2.1
                  · intro t' cl' rest2' hh
                    injection hh with hh1 hh2
                    exact FormatToken.noConfusion hh1
                | comment s1 =>
                  refine hopen (FormatToken.comment s1 :: rest1) ?_ ?_ ?_
                  · rw [hrest] at hT
                    simp only [List.length_cons] at hT ⊢
                    omega
                  · rw [hrest, htok1] at hw
                    exact hw.2.1
                  · intro t' cl' rest2' hh
                    injection hh with hh1 hh2
                    exact FormatToken.noConfusion hh1
                | cdata s1 =>
                  refine hopen (FormatToken.cdata s1 :: rest1) ?_ ?_ ?_
                  · rw [hrest] at hT
                    simp only [List.length_cons] at hT ⊢
                    omega
                  · rw [hrest, htok1] at hw
                    exact hw.2.1
                  · intro t' cl' rest2' hh
                    injection hh with hh1 hh2
                    exact FormatToken.noConfusion hh1

end XMLFmt

namespace XMLFmt

theorem map_self {α : Type} {f : α → α} :
    ∀ {l : List α}, (∀ x ∈ l, f x = x) → l.map f = l := by
  intro l
  induction l with
  | nil => intro _; rfl
  | cons a t ih =>
    intro h
    rw [List.map_cons, h a (List.mem_cons_self _ _),
      ih (fun x hx => h x (List.mem_cons_of_mem _ hx))]

theorem filter_self {α : Type} {p : α → Bool} :
    ∀ {l : List α}, (∀ x ∈ l, p x = true) → l.filter p = l := by
  intro l
  induction l with
  | nil => intro _; rfl
  | cons a t ih =>
    intro h
    rw [List.filter_cons, h a (List.mem_cons_self _ _)]
    simp only [if_true]
    rw [ih (fun x hx => h x (List.mem_cons_of_mem _ hx))]

theorem joinLines_eq {lines : List (List Char)}
    (h : ∀ L ∈ lines, trimL L ≠ [] ∧ trimEndL L = L) :
    joinLines lines = List.intercalate ('\n' :: []) lines := by
  unfold joinLines
  rw [filter_self (fun L hL => decide_eq_true (h L hL).1),
    map_self (fun L hL => (h L hL).2)]

theorem ne_nil_of_trimL_ne {L : List Char} (h : trimL L ≠ []) : L ≠ [] := by
  intro h0
  rw [h0] at h
  exact h rfl

theorem repeatL_zero (ind : List Char) : repeatL ind 0 = [] := rfl

theorem formatLines_head0 {ind : List Char} :
    ∀ {T : List FormatToken}, wfT T → T ≠ [] →
      ∃ L ls, formatLines ind 0 T = L :: ls ∧
        ∃ c, L.head? = some c ∧ isWS c = false := by
  intro T hw hne
  cases T with
  | nil => exact absurd rfl hne
  | cons tok rest =>
    cases htok : tok with
    | comment s =>
      have hwt : wfTok (FormatToken.comment s) := htok ▸ hw.1
      have h0 : s.head? = some '<' := by
        have := wfTok_head_lt hwt trivial
        simpa [tokStr] using this
      exact ⟨repeatL ind 0 ++ s, _, formatLines_comment ind 0 s rest,
        '<', by rw [repeatL_zero, List.nil_append]; exact h0, by decide⟩
    | cdata s =>
      have hwt : wfTok (FormatToken.cdata s) := htok ▸ hw.1
      have h0 : s.head? = some '<' := by
        have := wfTok_head_lt hwt trivial
        simpa [tokStr] using this
      exact ⟨repeatL ind 0 ++ s, _, formatLines_cdata ind 0 s rest,
        '<', by rw [repeatL_zero, List.nil_append]; exact h0, by decide⟩
    | text t =>
      have hwt : wfTok (FormatToken.text t) := htok ▸ hw.1
      obtain ⟨c0, h0, h0w⟩ := trimL_fix_head hwt.2.1 hwt.1
      exact ⟨repeatL ind 0 ++ t, _, formatLines_text ind 0 t rest,
        c0, by rw [repeatL_zero, List.nil_append]; exact h0, h0w⟩
    | tag s =>
      have hwt : wfTok (FormatToken.tag s) := htok ▸ hw.1
      have h0 : s.head? = some '<' := hwt.1
      have hsne : s ≠ [] := by
        intro hh
        rw [hh] at h0
        exact Option.noConfusion h0
      by_cases hd : (declOpen1.isPrefixOf s || declOpen2.isPrefixOf s) = true
      · exact ⟨s, _, formatLines_tag_decl ind 0 rest hd, '<', h0, by decide⟩
      · by_cases hc : closeOpen.isPrefixOf s = true
        · exact ⟨repeatL ind (0 - 1) ++ s, _,
            formatLines_tag_close ind 0 rest hd hc,
            '<', by rw [show (0 : Nat) - 1 = 0 from rfl, repeatL_zero,
              List.nil_append]; exact h0, by decide⟩
        · by_cases hsc : selfCloseEnd.isSuffixOf s = true
          · exact ⟨repeatL ind 0 ++ s, _,
              formatLines_tag_selfclose ind 0 rest hd hc hsc,
              '<', by rw [repeatL_zero, List.nil_append]; exact h0, by decide⟩
          · cases hrest : rest with
            | nil =>
              exact ⟨repeatL ind 0 ++ s, _,
                formatLines_tag_open_other ind 0 [] hd hc hsc
                  (fun t' cl' rest2' h => List.noConfusion h),
                '<', by rw [repeatL_zero, List.nil_append]; exact h0, by decide⟩
            | cons tok1 rest1 =>
              cases htok1 : tok1 with
              | text t =>
                cases hrest1 : rest1 with
                | nil =>
                  refine ⟨repeatL ind 0 ++ s, _,
                    formatLines_tag_open_other ind 0 (FormatToken.text t :: [])
                      hd hc hsc ?_,
                    '<', by rw [repeatL_zero, List.nil_append]; exact h0,
                    by decide⟩
                  intro t' cl' rest2' hh
                  injection hh with hh1 hh2
                  exact List.noConfusion hh2
                | cons tok2 rest2 =>
                  cases htok2 : tok2 with
                  | tag cl =>
                    by_cases hcl : closeOpen.isPrefixOf cl = true
                    · refine ⟨repeatL ind 0 ++ s ++ t ++ cl, _,
                        formatLines_tag_triple ind 0 rest2 hd hc hsc hcl,
                        '<', ?_, by decide⟩
                      rw [repeatL_zero, List.nil_append,
                        List.head?_append_of_ne_nil _
                          (by intro hh
                              rcases List.append_eq_nil.mp hh with ⟨hh1, _⟩
                              exact hsne hh1),
                        List.head?_append_of_ne_nil _ hsne]
                      exact h0
                    · exact ⟨repeatL ind 0 ++ s, _,
                        formatLines_tag_open_triple ind 0 rest2 hd hc hsc hcl,
                        '<', by rw [repeatL_zero, List.nil_append]; exact h0,
                        by decide⟩
                  | text t2 =>
                    refine ⟨repeatL ind 0 ++ s, _,
                      formatLines_tag_open_other ind 0
                        (FormatToken.text t :: FormatToken.text t2 :: rest2)
                        hd hc hsc ?_,
                      '<', by rw [repeatL_zero, List.nil_append]; exact h0,
                      by decide⟩
                    intro t' cl' rest2' hh
                    injection hh with hh1 hh2
                    injection hh2 with hh3 hh4
                    exact FormatToken.noConfusion hh3
                  | comment s2 =>
                    refine ⟨repeatL ind 0 ++ s, _,
                      formatLines_tag_open_other ind 0
                        (FormatToken.text t :: FormatToken.comment s2 :: rest2)
                        hd hc hsc ?_,
                      '<', by rw [repeatL_zero, List.nil_append]; exact h0,
                      by decide⟩
                    intro t' cl' rest2' hh
                    injection hh with hh1 hh2
                    injection hh2 with hh3 hh4
                    exact FormatToken.noConfusion hh3
                  | cdata s2 =>
                    refine ⟨repeatL ind 0 ++ s, _,
                      formatLines_tag_open_other ind 0
                        (FormatToken.text t :: FormatToken.cdata s2 :: rest2)
                        hd hc hsc ?_,
                      '<', by rw [repeatL_zero, List.nil_append]; exact h0,
                      by decide⟩
                    intro t' cl' rest2' hh
                    injection hh with hh1 hh2
                    injection hh2 with hh3 hh4
                    exact FormatToken.noConfusion hh3
              | tag s1 =>
                refine ⟨repeatL ind 0 ++ s, _,
                  formatLines_tag_open_other ind 0 (FormatToken.tag s1 :: rest1)
                    hd hc hsc ?_,
                  '<', by rw [repeatL_zero, List.nil_append]; exact h0,
                  by decide⟩
                intro t' cl' rest2' hh
                injection hh with hh1 hh2
                exact FormatToken.noConfusion hh1
              | comment s1 =>
                refine ⟨repeatL ind 0 ++ s, _,
                  formatLines_tag_open_other ind 0 (FormatToken.comment s1 :: rest1)
                    hd hc hsc ?_,
                  '<', by rw [repeatL_zero, List.nil_append]; exact h0,
                  by decide⟩
                intro t' cl' rest2' hh
                injection hh with hh1 hh2
                exact FormatToken.noConfusion hh1
              | cdata s1 =>
                refine ⟨repeatL ind 0 ++ s, _,
                  formatLines_tag_open_other ind 0 (FormatToken.cdata s1 :: rest1)
                    hd hc hsc ?_,
                  '<', by rw [repeatL_zero, List.nil_append]; exact h0,
                  by decide⟩
                intro t' cl' rest2' hh
                injection hh with hh1 hh2
                exact FormatToken.noConfusion hh1

end XMLFmt

namespace XMLFmt

/-- List-level idempotence of the formatter: reformatting a formatted
output reproduces it exactly. -/
theorem formatXMLL_idem {x F : List Char}
    (h : formatXMLL defaultIndent x = some F) :
    formatXMLL defaultIndent F = some F := by
  unfold formatXMLL at h ⊢
  cases hp : parseTokens (collapse (trimL x)) with
  | none => rw [hp] at h; exact Option.noConfusion h
  | some T =>
    rw [hp, Option.map_some'] at h
    injection h with h1
    have hz : streamSafe (collapse (trimL x)) := streamSafe_collapse _
    obtain ⟨hwT, _, _⟩ :=
      parse_sound (collapse (trimL x)).length _ (le_refl _) hz T hp
    have hind : wsAll defaultIndent := by
      intro c hc
      rcases List.mem_cons.mp hc with h | h
      · rw [h]; rfl
      · rcases List.mem_cons.mp h with h2 | h2
        · rw [h2]; rfl
        · exact absurd h2 (List.not_mem_nil c)
    obtain ⟨hper, hI, hiff⟩ := render defaultIndent hind T.length T (le_refl _) 0 hwT
    have hF : F = List.intercalate ('\n' :: []) (formatLines defaultIndent 0 T) := by
      rw [← h1]
      unfold formatTokens
      exact joinLines_eq hper
    have htF : trimL F = F := by
      cases hlines : formatLines defaultIndent 0 T with
      | nil =>
        rw [hlines, intercalate_nil2] at hF
        rw [hF]
        rfl
      | cons L1 ls =>
        have hTne : T ≠ [] := by
          intro h0
          rw [hiff.mpr h0] at hlines
          exact List.noConfusion hlines
        have hL1mem : L1 ∈ formatLines defaultIndent 0 T := by
          rw [hlines]
          exact List.mem_cons_self _ _
        have hL1f := hper L1 hL1mem
        have hL1ne : L1 ≠ [] := ne_nil_of_trimL_ne hL1f.1
        obtain ⟨L, ls', heq, c, hc, hcw⟩ := formatLines_head0 hwT hTne
        rw [hlines] at heq
        injection heq with he1 _
        have hhead : F.head? = some c := by
          rw [hF, hlines, join_head hL1ne, he1]
          exact hc
        obtain ⟨M, hM, hMl⟩ := @join_getLast ('\n' :: []) ls L1
          (by intro l hl
              refine ne_nil_of_trimL_ne ?_
              exact (hper l (by rw [hlines]; exact hl)).1)
        have hMf := hper M (by rw [hlines]; exact hM)
        obtain ⟨cm, hcm, hcmw⟩ := trimEndL_fix_last hMf.2 (ne_nil_of_trimL_ne hMf.1)
        have hlast : F.getLast? = some cm := by
          rw [hF, hlines, hMl]
          exact hcm
        exact trimL_fix hhead hcw hlast hcmw
    have hIF : Inter T F := by
      rw [hF]
      exact hI
    have hparse : parseTokens (collapse F) = some T :=
      parse_inter T (collapse F) hwT (collapse_inter T F hwT hIF)
    rw [htF, hparse, Option.map_some', h1]

end XMLFmt

namespace XMLFmt

/-- C7.  The XML formatter is idempotent: whenever `formatXML` succeeds
(which, by the divergence model, is exactly when the tokenizer terminates
on the collapsed input), running `formatXML` on its own output succeeds
and reproduces that output unchanged:
`formatXML x = some y → formatXML y = some y`. -/
theorem formatXML_idempotent (x y : String) (h : formatXML x = some y) :
    formatXML y = some y := by
  unfold formatXML at h ⊢
  cases hf : formatXMLL defaultIndent x.data with
  | none => rw [hf] at h; exact Option.noConfusion h
  | some F =>
    rw [hf, Option.map_some'] at h
    injection h with h1
    have hyd : y.data = F := by rw [← h1]
    rw [hyd, formatXMLL_idem hf, Option.map_some', h1]

/-- C7 witness: the concrete run on `"<a><b>hi</b></a>"`. -/
theorem formatXML_idempotent_witness :
    formatXML "<a><b>hi</b></a>" = some "<a>\n  <b>hi</b>\n</a>" ∧
      formatXML "<a>\n  <b>hi</b>\n</a>" = some "<a>\n  <b>hi</b>\n</a>" :=
  ⟨by decide,
    formatXML_idempotent "<a><b>hi</b></a>" "<a>\n  <b>hi</b>\n</a>" (by decide)⟩

end XMLFmt
